import Mathlib

/- Verification of the redis-C data-structure core against its specification.

   The C sources under src/src are embedded shallowly:
   - machine integers become Nat/Int; where the source's arithmetic can
     overflow and the source gives that overflow a meaning (the saturating
     bin updates, the uint64 FNV hash, the int32 accumulator of
     cms_check_mean_alt) the reduction modulo 2^32 or 2^64 is written
     explicitly; the int64 elements_added counter, whose signed overflow
     would be undefined behaviour in C, is modeled as a mathematical Int;
   - the C doubles of the geohash module are modeled as rationals: every
     value geohash_encode/geohash_get_bounds computes is a dyadic rational
     of magnitude at most 180 and denominator at most 2^30, which an IEEE
     double represents exactly, so the rational model is exact;
   - stateful functions take the struct value and return the updated value;
     functions that can fail return the C status value or an Except;
   - the skip list's pointer graph is embedded as an arena (a list of node
     slots addressed by allocation index), with the head sentinel's forward
     array held in the state; traversal loops take the fuel that a
     terminating C execution is bounded by (the arena size). -/

set_option maxRecDepth 10000

namespace RedisC

/-! ## Count-min sketch (src/src/data_structure/count_min_sketch.c) -/

/-- Two's-complement reading of the low 32 bits of a natural number
(the C conversion from uint32_t to int32_t). -/
def int32OfNat (n : Nat) : Int :=
  if n % 2 ^ 32 < 2 ^ 31 then ((n % 2 ^ 32 : Nat) : Int)
  else ((n % 2 ^ 32 : Nat) : Int) - 2 ^ 32

/-- Low 32 bits of an integer (the C conversion from int32_t to uint32_t). -/
def natOfInt32 (a : Int) : Nat := (a % 2 ^ 32).toNat

/-- Reduction of an integer to the int32_t range by two's complement,
what gcc does on a wrapping int32 addition. -/
def wrap32 (a : Int) : Int := int32OfNat (natOfInt32 a)

def INT32_MAX : Int := 2 ^ 31 - 1

def INT32_MIN : Int := -(2 ^ 31)

/-- count_min_sketch.h: CMS_ERROR is INT32_MIN. -/
def CMS_ERROR : Int := INT32_MIN

def FNV_OFFSET : Nat := 14695981039346656037

def FNV_PRIME : Nat := 1099511628211

/-- Keys are byte strings (the C const char*). -/
abbrev Key := List Nat

/-- FNV-1a over the key bytes with the magic-number seed
(count_min_sketch.c, __fnv_1a); all arithmetic is uint64, reduced mod 2^64.
Each byte is folded as (unsigned char), hence the mod 256. -/
def fnv_1a (key : Key) (seed : Nat) : Nat :=
  key.foldl (fun h b => ((h ^^^ (b % 256)) * FNV_PRIME) % 2 ^ 64)
    ((FNV_OFFSET + 31 * seed) % 2 ^ 64)

/-- count_min_sketch.c, __default_hash: one FNV-1a value per row. -/
def default_hash (num_hashes : Nat) (key : Key) : List Nat :=
  (List.range num_hashes).map (fun i => fnv_1a key i)

/-- The CountMinSketch struct of count_min_sketch.h.  The double fields
are modeled as rationals; bins is the flat row-major grid. -/
structure CountMinSketch where
  depth : Nat
  width : Nat
  elements_added : Int
  confidence : ℚ
  error_rate : ℚ
  hash_function : Nat → Key → List Nat
  bins : List Int

/-- count_min_sketch.c, __setup_cms: zeroed grid of width*depth bins,
default hash function, zero running total. -/
def setup_cms (width depth : Nat) (error_rate confidence : ℚ) :
    CountMinSketch :=
  { width := width, depth := depth, elements_added := 0,
    confidence := confidence, error_rate := error_rate,
    hash_function := default_hash,
    bins := List.replicate (width * depth) 0 }

/-- count_min_sketch.c, cms_init_by_dim: fails if width or depth is 0,
otherwise confidence = 1 - 2^-depth and error_rate = 2/width. -/
def cms_init_by_dim (width depth : Nat) : Option CountMinSketch :=
  if depth < 1 ∨ width < 1 then none
  else some (setup_cms width depth (2 / (width : ℚ)) (1 - 1 / 2 ^ depth))

/-- count_min_sketch.c, __safe_add: a bin already at INT32_MAX or INT32_MIN
is returned unchanged; otherwise the exact sum a + b (b is a uint32 amount,
so the sum cannot underflow) clamped to INT32_MAX. -/
def safe_add (a : Int) (b : Nat) : Int :=
  if a = INT32_MAX ∨ a = INT32_MIN then a
  else if INT32_MAX < a + b then INT32_MAX else a + b

/-- count_min_sketch.c, __safe_sub: a bin already at INT32_MAX or INT32_MIN
is returned unchanged; otherwise the exact difference a - b (b a uint32
amount, so it cannot overflow upward) clamped to INT32_MIN. -/
def safe_sub (a : Int) (b : Nat) : Int :=
  if a = INT32_MAX ∨ a = INT32_MIN then a
  else if a - b < INT32_MIN then INT32_MIN else a - b

/-- The per-row update loop shared by cms_add_inc_alt (op = safe_add) and
cms_remove_inc_alt (op = safe_sub): row i touches bin
(hashes[i] mod width) + i*width, stores op(bin, x) there, and folds the
minimum of the freshly written values into the accumulator. -/
def cms_row_loop (op : Int → Nat → Int) (hashes : List Nat) (width x : Nat) :
    Nat → Nat → List Int → Int → List Int × Int
  | _, 0, bins, num_add => (bins, num_add)
  | i, rows + 1, bins, num_add =>
    let bin : Nat := hashes.getD i 0 % width + i * width
    let v : Int := op (bins.getD bin 0) x
    cms_row_loop op hashes width x (i + 1) rows (bins.set bin v)
      (if v < num_add then v else num_add)

/-- count_min_sketch.c, cms_add_inc_alt: fails (CMS_ERROR, state untouched)
when fewer than depth hashes are supplied; otherwise saturating-adds x into
one bin per row, adds x to elements_added and returns the minimum
post-update bin. -/
def cms_add_inc_alt (cms : CountMinSketch) (hashes : List Nat)
    (num_hashes x : Nat) : Int × CountMinSketch :=
  if num_hashes < cms.depth then (CMS_ERROR, cms)
  else
    let r := cms_row_loop safe_add hashes cms.width x 0 cms.depth cms.bins
      INT32_MAX
    (r.2, { cms with bins := r.1,
                     elements_added := cms.elements_added + x })

/-- count_min_sketch.c, cms_remove_inc_alt: the subtracting counterpart of
cms_add_inc_alt, with elements_added decremented by x. -/
def cms_remove_inc_alt (cms : CountMinSketch) (hashes : List Nat)
    (num_hashes x : Nat) : Int × CountMinSketch :=
  if num_hashes < cms.depth then (CMS_ERROR, cms)
  else
    let r := cms_row_loop safe_sub hashes cms.width x 0 cms.depth cms.bins
      INT32_MAX
    (r.2, { cms with bins := r.1,
                     elements_added := cms.elements_added - x })

/-- The read-only minimum loop of cms_check_alt. -/
def cms_check_loop (bins : List Int) (hashes : List Nat) (width : Nat) :
    Nat → Nat → Int → Int
  | _, 0, num_add => num_add
  | i, rows + 1, num_add =>
    let bin : Nat := hashes.getD i 0 % width + i * width
    let v : Int := bins.getD bin 0
    cms_check_loop bins hashes width (i + 1) rows
      (if v < num_add then v else num_add)

/-- count_min_sketch.c, cms_check_alt: CMS_ERROR on insufficient hashes,
otherwise the minimum of the depth addressed bins.  The source reads but
never writes the struct, so the embedding is a pure function. -/
def cms_check_alt (cms : CountMinSketch) (hashes : List Nat)
    (num_hashes : Nat) : Int :=
  if num_hashes < cms.depth then CMS_ERROR
  else cms_check_loop cms.bins hashes cms.width 0 cms.depth INT32_MAX

/-- The int32 accumulation loop of cms_check_mean_alt; the += wraps in
two's complement (signed overflow left to gcc behaviour). -/
def cms_mean_loop (bins : List Int) (hashes : List Nat) (width : Nat) :
    Nat → Nat → Int → Int
  | _, 0, num_add => num_add
  | i, rows + 1, num_add =>
    let bin : Nat := hashes.getD i 0 % width + i * width
    cms_mean_loop bins hashes width (i + 1) rows
      (wrap32 (num_add + bins.getD bin 0))

/-- count_min_sketch.c, cms_check_mean_alt: CMS_ERROR on insufficient
hashes, otherwise num_add / depth.  num_add is int32_t and depth uint32_t,
so C's usual arithmetic conversions make this an UNSIGNED division of the
two's-complement bit pattern of num_add, converted back to int32_t —
embedded as written, not as the spec's truncated average. -/
def cms_check_mean_alt (cms : CountMinSketch) (hashes : List Nat)
    (num_hashes : Nat) : Int :=
  if num_hashes < cms.depth then CMS_ERROR
  else
    int32OfNat
      (natOfInt32 (cms_mean_loop cms.bins hashes cms.width 0 cms.depth 0) /
        cms.depth)

/-- count_min_sketch.c, cms_get_hashes. -/
def cms_get_hashes (cms : CountMinSketch) (key : Key) : List Nat :=
  cms.hash_function cms.depth key

/-- count_min_sketch.c, cms_add_inc: hash the key and delegate, passing
depth as the hash count. -/
def cms_add_inc (cms : CountMinSketch) (key : Key) (x : Nat) :
    Int × CountMinSketch :=
  cms_add_inc_alt cms (cms_get_hashes cms key) cms.depth x

/-- count_min_sketch.c, cms_remove_inc. -/
def cms_remove_inc (cms : CountMinSketch) (key : Key) (x : Nat) :
    Int × CountMinSketch :=
  cms_remove_inc_alt cms (cms_get_hashes cms key) cms.depth x

/-- count_min_sketch.h, cms_add: the amount-1 convenience form. -/
def cms_add (cms : CountMinSketch) (key : Key) : Int × CountMinSketch :=
  cms_add_inc cms key 1

/-- count_min_sketch.c, cms_check. -/
def cms_check (cms : CountMinSketch) (key : Key) : Int :=
  cms_check_alt cms (cms_get_hashes cms key) cms.depth

/-- count_min_sketch.c, cms_check_mean. -/
def cms_check_mean (cms : CountMinSketch) (key : Key) : Int :=
  cms_check_mean_alt cms (cms_get_hashes cms key) cms.depth

/-- One mutating counter operation, for reasoning about call sequences. -/
inductive CmsOp where
  | add (key : Key) (x : Nat)
  | remove (key : Key) (x : Nat)
deriving DecidableEq

/-- Apply one operation through the key-based entry points. -/
def cmsApply (cms : CountMinSketch) : CmsOp → CountMinSketch
  | .add k x => (cms_add_inc cms k x).2
  | .remove k x => (cms_remove_inc cms k x).2

/-- Run a sequence of add/remove calls. -/
def cmsRun (cms : CountMinSketch) (ops : List CmsOp) : CountMinSketch :=
  ops.foldl cmsApply cms

/-- The exact signed sum of all amounts added minus all amounts removed. -/
def cmsSignedSum : List CmsOp → Int
  | [] => 0
  | .add _ x :: ops => (x : Int) + cmsSignedSum ops
  | .remove _ x :: ops => -(x : Int) + cmsSignedSum ops

/-- The bin row i of a key addresses (for the default hash function). -/
def touchedBin (width : Nat) (key : Key) (i : Nat) : Nat :=
  fnv_1a key i % width + i * width

/-- All bins a key addresses. -/
def touchedSet (width depth : Nat) (key : Key) : List Nat :=
  (List.range depth).map (touchedBin width key)

def opKey : CmsOp → Key
  | .add k _ => k
  | .remove k _ => k

/-- How many operations of the sequence touch bin j. -/
def hitCount (width depth : Nat) (j : Nat) (ops : List CmsOp) : Nat :=
  ops.countP (fun op => decide (j ∈ touchedSet width depth (opKey op)))

/-! ### Supporting lemmas: count-min sketch -/

theorem list_getD_set (l : List Int) (i j : Nat) (a : Int) :
    (l.set i a).getD j 0 = if i = j ∧ i < l.length then a else l.getD j 0 := by
  simp only [List.getD_eq_getElem?_getD, List.getElem?_set]
  by_cases hij : i = j
  · subst hij
    by_cases hi : i < l.length <;> simp [hi, List.getElem?_eq_none, Nat.le_of_not_lt]
  · simp [hij]

theorem safe_add_range (a : Int) (x : Nat) (h1 : INT32_MIN ≤ a)
    (h2 : a ≤ INT32_MAX) :
    INT32_MIN ≤ safe_add a x ∧ safe_add a x ≤ INT32_MAX := by
  unfold safe_add
  split
  · exact ⟨h1, h2⟩
  · split
    · refine ⟨?_, le_refl _⟩
      unfold INT32_MIN INT32_MAX
      omega
    · constructor
      · calc INT32_MIN ≤ a := h1
          _ ≤ a + x := by omega
      · omega

theorem safe_sub_range (a : Int) (x : Nat) (h1 : INT32_MIN ≤ a)
    (h2 : a ≤ INT32_MAX) :
    INT32_MIN ≤ safe_sub a x ∧ safe_sub a x ≤ INT32_MAX := by
  unfold safe_sub
  split
  · exact ⟨h1, h2⟩
  · split
    · refine ⟨le_refl _, ?_⟩
      unfold INT32_MIN INT32_MAX
      omega
    · constructor
      · omega
      · calc a - (x : Int) ≤ a := by omega
          _ ≤ INT32_MAX := h2

theorem safe_add_max (x : Nat) : safe_add INT32_MAX x = INT32_MAX := by
  simp [safe_add]

theorem safe_add_min (x : Nat) : safe_add INT32_MIN x = INT32_MIN := by
  simp [safe_add]

theorem safe_sub_max (x : Nat) : safe_sub INT32_MAX x = INT32_MAX := by
  simp [safe_sub]

theorem safe_sub_min (x : Nat) : safe_sub INT32_MIN x = INT32_MIN := by
  simp [safe_sub]

/-- Adding one to a bin that holds min(h, INT32_MAX) yields
min(h+1, INT32_MAX): unit adds saturate exactly at INT32_MAX. -/
theorem safe_add_one_min_hits (h : Nat) :
    safe_add (min (h : Int) INT32_MAX) 1 = min ((h + 1 : Nat) : Int) INT32_MAX := by
  unfold safe_add INT32_MAX INT32_MIN
  push_cast
  split_ifs <;> omega

theorem cms_row_loop_length (op : Int → Nat → Int) (hashes : List Nat)
    (w x : Nat) :
    ∀ rows i bins acc,
      ((cms_row_loop op hashes w x i rows bins acc).1).length = bins.length := by
  intro rows
  induction rows with
  | zero => intro i bins acc; rfl
  | succ n ih =>
    intro i bins acc
    rw [cms_row_loop, ih]
    exact List.length_set ..

/-- Frame property of the shared row-update loop: bin j ends as op(old, x)
exactly when some processed row addresses j, and keeps its old value
otherwise.  Rows address pairwise disjoint width-sized blocks, so no bin is
updated twice. -/
theorem cms_row_loop_getD (op : Int → Nat → Int) (hashes : List Nat)
    (w x : Nat) (hw : 0 < w) :
    ∀ rows i bins acc j, (i + rows) * w ≤ bins.length →
      ((cms_row_loop op hashes w x i rows bins acc).1).getD j 0 =
        (if ∃ r, r < rows ∧ j = hashes.getD (i + r) 0 % w + (i + r) * w
         then op (bins.getD j 0) x else bins.getD j 0) := by
  intro rows
  induction rows with
  | zero =>
    intro i bins acc j _
    simp [cms_row_loop]
  | succ n ih =>
    intro i bins acc j hlen
    have hbin : hashes.getD i 0 % w + i * w < (i + 1) * w := by
      have := Nat.mod_lt (hashes.getD i 0) hw
      nlinarith
    have hbinlen : hashes.getD i 0 % w + i * w < bins.length := by
      calc hashes.getD i 0 % w + i * w < (i + 1) * w := hbin
        _ ≤ (i + (n + 1)) * w := by nlinarith
        _ ≤ bins.length := hlen
    have hlen' : (i + 1 + n) * w ≤
        (bins.set (hashes.getD i 0 % w + i * w)
          (op (bins.getD (hashes.getD i 0 % w + i * w) 0) x)).length := by
      rw [List.length_set]
      have he : i + 1 + n = i + (n + 1) := by omega
      rw [he]
      exact hlen
    rw [cms_row_loop, ih _ _ _ _ hlen']
    by_cases hj : j = hashes.getD i 0 % w + i * w
    · subst hj
      have hnot : ¬ ∃ r, r < n ∧
          hashes.getD i 0 % w + i * w =
            hashes.getD (i + 1 + r) 0 % w + (i + 1 + r) * w := by
        rintro ⟨r, _, heq⟩
        have : (i + 1) * w ≤ (i + 1 + r) * w := by nlinarith
        omega
      rw [if_neg hnot, list_getD_set, if_pos ⟨rfl, hbinlen⟩]
      rw [if_pos ⟨0, Nat.succ_pos n, by simp⟩]
    · have hset : (bins.set (hashes.getD i 0 % w + i * w)
          (op (bins.getD (hashes.getD i 0 % w + i * w) 0) x)).getD j 0 =
          bins.getD j 0 := by
        rw [list_getD_set, if_neg]
        rintro ⟨h1, _⟩
        exact hj h1.symm
      rw [hset]
      have hcond : (∃ r, r < n ∧
            j = hashes.getD (i + 1 + r) 0 % w + (i + 1 + r) * w) ↔
          (∃ r, r < n + 1 ∧ j = hashes.getD (i + r) 0 % w + (i + r) * w) := by
        constructor
        · rintro ⟨r, hr, hrj⟩
          refine ⟨r + 1, by omega, ?_⟩
          rw [hrj]
          have he : i + (r + 1) = i + 1 + r := by omega
          rw [he]
        · rintro ⟨r, hr, hrj⟩
          rcases r with - | r
          · exact absurd (by simpa using hrj) hj
          · refine ⟨r, by omega, ?_⟩
            rw [hrj]
            have he : i + (r + 1) = i + 1 + r := by omega
            rw [he]
      simp only [hcond]

/-- The read-only minimum loop never drops below a bound shared by its
accumulator and all addressed bins. -/
theorem cms_check_loop_ge (bins : List Int) (hashes : List Nat) (w : Nat)
    (B : Int) :
    ∀ rows i acc, B ≤ acc →
      (∀ r, r < rows → B ≤ bins.getD (hashes.getD (i + r) 0 % w + (i + r) * w) 0) →
      B ≤ cms_check_loop bins hashes w i rows acc := by
  intro rows
  induction rows with
  | zero => intro i acc hacc _; exact hacc
  | succ n ih =>
    intro i acc hacc hbins
    rw [cms_check_loop]
    refine ih (i + 1) _ ?_ ?_
    · have h0 := hbins 0 (Nat.succ_pos n)
      simp only [Nat.add_zero] at h0
      split <;> omega
    · intro r hr
      have := hbins (r + 1) (by omega)
      simpa [Nat.add_assoc, Nat.add_comm 1 r] using this

/-- If every addressed bin holds V and the accumulator starts at least V,
the minimum loop returns exactly V (given at least one row). -/
theorem cms_check_loop_const (bins : List Int) (hashes : List Nat) (w : Nat)
    (V : Int) :
    ∀ rows i acc, V ≤ acc → 0 < rows →
      (∀ r, r < rows → bins.getD (hashes.getD (i + r) 0 % w + (i + r) * w) 0 = V) →
      cms_check_loop bins hashes w i rows acc = V := by
  intro rows
  induction rows with
  | zero => intro i acc _ h0 _; omega
  | succ n ih =>
    intro i acc hacc _ hbins
    rw [cms_check_loop]
    have h0 := hbins 0 (Nat.succ_pos n)
    simp only [Nat.add_zero] at h0
    rcases Nat.eq_zero_or_pos n with hn | hn
    · subst hn
      rw [cms_check_loop]
      rw [h0]
      split <;> omega
    · refine ih (i + 1) _ ?_ hn ?_
      · rw [h0]; split <;> omega
      · intro r hr
        have := hbins (r + 1) (by omega)
        simpa [Nat.add_assoc, Nat.add_comm 1 r] using this

/-- A well-formed counter state for dimension bookkeeping across runs. -/
def cmsGood (w d : Nat) (s : CountMinSketch) : Prop :=
  s.width = w ∧ s.depth = d ∧ s.bins.length = w * d ∧
    s.hash_function = default_hash

theorem default_hash_length (d : Nat) (key : Key) :
    (default_hash d key).length = d := by
  simp [default_hash]

theorem default_hash_getD (d : Nat) (key : Key) (r : Nat) (hr : r < d) :
    (default_hash d key).getD r 0 = fnv_1a key r := by
  simp [default_hash, List.getD_eq_getElem?_getD, List.getElem?_map,
    List.getElem?_range hr]

theorem cms_add_inc_state (s : CountMinSketch) (key : Key) (x : Nat) :
    (cms_add_inc s key x).2 =
      { s with
        bins :=
          (cms_row_loop safe_add (cms_get_hashes s key) s.width x 0 s.depth
            s.bins INT32_MAX).1,
        elements_added := s.elements_added + x } := by
  rw [cms_add_inc, cms_add_inc_alt, if_neg (by omega)]

theorem cms_remove_inc_state (s : CountMinSketch) (key : Key) (x : Nat) :
    (cms_remove_inc s key x).2 =
      { s with
        bins :=
          (cms_row_loop safe_sub (cms_get_hashes s key) s.width x 0 s.depth
            s.bins INT32_MAX).1,
        elements_added := s.elements_added - x } := by
  rw [cms_remove_inc, cms_remove_inc_alt, if_neg (by omega)]

theorem cmsApply_good (w d : Nat) (s : CountMinSketch) (op : CmsOp)
    (hs : cmsGood w d s) : cmsGood w d (cmsApply s op) := by
  obtain ⟨h1, h2, h3, h4⟩ := hs
  cases op with
  | add k x =>
    simp only [cmsApply, cms_add_inc_state]
    exact ⟨h1, h2, by rw [cms_row_loop_length]; exact h3, h4⟩
  | remove k x =>
    simp only [cmsApply, cms_remove_inc_state]
    exact ⟨h1, h2, by rw [cms_row_loop_length]; exact h3, h4⟩

theorem cmsRun_good (w d : Nat) (ops : List CmsOp) (s : CountMinSketch)
    (hs : cmsGood w d s) : cmsGood w d (cmsRun s ops) := by
  induction ops generalizing s with
  | nil => exact hs
  | cons op ops ih => exact ih _ (cmsApply_good w d s op hs)

/-- Membership in the touched set, unfolded. -/
theorem mem_touchedSet (w d : Nat) (key : Key) (j : Nat) :
    j ∈ touchedSet w d key ↔ ∃ r, r < d ∧ j = fnv_1a key r % w + r * w := by
  simp only [touchedSet, List.mem_map, List.mem_range, touchedBin]
  constructor
  · rintro ⟨r, hr, rfl⟩; exact ⟨r, hr, rfl⟩
  · rintro ⟨r, hr, rfl⟩; exact ⟨r, hr, rfl⟩

/-- The bins a key-based add updates are exactly the key's touched set. -/
theorem cmsApply_add_getD (w d : Nat) (s : CountMinSketch) (k : Key) (x : Nat)
    (hw : 0 < w) (hs : cmsGood w d s) (j : Nat) :
    (cmsApply s (.add k x)).bins.getD j 0 =
      (if j ∈ touchedSet w d k then safe_add (s.bins.getD j 0) x
       else s.bins.getD j 0) := by
  obtain ⟨h1, h2, h3, h4⟩ := hs
  simp only [cmsApply, cms_add_inc_state]
  rw [cms_row_loop_getD safe_add _ _ _ (h1 ▸ hw) _ _ _ _ _
    (by rw [h3, h1, h2]; ring_nf; omega)]
  have hcond : (∃ r, r < s.depth ∧
        j = (cms_get_hashes s k).getD (0 + r) 0 % s.width + (0 + r) * s.width) ↔
      j ∈ touchedSet w d k := by
    rw [mem_touchedSet]
    constructor
    · rintro ⟨r, hr, rfl⟩
      rw [h2] at hr
      refine ⟨r, hr, ?_⟩
      rw [Nat.zero_add, cms_get_hashes, h4, h2, default_hash_getD d k r hr, h1]
    · rintro ⟨r, hr, rfl⟩
      refine ⟨r, h2 ▸ hr, ?_⟩
      rw [Nat.zero_add, cms_get_hashes, h4, h2, default_hash_getD d k r hr, h1]
  by_cases hmem : j ∈ touchedSet w d k
  · rw [if_pos (hcond.mpr hmem), if_pos hmem]
  · rw [if_neg (fun hc => hmem (hcond.mp hc)), if_neg hmem]

theorem cmsApply_remove_getD (w d : Nat) (s : CountMinSketch) (k : Key)
    (x : Nat) (hw : 0 < w) (hs : cmsGood w d s) (j : Nat) :
    (cmsApply s (.remove k x)).bins.getD j 0 =
      (if j ∈ touchedSet w d k then safe_sub (s.bins.getD j 0) x
       else s.bins.getD j 0) := by
  obtain ⟨h1, h2, h3, h4⟩ := hs
  simp only [cmsApply, cms_remove_inc_state]
  rw [cms_row_loop_getD safe_sub _ _ _ (h1 ▸ hw) _ _ _ _ _
    (by rw [h3, h1, h2]; ring_nf; omega)]
  have hcond : (∃ r, r < s.depth ∧
        j = (cms_get_hashes s k).getD (0 + r) 0 % s.width + (0 + r) * s.width) ↔
      j ∈ touchedSet w d k := by
    rw [mem_touchedSet]
    constructor
    · rintro ⟨r, hr, rfl⟩
      rw [h2] at hr
      refine ⟨r, hr, ?_⟩
      rw [Nat.zero_add, cms_get_hashes, h4, h2, default_hash_getD d k r hr, h1]
    · rintro ⟨r, hr, rfl⟩
      refine ⟨r, h2 ▸ hr, ?_⟩
      rw [Nat.zero_add, cms_get_hashes, h4, h2, default_hash_getD d k r hr, h1]
  by_cases hmem : j ∈ touchedSet w d k
  · rw [if_pos (hcond.mpr hmem), if_pos hmem]
  · rw [if_neg (fun hc => hmem (hcond.mp hc)), if_neg hmem]

/-- An operation sequence consisting only of amount-1 additions. -/
def UnitAdds (ops : List CmsOp) : Prop :=
  ∀ op ∈ ops, ∃ k, op = CmsOp.add k 1

theorem hitCount_nil (w d j : Nat) : hitCount w d j [] = 0 := rfl

theorem hitCount_cons (w d j : Nat) (op : CmsOp) (ops : List CmsOp) :
    hitCount w d j (op :: ops) =
      hitCount w d j ops +
        (if j ∈ touchedSet w d (opKey op) then 1 else 0) := by
  simp only [hitCount, List.countP_cons]
  split <;> simp_all

/-- Under unit adds from the default hash, every bin holds the saturated
hit count min(hits, INT32_MAX). -/
theorem cmsRun_bins_hits (w d : Nat) (hw : 0 < w) :
    ∀ (ops : List CmsOp) (s : CountMinSketch) (h0 : Nat → Nat),
      cmsGood w d s → UnitAdds ops →
      (∀ j, s.bins.getD j 0 = min (h0 j : Int) INT32_MAX) →
      ∀ j, (cmsRun s ops).bins.getD j 0 =
        min ((h0 j + hitCount w d j ops : Nat) : Int) INT32_MAX := by
  intro ops
  induction ops with
  | nil =>
    intro s h0 _ _ hbins j
    simpa [cmsRun, hitCount_nil] using hbins j
  | cons op ops ih =>
    intro s h0 hgood hunit hbins j
    obtain ⟨k, rfl⟩ := hunit op (List.mem_cons_self op ops)
    have hstep : ∀ j, (cmsApply s (.add k 1)).bins.getD j 0 =
        min (((if j ∈ touchedSet w d k then h0 j + 1 else h0 j) : Nat) : Int)
          INT32_MAX := by
      intro j
      rw [cmsApply_add_getD w d s k 1 hw hgood j]
      by_cases hmem : j ∈ touchedSet w d k
      · rw [if_pos hmem, if_pos hmem, hbins j, safe_add_one_min_hits]
      · rw [if_neg hmem, if_neg hmem, hbins j]
    have := ih (cmsApply s (.add k 1))
      (fun j => if j ∈ touchedSet w d k then h0 j + 1 else h0 j)
      (cmsApply_good w d s _ hgood)
      (fun op hop => hunit op (List.mem_cons_of_mem _ hop)) hstep j
    rw [show cmsRun s (CmsOp.add k 1 :: ops) =
      cmsRun (cmsApply s (.add k 1)) ops from rfl, this, hitCount_cons]
    congr 1
    simp only [opKey]
    by_cases hmem : j ∈ touchedSet w d k
    · rw [if_pos hmem, if_pos hmem]; push_cast; ring_nf
    · rw [if_neg hmem, if_neg hmem]; push_cast; ring_nf

/-- Every reachable bin value stays inside the int32 range. -/
theorem cmsRun_range (w d : Nat) (hw : 0 < w) :
    ∀ (ops : List CmsOp) (s : CountMinSketch), cmsGood w d s →
      (∀ j, INT32_MIN ≤ s.bins.getD j 0 ∧ s.bins.getD j 0 ≤ INT32_MAX) →
      ∀ j, INT32_MIN ≤ (cmsRun s ops).bins.getD j 0 ∧
        (cmsRun s ops).bins.getD j 0 ≤ INT32_MAX := by
  intro ops
  induction ops with
  | nil => intro s _ hbins j; exact hbins j
  | cons op ops ih =>
    intro s hgood hbins j
    refine ih (cmsApply s op) (cmsApply_good w d s op hgood) ?_ j
    intro j'
    cases op with
    | add k x =>
      rw [cmsApply_add_getD w d s k x hw hgood j']
      split
      · exact safe_add_range _ _ (hbins j').1 (hbins j').2
      · exact hbins j'
    | remove k x =>
      rw [cmsApply_remove_getD w d s k x hw hgood j']
      split
      · exact safe_sub_range _ _ (hbins j').1 (hbins j').2
      · exact hbins j'

/-- elements_added tracks the exact signed sum, independent of bin
clamping. -/
theorem cmsRun_elements (w d : Nat) :
    ∀ (ops : List CmsOp) (s : CountMinSketch), cmsGood w d s →
      (cmsRun s ops).elements_added = s.elements_added + cmsSignedSum ops := by
  intro ops
  induction ops with
  | nil => intro s _; simp [cmsRun, cmsSignedSum]
  | cons op ops ih =>
    intro s hgood
    have hstep : cmsRun s (op :: ops) = cmsRun (cmsApply s op) ops := rfl
    rw [hstep, ih _ (cmsApply_good w d s op hgood)]
    cases op with
    | add k x =>
      simp only [cmsApply, cms_add_inc_state, cmsSignedSum]
      ring
    | remove k x =>
      simp only [cmsApply, cms_remove_inc_state, cmsSignedSum]
      ring

theorem replicate_getD (n j : Nat) :
    (List.replicate n (0 : Int)).getD j 0 = 0 := by
  rcases lt_or_le j n with h | h
  · rw [List.getD_eq_getElem _ _ (by simpa using h)]
    simp
  · rw [List.getD_eq_default _ _ (by simpa using h)]

theorem init_good (w d : Nat) (hw : 0 < w) (hd : 0 < d)
    (s₀ : CountMinSketch) (hinit : cms_init_by_dim w d = some s₀) :
    cmsGood w d s₀ ∧ s₀.bins = List.replicate (w * d) 0 ∧
      s₀.elements_added = 0 := by
  rw [cms_init_by_dim, if_neg (by omega)] at hinit
  cases hinit
  exact ⟨⟨rfl, rfl, by simp [setup_cms], rfl⟩, rfl, rfl⟩

/-- The generic shape of a key-based check on a good state. -/
theorem cms_check_eq_loop (w d : Nat) (s : CountMinSketch)
    (_hgood : cmsGood w d s) (k : Key) :
    cms_check s k =
      cms_check_loop s.bins (cms_get_hashes s k) s.width 0 s.depth
        INT32_MAX := by
  rw [cms_check, cms_check_alt, if_neg (by omega)]

/-- The bin addressed by row r of the loop on a good state is row r's
touched bin. -/
theorem loop_bin_eq (w d : Nat) (s : CountMinSketch) (hgood : cmsGood w d s)
    (k : Key) (r : Nat) (hr : r < d) :
    (cms_get_hashes s k).getD (0 + r) 0 % s.width + (0 + r) * s.width =
      touchedBin w k r := by
  obtain ⟨h1, h2, _, h4⟩ := hgood
  rw [Nat.zero_add, cms_get_hashes, h4, h2, default_hash_getD d k r hr, h1,
    touchedBin]

/-- A freshly initialized counter reports 0 for every key. -/
theorem cms_check_fresh (w d : Nat) (hw : 0 < w) (hd : 0 < d)
    (s₀ : CountMinSketch) (hinit : cms_init_by_dim w d = some s₀) (k : Key) :
    cms_check s₀ k = 0 := by
  obtain ⟨hgood, hbins, _⟩ := init_good w d hw hd s₀ hinit
  rw [cms_check_eq_loop w d s₀ hgood k]
  refine cms_check_loop_const _ _ _ 0 _ 0 INT32_MAX (by unfold INT32_MAX; omega)
    (hgood.2.1 ▸ hd) ?_
  intro r hr
  rw [loop_bin_eq w d s₀ hgood k r (hgood.2.1 ▸ hr), hbins, replicate_getD]

/-- Lower bound on the estimate after a sequence of unit adds: at least
min(number of adds of the key, INT32_MAX). -/
theorem cms_check_ge_count (w d : Nat) (hw : 0 < w) (hd : 0 < d)
    (s₀ : CountMinSketch) (hinit : cms_init_by_dim w d = some s₀)
    (ops : List CmsOp) (k : Key) (n : Nat) (hunit : UnitAdds ops)
    (hcount : n ≤ ops.count (CmsOp.add k 1)) (hn : (n : Int) ≤ INT32_MAX) :
    (n : Int) ≤ cms_check (cmsRun s₀ ops) k := by
  obtain ⟨hgood, hbins, _⟩ := init_good w d hw hd s₀ hinit
  have hgood' : cmsGood w d (cmsRun s₀ ops) := cmsRun_good w d ops s₀ hgood
  have hbins0 : ∀ j, s₀.bins.getD j 0 = min ((0 : Nat) : Int) INT32_MAX := by
    intro j
    rw [hbins, replicate_getD]
    simp [INT32_MAX]
  have hrun := cmsRun_bins_hits w d hw ops s₀ (fun _ => 0) hgood hunit hbins0
  rw [cms_check_eq_loop w d _ hgood' k]
  refine cms_check_loop_ge _ _ _ (n : Int) _ 0 INT32_MAX hn ?_
  intro r hr
  rw [loop_bin_eq w d _ hgood' k r (hgood'.2.1 ▸ hr), hrun]
  have hmem : touchedBin w k r ∈ touchedSet w d k := by
    rw [mem_touchedSet]
    exact ⟨r, hgood'.2.1 ▸ hr, rfl⟩
  have hle : n ≤ hitCount w d (touchedBin w k r) ops := by
    calc n ≤ ops.count (CmsOp.add k 1) := hcount
      _ ≤ hitCount w d (touchedBin w k r) ops := by
        rw [List.count, hitCount]
        refine List.countP_mono_left ?_
        intro op hop hbeq
        have : op = CmsOp.add k 1 := by
          simpa using hbeq
        subst this
        simpa [opKey] using hmem
  simp only [Nat.zero_add]
  refine le_min ?_ hn
  exact_mod_cast hle

theorem hitCount_replicate (w d : Nat) (k : Key) (n j : Nat)
    (hmem : j ∈ touchedSet w d k) :
    hitCount w d j (List.replicate n (CmsOp.add k 1)) = n := by
  induction n with
  | zero => rfl
  | succ m ih =>
    rw [List.replicate_succ, hitCount_cons, ih, if_pos (by simpa [opKey])]

/-- Exact estimate when a single key is the only one ever added. -/
theorem cms_check_replicate (w d : Nat) (hw : 0 < w) (hd : 0 < d)
    (s₀ : CountMinSketch) (hinit : cms_init_by_dim w d = some s₀) (k : Key)
    (n : Nat) :
    cms_check (cmsRun s₀ (List.replicate n (CmsOp.add k 1))) k =
      min (n : Int) INT32_MAX := by
  obtain ⟨hgood, hbins, _⟩ := init_good w d hw hd s₀ hinit
  have hunit : UnitAdds (List.replicate n (CmsOp.add k 1)) := by
    intro op hop
    exact ⟨k, List.eq_of_mem_replicate hop⟩
  have hgood' := cmsRun_good w d (List.replicate n (CmsOp.add k 1)) s₀ hgood
  have hbins0 : ∀ j, s₀.bins.getD j 0 = min ((0 : Nat) : Int) INT32_MAX := by
    intro j
    rw [hbins, replicate_getD]
    simp [INT32_MAX]
  have hrun := cmsRun_bins_hits w d hw _ s₀ (fun _ => 0) hgood hunit hbins0
  rw [cms_check_eq_loop w d _ hgood' k]
  refine cms_check_loop_const _ _ _ (min (n : Int) INT32_MAX) _ 0 INT32_MAX
    (min_le_right _ _) (hgood'.2.1 ▸ hd) ?_
  intro r hr
  have hrd : r < d := hgood'.2.1 ▸ hr
  rw [loop_bin_eq w d _ hgood' k r hrd, hrun]
  have hmem : touchedBin w k r ∈ touchedSet w d k := by
    rw [mem_touchedSet]
    exact ⟨r, hrd, rfl⟩
  rw [hitCount_replicate w d k n _ hmem]
  simp

/-! ### Claim theorems: count-min sketch -/

/-- C1 (amended).  A freshly initialized FrequencyCounter (any width ≥ 1,
depth ≥ 1) has elements_added = 0 and check(key) = 0 for every key.  For
every sequence of add(·,1) calls containing at least n adds of key k,
check(k) ≥ n provided n ≤ INT32_MAX; and when k is the only key ever added
(n unit adds from fresh), check(k) = n exactly, again provided
n ≤ INT32_MAX.  The bound n ≤ INT32_MAX is forced by the source's
saturating int32 bins (see the counterexample at n = 2^31). -/
theorem C1_count_lower_bound (w d : Nat) (hw : 1 ≤ w) (hd : 1 ≤ d)
    (s₀ : CountMinSketch) (hinit : cms_init_by_dim w d = some s₀) :
    (s₀.elements_added = 0 ∧ ∀ key : Key, cms_check s₀ key = 0) ∧
    (∀ (ops : List CmsOp) (k : Key) (n : Nat), UnitAdds ops →
      n ≤ ops.count (CmsOp.add k 1) → (n : Int) ≤ INT32_MAX →
      (n : Int) ≤ cms_check (cmsRun s₀ ops) k) ∧
    (∀ (k : Key) (n : Nat), (n : Int) ≤ INT32_MAX →
      cms_check (cmsRun s₀ (List.replicate n (CmsOp.add k 1))) k = (n : Int)) := by
  refine ⟨⟨(init_good w d hw hd s₀ hinit).2.2, ?_⟩, ?_, ?_⟩
  · exact fun key => cms_check_fresh w d hw hd s₀ hinit key
  · exact fun ops k n hu hc hn =>
      cms_check_ge_count w d hw hd s₀ hinit ops k n hu hc hn
  · intro k n hn
    rw [cms_check_replicate w d hw hd s₀ hinit k n, min_eq_left hn]

/-- C1 counterexample.  The claim as stated quantifies over every positive
n; at n = 2^31 the bins have saturated at INT32_MAX = 2^31 - 1, so after
2^31 unit adds of the (only) key the reported estimate is 2^31 - 1 < n,
refuting check(k) ≥ n. -/
theorem C1_counterexample :
    cms_init_by_dim 1 1 =
      some (setup_cms 1 1 (2 / ((1 : Nat) : ℚ)) (1 - 1 / 2 ^ (1 : Nat))) ∧
    cms_check
      (cmsRun (setup_cms 1 1 (2 / ((1 : Nat) : ℚ)) (1 - 1 / 2 ^ (1 : Nat)))
        (List.replicate (2 ^ 31) (CmsOp.add [] 1))) [] < ((2 ^ 31 : Nat) : Int) := by
  have hinit : cms_init_by_dim 1 1 =
      some (setup_cms 1 1 (2 / ((1 : Nat) : ℚ)) (1 - 1 / 2 ^ (1 : Nat))) := by
    rw [cms_init_by_dim, if_neg (by omega)]
  refine ⟨hinit, ?_⟩
  rw [cms_check_replicate 1 1 (by omega) (by omega) _ hinit [] (2 ^ 31)]
  have hcast : ((2 ^ 31 : Nat) : Int) = 2 ^ 31 := by norm_num
  rw [hcast]
  unfold INT32_MAX
  rw [min_eq_right (by omega)]
  omega

/-- C1 witness: three unit adds of the byte string "key1" on the 100x5
configuration give exactly 3. -/
theorem C1_witness :
    cms_check
      (cmsRun ((cms_init_by_dim 100 5).getD (setup_cms 1 1 0 0))
        (List.replicate 3 (CmsOp.add [107, 101, 121, 49] 1)))
      [107, 101, 121, 49] = ((3 : Nat) : Int) := by
  have h := C1_count_lower_bound 100 5 (by omega) (by omega)
    ((cms_init_by_dim 100 5).getD (setup_cms 1 1 0 0)) (by rfl)
  exact h.2.2 [107, 101, 121, 49] 3 (by unfold INT32_MAX; omega)

/-- C2.  Along every add/remove sequence from a fresh counter: every bin
value stays inside the int32 range; a bin at INT32_MAX or INT32_MIN is
pinned there by any further add or remove; and elements_added equals the
exact signed sum of all amounts added minus all amounts removed,
independent of bin clamping. -/
theorem C2_saturation_and_exact_total (w d : Nat) (hw : 1 ≤ w) (hd : 1 ≤ d)
    (s₀ : CountMinSketch) (hinit : cms_init_by_dim w d = some s₀)
    (ops : List CmsOp) :
    (∀ b ∈ (cmsRun s₀ ops).bins, INT32_MIN ≤ b ∧ b ≤ INT32_MAX) ∧
    (∀ (op : CmsOp) (j : Nat),
      ((cmsRun s₀ ops).bins.getD j 0 = INT32_MAX →
        (cmsApply (cmsRun s₀ ops) op).bins.getD j 0 = INT32_MAX) ∧
      ((cmsRun s₀ ops).bins.getD j 0 = INT32_MIN →
        (cmsApply (cmsRun s₀ ops) op).bins.getD j 0 = INT32_MIN)) ∧
    (cmsRun s₀ ops).elements_added = cmsSignedSum ops := by
  obtain ⟨hgood, hbins, hea⟩ := init_good w d hw hd s₀ hinit
  have hgood' : cmsGood w d (cmsRun s₀ ops) := cmsRun_good w d ops s₀ hgood
  have hrange := cmsRun_range w d hw ops s₀ hgood
    (fun j => by rw [hbins, replicate_getD]; unfold INT32_MIN INT32_MAX; omega)
  refine ⟨?_, ?_, ?_⟩
  · intro b hb
    obtain ⟨i, hi, rfl⟩ := List.mem_iff_getElem.mp hb
    have := hrange i
    rwa [List.getD_eq_getElem _ _ hi] at this
  · intro op j
    cases op with
    | add k x =>
      rw [cmsApply_add_getD w d _ k x hw hgood' j]
      refine ⟨fun hpin => ?_, fun hpin => ?_⟩
      · split
        · rw [hpin, safe_add_max]
        · exact hpin
      · split
        · rw [hpin, safe_add_min]
        · exact hpin
    | remove k x =>
      rw [cmsApply_remove_getD w d _ k x hw hgood' j]
      refine ⟨fun hpin => ?_, fun hpin => ?_⟩
      · split
        · rw [hpin, safe_sub_max]
        · exact hpin
      · split
        · rw [hpin, safe_sub_min]
        · exact hpin
  · rw [cmsRun_elements w d ops s₀ hgood, hea, zero_add]

/-- C2 witness: on a 1x1 counter, add 2^31 - 1 then add 5 more (the bin
pins at INT32_MAX) then remove 3: elements_added is the exact signed sum
2^31 + 1 even though the bin clamped. -/
theorem C2_witness :
    (∀ b ∈ (cmsRun ((cms_init_by_dim 1 1).getD (setup_cms 1 1 0 0))
        [CmsOp.add [] 2147483647, CmsOp.add [] 5, CmsOp.remove [] 3]).bins,
      INT32_MIN ≤ b ∧ b ≤ INT32_MAX) ∧
    (cmsRun ((cms_init_by_dim 1 1).getD (setup_cms 1 1 0 0))
        [CmsOp.add [] 2147483647, CmsOp.add [] 5, CmsOp.remove [] 3]).elements_added =
      cmsSignedSum [CmsOp.add [] 2147483647, CmsOp.add [] 5, CmsOp.remove [] 3] := by
  have h := C2_saturation_and_exact_total 1 1 (by omega) (by omega)
    ((cms_init_by_dim 1 1).getD (setup_cms 1 1 0 0)) (by rfl)
    [CmsOp.add [] 2147483647, CmsOp.add [] 5, CmsOp.remove [] 3]
  exact ⟨h.1, h.2.2⟩

/-- C9.  Calling any precomputed-hash form with fewer than depth hash
values returns CMS_ERROR, and the mutating forms leave the counter state
exactly as it was. -/
theorem C9_insufficient_hashes (cms : CountMinSketch) (hashes : List Nat)
    (num_hashes x : Nat) (h : num_hashes < cms.depth) :
    cms_add_inc_alt cms hashes num_hashes x = (CMS_ERROR, cms) ∧
    cms_remove_inc_alt cms hashes num_hashes x = (CMS_ERROR, cms) ∧
    cms_check_alt cms hashes num_hashes = CMS_ERROR ∧
    cms_check_mean_alt cms hashes num_hashes = CMS_ERROR := by
  refine ⟨?_, ?_, ?_, ?_⟩
  · rw [cms_add_inc_alt, if_pos h]
  · rw [cms_remove_inc_alt, if_pos h]
  · rw [cms_check_alt, if_pos h]
  · rw [cms_check_mean_alt, if_pos h]

/-- C9 witness: an empty hash list against a depth-2 counter. -/
theorem C9_witness :
    cms_add_inc_alt (setup_cms 2 2 1 (3 / 4)) [] 0 7 =
      (CMS_ERROR, setup_cms 2 2 1 (3 / 4)) ∧
    cms_check_alt (setup_cms 2 2 1 (3 / 4)) [] 0 = CMS_ERROR := by
  have h := C9_insufficient_hashes (setup_cms 2 2 1 (3 / 4)) [] 0 7
    (by decide)
  exact ⟨h.1, h.2.2.1⟩

/-- C10.  One add or remove with precomputed hashes modifies exactly the
bin (hashes[i] mod width) + i*width in each row i (to the saturating
add/sub of the old value) and no other bin, and preserves width, depth,
error_rate, confidence and the hash function; the check and check_mean
embeddings are pure functions of the state because the source never writes
a field there. -/
theorem C10_frame (cms : CountMinSketch) (hashes : List Nat)
    (num_hashes x : Nat) (hw : 0 < cms.width)
    (hlen : cms.bins.length = cms.width * cms.depth)
    (hn : cms.depth ≤ num_hashes) :
    (∀ i, i < cms.depth →
      ((cms_add_inc_alt cms hashes num_hashes x).2).bins.getD
          (hashes.getD i 0 % cms.width + i * cms.width) 0 =
        safe_add (cms.bins.getD (hashes.getD i 0 % cms.width + i * cms.width) 0)
          x) ∧
    (∀ j, (∀ i, i < cms.depth → j ≠ hashes.getD i 0 % cms.width + i * cms.width) →
      ((cms_add_inc_alt cms hashes num_hashes x).2).bins.getD j 0 =
        cms.bins.getD j 0) ∧
    (∀ i, i < cms.depth →
      ((cms_remove_inc_alt cms hashes num_hashes x).2).bins.getD
          (hashes.getD i 0 % cms.width + i * cms.width) 0 =
        safe_sub (cms.bins.getD (hashes.getD i 0 % cms.width + i * cms.width) 0)
          x) ∧
    (∀ j, (∀ i, i < cms.depth → j ≠ hashes.getD i 0 % cms.width + i * cms.width) →
      ((cms_remove_inc_alt cms hashes num_hashes x).2).bins.getD j 0 =
        cms.bins.getD j 0) ∧
    (∀ s' : CountMinSketch,
      s' = (cms_add_inc_alt cms hashes num_hashes x).2 ∨
      s' = (cms_remove_inc_alt cms hashes num_hashes x).2 →
      s'.width = cms.width ∧ s'.depth = cms.depth ∧
      s'.error_rate = cms.error_rate ∧ s'.confidence = cms.confidence ∧
      s'.hash_function = cms.hash_function ∧
      s'.bins.length = cms.bins.length) := by
  have hadd : (cms_add_inc_alt cms hashes num_hashes x).2 =
      { cms with
        bins :=
          (cms_row_loop safe_add hashes cms.width x 0 cms.depth cms.bins
            INT32_MAX).1,
        elements_added := cms.elements_added + x } := by
    rw [cms_add_inc_alt, if_neg (by omega)]
  have hrem : (cms_remove_inc_alt cms hashes num_hashes x).2 =
      { cms with
        bins :=
          (cms_row_loop safe_sub hashes cms.width x 0 cms.depth cms.bins
            INT32_MAX).1,
        elements_added := cms.elements_added - x } := by
    rw [cms_remove_inc_alt, if_neg (by omega)]
  have hlenok : (0 + cms.depth) * cms.width ≤ cms.bins.length := by
    rw [hlen]; ring_nf; omega
  have hframe : ∀ op : Int → Nat → Int, ∀ j,
      ((cms_row_loop op hashes cms.width x 0 cms.depth cms.bins
          INT32_MAX).1).getD j 0 =
        (if ∃ r, r < cms.depth ∧ j = hashes.getD r 0 % cms.width + r * cms.width
         then op (cms.bins.getD j 0) x else cms.bins.getD j 0) := by
    intro op j
    rw [cms_row_loop_getD op hashes cms.width x hw cms.depth 0 cms.bins
      INT32_MAX j hlenok]
    congr 1
    simp only [Nat.zero_add]
  refine ⟨?_, ?_, ?_, ?_, ?_⟩
  · intro i hi
    rw [hadd]
    simp only []
    rw [hframe safe_add, if_pos ⟨i, hi, rfl⟩]
  · intro j hj
    rw [hadd]
    simp only []
    rw [hframe safe_add, if_neg]
    rintro ⟨r, hr, rfl⟩
    exact hj r hr rfl
  · intro i hi
    rw [hrem]
    simp only []
    rw [hframe safe_sub, if_pos ⟨i, hi, rfl⟩]
  · intro j hj
    rw [hrem]
    simp only []
    rw [hframe safe_sub, if_neg]
    rintro ⟨r, hr, rfl⟩
    exact hj r hr rfl
  · rintro s' (rfl | rfl)
    · rw [hadd]
      exact ⟨rfl, rfl, rfl, rfl, rfl, by rw [cms_row_loop_length]⟩
    · rw [hrem]
      exact ⟨rfl, rfl, rfl, rfl, rfl, by rw [cms_row_loop_length]⟩

/-- C10 witness: a depth-2, width-2 counter with explicit hashes [1, 2];
rows touch bins 1 and 2, bin 0 keeps its value, and fields persist. -/
theorem C10_witness :
    ((cms_add_inc_alt (setup_cms 2 2 1 (3 / 4)) [1, 2] 2 9).2).bins.getD
        ([1, 2].getD 0 0 % 2 + 0 * 2) 0 =
      safe_add ((setup_cms 2 2 1 (3 / 4)).bins.getD
        ([1, 2].getD 0 0 % 2 + 0 * 2) 0) 9 ∧
    ((cms_add_inc_alt (setup_cms 2 2 1 (3 / 4)) [1, 2] 2 9).2).bins.getD 3 0 =
      (setup_cms 2 2 1 (3 / 4)).bins.getD 3 0 := by
  have h := C10_frame (setup_cms 2 2 1 (3 / 4)) [1, 2] 2 9 (by decide)
    (by decide) (by decide)
  refine ⟨h.1 0 (by decide), h.2.1 3 ?_⟩
  intro i hi
  have hi2 : i < 2 := hi
  interval_cases i <;> decide

/-- The width-1, depth-2 counter after remove(key = empty string, 1): both
bins hold -1, the sum is -2. -/
def c8_state : CountMinSketch :=
  (cms_remove_inc (setup_cms 1 2 (2 / ((1 : Nat) : ℚ)) (1 - 1 / 2 ^ (2 : Nat)))
    [] 1).2

/-- C8 (code bug).  The spec says check_mean returns the truncated average,
also for negative sums.  The source divides the int32 accumulator by the
uint32 depth, so C's usual arithmetic conversions perform an UNSIGNED
division of the two's-complement bit pattern: for bins [-1, -1] (sum -2,
depth 2) the code yields (2^32 - 2) / 2 = 2147483647, not the truncated
average -1. -/
theorem C8_check_mean_divergence :
    (cms_init_by_dim 1 2).map CountMinSketch.bins = some [0, 0] ∧
    c8_state.bins = [-1, -1] ∧
    cms_check_mean c8_state [] = 2147483647 ∧
    Int.tdiv (c8_state.bins.getD 0 0 + c8_state.bins.getD 1 0) 2 = -1 ∧
    (2147483647 : Int) ≠ -1 := by
  exact ⟨by decide, by decide, by decide, by decide, by decide⟩

/-! ## Sketch catalog (src/src/storage.c, create_cms_store) -/

/-- Status codes of redis-C/rc.h that create_cms_store can return. -/
inductive REDIS_RC where
  | ok
  | cms_sketch_existed
deriving DecidableEq

/-- The storage_node_t of storage.c: a name paired with the counter it
owns.  Names are byte strings compared byte-for-byte (strcmp). -/
structure storage_node_t where
  name : List Nat
  container : CountMinSketch

/-- The counter create_cms_store builds: cms_init_by_dim with width 100
and depth 5 (which cannot fail for these dimensions; the source does not
check the status). -/
def created_cms : CountMinSketch :=
  (cms_init_by_dim 100 5).getD (setup_cms 100 5 0 0)

/-- storage.c, create_cms_store: scan the registry for the name (returning
REDIS_CMS_SKETCH_EXISTED on the first strcmp hit, leaving the registry
untouched); otherwise build a 100x5 counter and append the new
(name, counter) node after the last node.  The source's name buffer is one
byte short of NUL-terminated (spec treats the corrected copy as the
contract); names here are exact byte strings either way. -/
def create_cms_store (reg : List storage_node_t) (sketch_name : List Nat) :
    REDIS_RC × List storage_node_t :=
  if reg.any (fun node => node.name == sketch_name) then
    (.cms_sketch_existed, reg)
  else
    (.ok, reg ++ [{ name := sketch_name, container := created_cms }])

/-- C7.  create fails with the sketch-already-exists error exactly when a
byte-for-byte equal name is registered, leaving the registry unchanged;
otherwise it succeeds and the registry is the old one plus one appended
entry for the name backed by an init_by_dim counter; two creates with
distinct fresh names both succeed. -/
theorem C7_create_is_atomic (reg : List storage_node_t)
    (sketch_name : List Nat) :
    ((∃ node ∈ reg, node.name = sketch_name) →
      create_cms_store reg sketch_name = (.cms_sketch_existed, reg)) ∧
    ((∀ node ∈ reg, node.name ≠ sketch_name) →
      create_cms_store reg sketch_name =
        (.ok, reg ++ [{ name := sketch_name, container := created_cms }]) ∧
      cms_init_by_dim 100 5 = some created_cms) ∧
    (∀ name2 : List Nat, sketch_name ≠ name2 →
      (∀ node ∈ reg, node.name ≠ sketch_name ∧ node.name ≠ name2) →
      (create_cms_store reg sketch_name).1 = .ok ∧
      (create_cms_store (create_cms_store reg sketch_name).2 name2).1 = .ok) := by
  have hany : ∀ (r : List storage_node_t) (nm : List Nat),
      (r.any (fun node => node.name == nm)) = true ↔
        ∃ node ∈ r, node.name = nm := by
    intro r nm
    rw [List.any_eq_true]
    constructor
    · rintro ⟨node, hmem, hbeq⟩
      exact ⟨node, hmem, by simpa using hbeq⟩
    · rintro ⟨node, hmem, heq⟩
      exact ⟨node, hmem, by simpa using heq⟩
  refine ⟨?_, ?_, ?_⟩
  · intro hex
    rw [create_cms_store, if_pos ((hany reg sketch_name).mpr hex)]
  · intro habs
    have hnone : ¬(reg.any (fun node => node.name == sketch_name)) = true := by
      rw [hany]
      rintro ⟨node, hmem, heq⟩
      exact habs node hmem heq
    refine ⟨?_, ?_⟩
    · rw [create_cms_store, if_neg hnone]
    · rw [created_cms, cms_init_by_dim, if_neg (by omega)]
      rfl
  · intro name2 hne habs
    have hnone1 : ¬(reg.any (fun node => node.name == sketch_name)) = true := by
      rw [hany]
      rintro ⟨node, hmem, heq⟩
      exact (habs node hmem).1 heq
    have hstep : create_cms_store reg sketch_name =
        (.ok, reg ++ [{ name := sketch_name, container := created_cms }]) := by
      rw [create_cms_store, if_neg hnone1]
    refine ⟨by rw [hstep], ?_⟩
    rw [hstep]
    have hnone2 : ¬((reg ++ [{ name := sketch_name, container := created_cms }] :
        List storage_node_t).any (fun node => node.name == name2)) = true := by
      rw [hany]
      rintro ⟨node, hmem, heq⟩
      rcases List.mem_append.mp hmem with hmem | hmem
      · exact (habs node hmem).2 heq
      · rcases List.mem_singleton.mp hmem with rfl
        exact hne heq
    rw [create_cms_store, if_neg hnone2]

/-- C7 witness: on the empty registry, creating name [1] then name [2]
both succeed, and re-creating [1] is rejected with the registry
unchanged. -/
theorem C7_witness :
    (create_cms_store [] [1]).1 = .ok ∧
    (create_cms_store (create_cms_store [] [1]).2 [2]).1 = .ok ∧
    create_cms_store (create_cms_store [] [1]).2 [1] =
      (.cms_sketch_existed, (create_cms_store [] [1]).2) := by
  have h1 := C7_create_is_atomic ([] : List storage_node_t) [1]
  have hpair := h1.2.2 [2] (by decide) (by intro node hmem; cases hmem)
  have hreg : (create_cms_store [] [1]).2 =
      [{ name := [1], container := created_cms }] := by
    rw [(h1.2.1 (by intro node hmem; cases hmem)).1]
    rfl
  have h2 := C7_create_is_atomic (create_cms_store [] [1]).2 [1]
  refine ⟨hpair.1, hpair.2, h2.1 ?_⟩
  rw [hreg]
  exact ⟨_, List.mem_singleton_self _, rfl⟩

/-! ## GeoHash codec (src/src/data_structure/geo_hash.c) -/

def GEOHASH_MAX_PRECISION : Nat := 12

inductive GeoHashError where
  | invalid_point
  | invalid_hash
  | allocation
  | invalid_precision
deriving DecidableEq

inductive GeoDirection where
  | north
  | south
  | east
  | west
deriving DecidableEq

/-- The geohash alphabet 0123456789bcdefghjkmnpqrstuvwxyz. -/
def BASE32_ALPHABET : List Char := "0123456789bcdefghjkmnpqrstuvwxyz".toList

/-- Position scan behind find_char_index, carrying the index reached. -/
def find_char_index_aux (c : Char) : List Char → Nat → Option Nat
  | [], _ => none
  | x :: rest, i => if x = c then some i else find_char_index_aux c rest (i + 1)

/-- geo_hash.c, find_char_index / strchr: index of the first occurrence of
c, or none. -/
def find_char_index (c : Char) (l : List Char) : Option Nat :=
  find_char_index_aux c l 0

/-- geo_hash.c, is_valid_geohash_string: nonempty, length at most 12, all
characters in the alphabet. -/
def is_valid_geohash_string (h : List Char) : Bool :=
  !h.isEmpty && decide (h.length ≤ GEOHASH_MAX_PRECISION) &&
    h.all (fun c => (find_char_index c BASE32_ALPHABET).isSome)

/-- geo_hash.c, adjacent_map, indexed by direction and length parity
(hash length mod 2). -/
def adjacent_map : GeoDirection → Nat → List Char
  | .north, 0 => "p0r21436x8zb9dcf5h7kjnmqesgutwvy".toList
  | .north, _ => "bc01fg45238967deuvhjyznpkmstqrwx".toList
  | .south, 0 => "14365h7k9dcfesgujnmqp0r2twvyx8zb".toList
  | .south, _ => "238967debc01fg45kmstqrwxuvhjyznp".toList
  | .east, 0 => "bc01fg45238967deuvhjyznpkmstqrwx".toList
  | .east, _ => "p0r21436x8zb9dcf5h7kjnmqesgutwvy".toList
  | .west, 0 => "238967debc01fg45kmstqrwxuvhjyznp".toList
  | .west, _ => "14365h7k9dcfesgujnmqp0r2twvyx8zb".toList

/-- geo_hash.c, border_map. -/
def border_map : GeoDirection → Nat → List Char
  | .north, 0 => "prxz".toList
  | .north, _ => "bcfguvyz".toList
  | .south, 0 => "028b".toList
  | .south, _ => "0145hjnp".toList
  | .east, 0 => "bcfguvyz".toList
  | .east, _ => "prxz".toList
  | .west, 0 => "0145hjnp".toList
  | .west, _ => "028b".toList

/-- geo_hash.c, geohash_get_adjacent: validate; if the last character sits
on the requested border and the hash is longer than one character, the
prefix is the adjacent hash of the parent (recursively), otherwise the
parent itself; the last character is always mapped through the adjacent
table. -/
def geohash_get_adjacent (h : List Char) (d : GeoDirection) :
    Except GeoHashError (List Char) :=
  if _hval : is_valid_geohash_string h = true then
    let last_char := h.getLastD ' '
    let parity := h.length % 2
    if _hb : (find_char_index last_char (border_map d parity)).isSome = true ∧
        1 < h.length then
      match geohash_get_adjacent h.dropLast d with
      | .error e => .error e
      | .ok adj_parent =>
        match find_char_index last_char (adjacent_map d parity) with
        | none => .error .invalid_hash
        | some i => .ok (adj_parent ++ [BASE32_ALPHABET.getD i ' '])
    else
      match find_char_index last_char (adjacent_map d parity) with
      | none => .error .invalid_hash
      | some i => .ok (h.dropLast ++ [BASE32_ALPHABET.getD i ' '])
  else .error .invalid_hash
termination_by h.length
decreasing_by
  rw [List.length_dropLast]
  omega

/-- The adjacent-table image of a character (total on the alphabet). -/
def adjc (d : GeoDirection) (p : Nat) (c : Char) : Char :=
  match find_char_index c (adjacent_map d p) with
  | none => ' '
  | some i => BASE32_ALPHABET.getD i ' '

/-- Whether a character is on the given border. -/
abbrev isBorder (d : GeoDirection) (p : Nat) (c : Char) : Bool :=
  (find_char_index c (border_map d p)).isSome

def oppDir : GeoDirection → GeoDirection
  | .north => .south
  | .south => .north
  | .east => .west
  | .west => .east

theorem find_char_index_aux_isSome (c : Char) (l : List Char) :
    ∀ i, (find_char_index_aux c l i).isSome = true ↔ c ∈ l := by
  induction l with
  | nil => intro i; simp [find_char_index_aux]
  | cons x rest ih =>
    intro i
    rw [find_char_index_aux]
    by_cases hx : x = c
    · simp [hx]
    · rw [if_neg hx, ih (i + 1), List.mem_cons]
      constructor
      · exact fun hm => Or.inr hm
      · rintro (rfl | hm)
        · exact absurd rfl hx
        · exact hm

theorem find_char_index_isSome_iff (c : Char) (l : List Char) :
    (find_char_index c l).isSome = true ↔ c ∈ l :=
  find_char_index_aux_isSome c l 0

theorem valid_chars (h : List Char) (hv : is_valid_geohash_string h = true) :
    ∀ c ∈ h, c ∈ BASE32_ALPHABET := by
  intro c hc
  rw [is_valid_geohash_string, Bool.and_eq_true, Bool.and_eq_true] at hv
  have := List.all_eq_true.mp hv.2 c hc
  exact (find_char_index_isSome_iff c BASE32_ALPHABET).mp this

theorem valid_length (h : List Char) (hv : is_valid_geohash_string h = true) :
    1 ≤ h.length ∧ h.length ≤ 12 := by
  rw [is_valid_geohash_string, Bool.and_eq_true, Bool.and_eq_true] at hv
  obtain ⟨⟨h1, h2⟩, _⟩ := hv
  refine ⟨?_, by simpa [GEOHASH_MAX_PRECISION] using of_decide_eq_true h2⟩
  rcases h with - | ⟨c, h⟩
  · simp at h1
  · simp

theorem valid_of_parts (h : List Char) (h1 : 1 ≤ h.length)
    (h2 : h.length ≤ 12) (h3 : ∀ c ∈ h, c ∈ BASE32_ALPHABET) :
    is_valid_geohash_string h = true := by
  rw [is_valid_geohash_string, Bool.and_eq_true, Bool.and_eq_true]
  refine ⟨⟨?_, by simpa [GEOHASH_MAX_PRECISION] using decide_eq_true h2⟩, ?_⟩
  · rcases h with - | ⟨c, h⟩
    · simp at h1
    · simp
  · rw [List.all_eq_true]
    intro c hc
    exact (find_char_index_isSome_iff c BASE32_ALPHABET).mpr (h3 c hc)

theorem dropLast_append_getLastD (h : List Char) (hne : h ≠ []) :
    h.dropLast ++ [h.getLastD ' '] = h := by
  induction h with
  | nil => exact absurd rfl hne
  | cons x rest ih =>
    rcases rest with - | ⟨y, rest⟩
    · rfl
    · have := ih (by simp)
      simpa [List.dropLast_cons_of_ne_nil, List.getLastD_cons] using this

theorem getLastD_mem (h : List Char) (hne : h ≠ []) : h.getLastD ' ' ∈ h := by
  have hm := List.mem_append_right h.dropLast
    (List.mem_singleton_self (h.getLastD ' '))
  rwa [dropLast_append_getLastD h hne] at hm

theorem getLastD_append_singleton (l : List Char) (a b : Char) :
    (l ++ [a]).getLastD b = a := by
  simp [List.getLastD_eq_getLast?, List.getLast?_concat]

/-! ### Character-table facts, settled by evaluation over the alphabet -/

theorem adjc_total (d : GeoDirection) (p : Nat) (hp : p = 0 ∨ p = 1) :
    ∀ c ∈ BASE32_ALPHABET,
      (find_char_index c (adjacent_map d p)).isSome = true := by
  rcases hp with rfl | rfl <;> cases d <;> decide

theorem adjc_mem (d : GeoDirection) (p : Nat) (hp : p = 0 ∨ p = 1) :
    ∀ c ∈ BASE32_ALPHABET, adjc d p c ∈ BASE32_ALPHABET := by
  rcases hp with rfl | rfl <;> cases d <;> decide

theorem adjc_inv (d : GeoDirection) (p : Nat) (hp : p = 0 ∨ p = 1) :
    ∀ c ∈ BASE32_ALPHABET, adjc (oppDir d) p (adjc d p c) = c := by
  rcases hp with rfl | rfl <;> cases d <;> decide

theorem adjc_border (d : GeoDirection) (p : Nat) (hp : p = 0 ∨ p = 1) :
    ∀ c ∈ BASE32_ALPHABET,
      isBorder (oppDir d) p (adjc d p c) = isBorder d p c := by
  rcases hp with rfl | rfl <;> cases d <;> decide

theorem adjc_comm (dv dh : GeoDirection) (p : Nat)
    (hv : dv = .north ∨ dv = .south) (hh : dh = .east ∨ dh = .west)
    (hp : p = 0 ∨ p = 1) :
    ∀ c ∈ BASE32_ALPHABET, adjc dh p (adjc dv p c) = adjc dv p (adjc dh p c) := by
  rcases hv with rfl | rfl <;> rcases hh with rfl | rfl <;>
    rcases hp with rfl | rfl <;> decide

theorem border_horiz_inv (dv dh : GeoDirection) (p : Nat)
    (hv : dv = .north ∨ dv = .south) (hh : dh = .east ∨ dh = .west)
    (hp : p = 0 ∨ p = 1) :
    ∀ c ∈ BASE32_ALPHABET, isBorder dh p (adjc dv p c) = isBorder dh p c := by
  rcases hv with rfl | rfl <;> rcases hh with rfl | rfl <;>
    rcases hp with rfl | rfl <;> decide

theorem border_vert_inv (dv dh : GeoDirection) (p : Nat)
    (hv : dv = .north ∨ dv = .south) (hh : dh = .east ∨ dh = .west)
    (hp : p = 0 ∨ p = 1) :
    ∀ c ∈ BASE32_ALPHABET, isBorder dv p (adjc dh p c) = isBorder dv p c := by
  rcases hv with rfl | rfl <;> rcases hh with rfl | rfl <;>
    rcases hp with rfl | rfl <;> decide

/-! ### Unfolding geohash_get_adjacent on valid input -/

theorem get_adjacent_noborder (h : List Char) (d : GeoDirection)
    (hv : is_valid_geohash_string h = true)
    (hcond : ¬((find_char_index (h.getLastD ' ')
        (border_map d (h.length % 2))).isSome = true ∧ 1 < h.length)) :
    geohash_get_adjacent h d =
      .ok (h.dropLast ++ [adjc d (h.length % 2) (h.getLastD ' ')]) := by
  have hne : h ≠ [] := by
    intro hnil
    have := (valid_length h hv).1
    simp [hnil] at this
  have hc : h.getLastD ' ' ∈ BASE32_ALPHABET :=
    valid_chars h hv _ (getLastD_mem h hne)
  have hp : h.length % 2 = 0 ∨ h.length % 2 = 1 := by omega
  have hfind := adjc_total d _ hp _ hc
  obtain ⟨i, hi⟩ := Option.isSome_iff_exists.mp hfind
  rw [geohash_get_adjacent, dif_pos hv, dif_neg hcond, hi]
  rw [adjc, hi]

theorem get_adjacent_border (h : List Char) (d : GeoDirection)
    (hv : is_valid_geohash_string h = true)
    (hcond : (find_char_index (h.getLastD ' ')
        (border_map d (h.length % 2))).isSome = true ∧ 1 < h.length)
    (adj_parent : List Char)
    (hrec : geohash_get_adjacent h.dropLast d = .ok adj_parent) :
    geohash_get_adjacent h d =
      .ok (adj_parent ++ [adjc d (h.length % 2) (h.getLastD ' ')]) := by
  have hne : h ≠ [] := by
    intro hnil
    have := (valid_length h hv).1
    simp [hnil] at this
  have hc : h.getLastD ' ' ∈ BASE32_ALPHABET :=
    valid_chars h hv _ (getLastD_mem h hne)
  have hp : h.length % 2 = 0 ∨ h.length % 2 = 1 := by omega
  have hfind := adjc_total d _ hp _ hc
  obtain ⟨i, hi⟩ := Option.isSome_iff_exists.mp hfind
  rw [geohash_get_adjacent, dif_pos hv, dif_pos hcond, hrec, hi]
  rw [adjc, hi]

theorem valid_append_char (h : List Char) (hv : is_valid_geohash_string h = true)
    (q : List Char) (x : Char) (hq : q.length = h.length - 1)
    (hqc : ∀ ch ∈ q, ch ∈ BASE32_ALPHABET) (hx : x ∈ BASE32_ALPHABET) :
    is_valid_geohash_string (q ++ [x]) = true := by
  have h1 := (valid_length h hv).1
  have h2 := (valid_length h hv).2
  refine valid_of_parts _ (by simp) (by rw [List.length_append, hq]; simp; omega)
    ?_
  intro ch hch
  rcases List.mem_append.mp hch with hch | hch
  · exact hqc ch hch
  · rw [List.mem_singleton.mp hch]
    exact hx

theorem valid_dropLast (h : List Char) (hv : is_valid_geohash_string h = true)
    (hlong : 1 < h.length) : is_valid_geohash_string h.dropLast = true := by
  have h2 := (valid_length h hv).2
  refine valid_of_parts _ (by rw [List.length_dropLast]; omega)
    (by rw [List.length_dropLast]; omega) ?_
  intro ch hch
  exact valid_chars h hv ch (List.dropLast_subset h hch)

/-- Core adjacency facts, by strong induction on the hash length: for any
valid hash and direction, get_adjacent succeeds, preserves the length and
validity, and the opposite direction maps the neighbor back to the
original hash. -/
theorem adjacency_part1 :
    ∀ (n : Nat) (h : List Char), h.length = n →
      is_valid_geohash_string h = true →
      ∀ d : GeoDirection, ∃ r, geohash_get_adjacent h d = .ok r ∧
        r.length = h.length ∧ is_valid_geohash_string r = true ∧
        geohash_get_adjacent r (oppDir d) = .ok h := by
  intro n
  induction n using Nat.strong_induction_on with
  | _ n ih =>
  intro h hlen hv d
  have hlen1 : 1 ≤ h.length := (valid_length h hv).1
  have hne : h ≠ [] := by
    intro hnil
    rw [hnil] at hlen1
    simp at hlen1
  have hc : h.getLastD ' ' ∈ BASE32_ALPHABET :=
    valid_chars h hv _ (getLastD_mem h hne)
  have hp2 : h.length % 2 = 0 ∨ h.length % 2 = 1 := by omega
  have hdrop_len : h.dropLast.length = h.length - 1 := List.length_dropLast h
  have hsplit : h.dropLast ++ [h.getLastD ' '] = h :=
    dropLast_append_getLastD h hne
  have hcmem : adjc d (h.length % 2) (h.getLastD ' ') ∈ BASE32_ALPHABET :=
    adjc_mem d _ hp2 _ hc
  by_cases hb : isBorder d (h.length % 2) (h.getLastD ' ') = true ∧ 1 < h.length
  · -- border carry: recurse on the parent
    have hprevalid : is_valid_geohash_string h.dropLast = true :=
      valid_dropLast h hv hb.2
    obtain ⟨q, hq, hqlen, hqval, hqinv⟩ :=
      ih (h.length - 1) (by omega) h.dropLast (by omega) hprevalid d
    have hqlen' : q.length = h.length - 1 := by rw [hqlen, hdrop_len]
    have hrlen : (q ++ [adjc d (h.length % 2) (h.getLastD ' ')]).length =
        h.length := by
      rw [List.length_append, hqlen']
      simp
      omega
    have hrval : is_valid_geohash_string
        (q ++ [adjc d (h.length % 2) (h.getLastD ' ')]) = true :=
      valid_append_char h hv q _ hqlen' (valid_chars q hqval) hcmem
    refine ⟨q ++ [adjc d (h.length % 2) (h.getLastD ' ')],
      get_adjacent_border h d hv hb q hq, hrlen, hrval, ?_⟩
    have hlast : (q ++ [adjc d (h.length % 2) (h.getLastD ' ')]).getLastD ' ' =
        adjc d (h.length % 2) (h.getLastD ' ') := getLastD_append_singleton ..
    have hdropr : (q ++ [adjc d (h.length % 2) (h.getLastD ' ')]).dropLast = q :=
      List.dropLast_concat
    have hbord' : (find_char_index
        ((q ++ [adjc d (h.length % 2) (h.getLastD ' ')]).getLastD ' ')
        (border_map (oppDir d)
          ((q ++ [adjc d (h.length % 2) (h.getLastD ' ')]).length % 2))).isSome =
        true ∧ 1 < (q ++ [adjc d (h.length % 2) (h.getLastD ' ')]).length := by
      rw [hlast, hrlen]
      exact ⟨(adjc_border d _ hp2 _ hc).trans hb.1, hb.2⟩
    have hstep := get_adjacent_border
      (q ++ [adjc d (h.length % 2) (h.getLastD ' ')]) (oppDir d) hrval hbord'
      h.dropLast (by rw [hdropr]; exact hqinv)
    rw [hstep, hlast, hrlen, adjc_inv d _ hp2 _ hc, hsplit]
  · -- no carry: the prefix is the parent itself
    have hrlen : (h.dropLast ++ [adjc d (h.length % 2) (h.getLastD ' ')]).length =
        h.length := by
      rw [List.length_append, hdrop_len]
      simp
      omega
    have hrval : is_valid_geohash_string
        (h.dropLast ++ [adjc d (h.length % 2) (h.getLastD ' ')]) = true :=
      valid_append_char h hv h.dropLast _ hdrop_len
        (fun ch hch => valid_chars h hv ch (List.dropLast_subset h hch)) hcmem
    refine ⟨h.dropLast ++ [adjc d (h.length % 2) (h.getLastD ' ')],
      get_adjacent_noborder h d hv hb, hrlen, hrval, ?_⟩
    have hlast : (h.dropLast ++
        [adjc d (h.length % 2) (h.getLastD ' ')]).getLastD ' ' =
        adjc d (h.length % 2) (h.getLastD ' ') := getLastD_append_singleton ..
    have hdropr : (h.dropLast ++
        [adjc d (h.length % 2) (h.getLastD ' ')]).dropLast = h.dropLast :=
      List.dropLast_concat
    have hnocond : ¬((find_char_index
        ((h.dropLast ++ [adjc d (h.length % 2) (h.getLastD ' ')]).getLastD ' ')
        (border_map (oppDir d)
          ((h.dropLast ++
            [adjc d (h.length % 2) (h.getLastD ' ')]).length % 2))).isSome =
        true ∧
        1 < (h.dropLast ++ [adjc d (h.length % 2) (h.getLastD ' ')]).length) := by
      rw [hlast, hrlen]
      rintro ⟨hA, hB⟩
      exact hb ⟨(adjc_border d _ hp2 _ hc).symm.trans hA, hB⟩
    have hstep := get_adjacent_noborder
      (h.dropLast ++ [adjc d (h.length % 2) (h.getLastD ' ')]) (oppDir d) hrval
      hnocond
    rw [hstep, hlast, hdropr, hrlen, adjc_inv d _ hp2 _ hc, hsplit]

/-- Adjacency of a one-character extension A ++ [x] of a parent-sized
prefix, in both the border-carry and the plain case. -/
theorem adjacent_of_append (h : List Char)
    (hv : is_valid_geohash_string h = true) (A : List Char) (x : Char)
    (hA : A.length = h.length - 1) (hAc : ∀ ch ∈ A, ch ∈ BASE32_ALPHABET)
    (hx : x ∈ BASE32_ALPHABET) (d2 : GeoDirection) :
    (isBorder d2 (h.length % 2) x = true → 1 < h.length →
      ∀ W, geohash_get_adjacent A d2 = .ok W →
        geohash_get_adjacent (A ++ [x]) d2 =
          .ok (W ++ [adjc d2 (h.length % 2) x])) ∧
    (¬(isBorder d2 (h.length % 2) x = true ∧ 1 < h.length) →
      geohash_get_adjacent (A ++ [x]) d2 =
        .ok (A ++ [adjc d2 (h.length % 2) x])) := by
  have hlen1 : 1 ≤ h.length := (valid_length h hv).1
  have hrlen : (A ++ [x]).length = h.length := by
    rw [List.length_append, hA]
    simp
    omega
  have hrval : is_valid_geohash_string (A ++ [x]) = true :=
    valid_append_char h hv A x hA hAc hx
  have hlast : (A ++ [x]).getLastD ' ' = x := getLastD_append_singleton ..
  have hdropr : (A ++ [x]).dropLast = A := List.dropLast_concat
  constructor
  · intro hbord hlong W hW
    have hstep := get_adjacent_border (A ++ [x]) d2 hrval
      (by rw [hlast, hrlen]; exact ⟨hbord, hlong⟩) W (by rw [hdropr]; exact hW)
    rw [hstep, hlast, hrlen]
  · intro hnb
    have hstep := get_adjacent_noborder (A ++ [x]) d2 hrval
      (by rw [hlast, hrlen]; exact hnb)
    rw [hstep, hlast, hdropr, hrlen]

/-- Orthogonal adjacency moves commute: the horizontal neighbor of the
vertical neighbor is the vertical neighbor of the horizontal neighbor. -/
theorem adjacency_comm :
    ∀ (n : Nat) (h : List Char), h.length = n →
      is_valid_geohash_string h = true →
      ∀ dv dh : GeoDirection, (dv = .north ∨ dv = .south) →
        (dh = .east ∨ dh = .west) →
        (geohash_get_adjacent h dv).bind (fun r => geohash_get_adjacent r dh) =
          (geohash_get_adjacent h dh).bind (fun r => geohash_get_adjacent r dv) := by
  intro n
  induction n using Nat.strong_induction_on with
  | _ n ih =>
  intro h hlen hv dv dh hdv hdh
  have hlen1 : 1 ≤ h.length := (valid_length h hv).1
  have hne : h ≠ [] := by
    intro hnil
    rw [hnil] at hlen1
    simp at hlen1
  have hc : h.getLastD ' ' ∈ BASE32_ALPHABET :=
    valid_chars h hv _ (getLastD_mem h hne)
  have hp2 : h.length % 2 = 0 ∨ h.length % 2 = 1 := by omega
  have hdrop_len : h.dropLast.length = h.length - 1 := List.length_dropLast h
  have hvmem : adjc dv (h.length % 2) (h.getLastD ' ') ∈ BASE32_ALPHABET :=
    adjc_mem dv _ hp2 _ hc
  have hhmem : adjc dh (h.length % 2) (h.getLastD ' ') ∈ BASE32_ALPHABET :=
    adjc_mem dh _ hp2 _ hc
  have hAc : ∀ ch ∈ h.dropLast, ch ∈ BASE32_ALPHABET :=
    fun ch hch => valid_chars h hv ch (List.dropLast_subset h hch)
  by_cases hn1 : 1 < h.length
  · -- recursive case
    have hprevalid : is_valid_geohash_string h.dropLast = true :=
      valid_dropLast h hv hn1
    obtain ⟨qv, hqv, hqvlen, hqvval, _⟩ :=
      adjacency_part1 h.dropLast.length h.dropLast rfl hprevalid dv
    obtain ⟨qh, hqh, hqhlen, hqhval, _⟩ :=
      adjacency_part1 h.dropLast.length h.dropLast rfl hprevalid dh
    have hcomm_pre := ih (h.length - 1) (by omega) h.dropLast (by omega)
      hprevalid dv dh hdv hdh
    rw [hqv, hqh] at hcomm_pre
    simp only [Except.bind] at hcomm_pre
    have hqvlen' : qv.length = h.length - 1 := by rw [hqvlen, hdrop_len]
    have hqhlen' : qh.length = h.length - 1 := by rw [hqhlen, hdrop_len]
    have hqvc : ∀ ch ∈ qv, ch ∈ BASE32_ALPHABET := valid_chars qv hqvval
    have hqhc : ∀ ch ∈ qh, ch ∈ BASE32_ALPHABET := valid_chars qh hqhval
    by_cases hbv : isBorder dv (h.length % 2) (h.getLastD ' ') = true
    · by_cases hbh : isBorder dh (h.length % 2) (h.getLastD ' ') = true
      · -- both last characters carry
        rw [get_adjacent_border h dv hv ⟨hbv, hn1⟩ qv hqv,
          get_adjacent_border h dh hv ⟨hbh, hn1⟩ qh hqh]
        simp only [Except.bind]
        obtain ⟨w, hw, _, _, _⟩ := adjacency_part1 qv.length qv rfl hqvval dh
        have hw' : geohash_get_adjacent qh dv = .ok w := by
          rw [← hcomm_pre, hw]
        have h2v := (adjacent_of_append h hv qv _ hqvlen' hqvc hvmem dh).1
          ((border_horiz_inv dv dh _ hdv hdh hp2 _ hc).trans hbh) hn1 w hw
        have h2h := (adjacent_of_append h hv qh _ hqhlen' hqhc hhmem dv).1
          ((border_vert_inv dv dh _ hdv hdh hp2 _ hc).trans hbv) hn1 w hw'
        rw [h2v, h2h, adjc_comm dv dh _ hdv hdh hp2 _ hc]
      · -- only the vertical move carries
        rw [get_adjacent_border h dv hv ⟨hbv, hn1⟩ qv hqv,
          get_adjacent_noborder h dh hv (fun hcond => hbh hcond.1)]
        simp only [Except.bind]
        have h2v := (adjacent_of_append h hv qv _ hqvlen' hqvc hvmem dh).2
          (fun hcond =>
            hbh ((border_horiz_inv dv dh _ hdv hdh hp2 _ hc).symm.trans hcond.1))
        have h2h := (adjacent_of_append h hv h.dropLast _ hdrop_len hAc hhmem
            dv).1
          ((border_vert_inv dv dh _ hdv hdh hp2 _ hc).trans hbv) hn1 qv hqv
        rw [h2v, h2h, adjc_comm dv dh _ hdv hdh hp2 _ hc]
    · by_cases hbh : isBorder dh (h.length % 2) (h.getLastD ' ') = true
      · -- only the horizontal move carries
        rw [get_adjacent_noborder h dv hv (fun hcond => hbv hcond.1),
          get_adjacent_border h dh hv ⟨hbh, hn1⟩ qh hqh]
        simp only [Except.bind]
        have h2v := (adjacent_of_append h hv h.dropLast _ hdrop_len hAc hvmem
            dh).1
          ((border_horiz_inv dv dh _ hdv hdh hp2 _ hc).trans hbh) hn1 qh hqh
        have h2h := (adjacent_of_append h hv qh _ hqhlen' hqhc hhmem dv).2
          (fun hcond =>
            hbv ((border_vert_inv dv dh _ hdv hdh hp2 _ hc).symm.trans hcond.1))
        rw [h2v, h2h, adjc_comm dv dh _ hdv hdh hp2 _ hc]
      · -- neither carries
        rw [get_adjacent_noborder h dv hv (fun hcond => hbv hcond.1),
          get_adjacent_noborder h dh hv (fun hcond => hbh hcond.1)]
        simp only [Except.bind]
        have h2v := (adjacent_of_append h hv h.dropLast _ hdrop_len hAc hvmem
            dh).2
          (fun hcond =>
            hbh ((border_horiz_inv dv dh _ hdv hdh hp2 _ hc).symm.trans hcond.1))
        have h2h := (adjacent_of_append h hv h.dropLast _ hdrop_len hAc hhmem
            dv).2
          (fun hcond =>
            hbv ((border_vert_inv dv dh _ hdv hdh hp2 _ hc).symm.trans hcond.1))
        rw [h2v, h2h, adjc_comm dv dh _ hdv hdh hp2 _ hc]
  · -- single character: no recursion on either side
    rw [get_adjacent_noborder h dv hv (fun hcond => hn1 hcond.2),
      get_adjacent_noborder h dh hv (fun hcond => hn1 hcond.2)]
    simp only [Except.bind]
    have h2v := (adjacent_of_append h hv h.dropLast _ hdrop_len hAc hvmem dh).2
      (fun hcond => hn1 hcond.2)
    have h2h := (adjacent_of_append h hv h.dropLast _ hdrop_len hAc hhmem dv).2
      (fun hcond => hn1 hcond.2)
    rw [h2v, h2h, adjc_comm dv dh _ hdv hdh hp2 _ hc]

/-- C4.  For every valid geohash (length 1..12 over the alphabet), each of
the four neighbors exists and has the same length; north-then-south,
south-then-north, east-then-west and west-then-east return the original
hash; and orthogonal moves commute (east of north equals north of east,
and the other three vertical/horizontal combinations). -/
theorem C4_adjacency (h : List Char)
    (hv : is_valid_geohash_string h = true) :
    (∀ d : GeoDirection, ∃ r, geohash_get_adjacent h d = .ok r ∧
      r.length = h.length) ∧
    ((geohash_get_adjacent h .north).bind
        (fun r => geohash_get_adjacent r .south) = .ok h) ∧
    ((geohash_get_adjacent h .south).bind
        (fun r => geohash_get_adjacent r .north) = .ok h) ∧
    ((geohash_get_adjacent h .east).bind
        (fun r => geohash_get_adjacent r .west) = .ok h) ∧
    ((geohash_get_adjacent h .west).bind
        (fun r => geohash_get_adjacent r .east) = .ok h) ∧
    (∀ dv dh : GeoDirection, (dv = .north ∨ dv = .south) →
      (dh = .east ∨ dh = .west) →
      (geohash_get_adjacent h dv).bind (fun r => geohash_get_adjacent r dh) =
        (geohash_get_adjacent h dh).bind (fun r => geohash_get_adjacent r dv)) := by
  have hmain := adjacency_part1 h.length h rfl hv
  have hinv : ∀ d : GeoDirection,
      (geohash_get_adjacent h d).bind
        (fun r => geohash_get_adjacent r (oppDir d)) = .ok h := by
    intro d
    obtain ⟨r, hr, _, _, hrinv⟩ := hmain d
    rw [hr]
    simp only [Except.bind]
    exact hrinv
  exact ⟨fun d => (hmain d).imp (fun r hr => ⟨hr.1, hr.2.1⟩),
    hinv .north, hinv .south, hinv .east, hinv .west,
    fun dv dh hdv hdh => adjacency_comm h.length h rfl hv dv dh hdv hdh⟩

/-- C4 witness: the hash ezs4. -/
theorem C4_witness :
    (geohash_get_adjacent "ezs4".toList .north).bind
        (fun r => geohash_get_adjacent r .south) = .ok "ezs4".toList ∧
    (geohash_get_adjacent "ezs4".toList .north).bind
        (fun r => geohash_get_adjacent r .east) =
      (geohash_get_adjacent "ezs4".toList .east).bind
        (fun r => geohash_get_adjacent r .north) := by
  have h := C4_adjacency "ezs4".toList (by decide)
  exact ⟨h.2.1, h.2.2.2.2.2 .north .east (Or.inl rfl) (Or.inl rfl)⟩

/-! ### GeoHash encoding and decoding, over exact rationals -/

/-- The GeoPoint of geo_hash.h; the doubles are modeled as rationals. -/
structure GeoPoint where
  latitude : ℚ
  longitude : ℚ

/-- The GeoBounds of geo_hash.h. -/
structure GeoBounds where
  min_latitude : ℚ
  max_latitude : ℚ
  min_longitude : ℚ
  max_longitude : ℚ

/-- geo_hash.c, geopoint_is_valid. -/
def geopoint_is_valid (p : GeoPoint) : Bool :=
  decide (p.latitude ≥ -90) && decide (p.latitude ≤ 90) &&
    decide (p.longitude ≥ -180) && decide (p.longitude ≤ 180)

/-- The full-world interval pair both encode and get_bounds start from. -/
def GEO_INIT : GeoBounds :=
  { min_latitude := -90, max_latitude := 90,
    min_longitude := -180, max_longitude := 180 }

/-- One bisection step, shared verbatim by geohash_encode and
geohash_get_bounds: when the flag says longitude (true, the even
position), bit 1 keeps the upper longitude half and bit 0 the lower,
then the flag flips; odd positions bisect latitude the same way. -/
def bit_step (b : Bool) : GeoBounds × Bool → GeoBounds × Bool
  | (bd, true) =>
    (if b then { bd with min_longitude := (bd.min_longitude + bd.max_longitude) / 2 }
     else { bd with max_longitude := (bd.min_longitude + bd.max_longitude) / 2 },
     false)
  | (bd, false) =>
    (if b then { bd with min_latitude := (bd.min_latitude + bd.max_latitude) / 2 }
     else { bd with max_latitude := (bd.min_latitude + bd.max_latitude) / 2 },
     true)

/-- The decision bit of one encode step: 1 exactly when the active
coordinate is at or above the midpoint (the ≥ comparison of the source). -/
def enc_bit (lat lon : ℚ) (st : GeoBounds × Bool) : Bool :=
  if st.2 then decide (lon ≥ (st.1.min_longitude + st.1.max_longitude) / 2)
  else decide (lat ≥ (st.1.min_latitude + st.1.max_latitude) / 2)

/-- geo_hash.c, geohash_encode's while loop: 5*precision bisection steps,
accumulating 5 bits into index and emitting one alphabet character per
filled group. -/
def encode_loop (lat lon : ℚ) : Nat → GeoBounds × Bool → Nat → Nat → List Char
  | 0, _, _, _ => []
  | steps + 1, st, index, bit =>
    let b := enc_bit lat lon st
    let index' := index * 2 + (if b then 1 else 0)
    if bit + 1 = 5 then
      BASE32_ALPHABET.getD index' ' ' ::
        encode_loop lat lon steps (bit_step b st) 0 0
    else
      encode_loop lat lon steps (bit_step b st) index' (bit + 1)

/-- geo_hash.c, geohash_encode. -/
def geohash_encode (p : GeoPoint) (precision : Nat) :
    Except GeoHashError (List Char) :=
  if ¬(geopoint_is_valid p = true) then .error .invalid_point
  else if precision = 0 ∨ precision > GEOHASH_MAX_PRECISION then
    .error .invalid_precision
  else .ok (encode_loop p.latitude p.longitude (5 * precision) (GEO_INIT, true) 0 0)

/-- The five bits of one character index, most significant first
(geo_hash.c, GET_BIT over bit = 4..0). -/
def char_bits (ci : Nat) : List Bool :=
  [(ci >>> 4) &&& 1 == 1, (ci >>> 3) &&& 1 == 1, (ci >>> 2) &&& 1 == 1,
    (ci >>> 1) &&& 1 == 1, (ci >>> 0) &&& 1 == 1]

/-- geo_hash.c, geohash_get_bounds' character loop: look the character up
(failing on a non-alphabet character) and replay its five bits. -/
def bounds_fold : List Char → GeoBounds × Bool → Except GeoHashError (GeoBounds × Bool)
  | [], st => .ok st
  | c :: rest, st =>
    match find_char_index c BASE32_ALPHABET with
    | none => .error .invalid_hash
    | some ci => bounds_fold rest ((char_bits ci).foldl (fun s b => bit_step b s) st)

/-- geo_hash.c, geohash_get_bounds. -/
def geohash_get_bounds (h : List Char) : Except GeoHashError GeoBounds :=
  if ¬(is_valid_geohash_string h = true) then .error .invalid_hash
  else
    match bounds_fold h (GEO_INIT, true) with
    | .error e => .error e
    | .ok st => .ok st.1

/-- geo_hash.c, geohash_decode: the midpoint of the bounds. -/
def geohash_decode (h : List Char) : Except GeoHashError GeoPoint :=
  match geohash_get_bounds h with
  | .error e => .error e
  | .ok bd =>
    .ok { latitude := (bd.min_latitude + bd.max_latitude) / 2,
          longitude := (bd.min_longitude + bd.max_longitude) / 2 }

/-- Containment of a point in a cell, with ties at bisection midpoints
resolved to the upper half as the source's ≥ comparisons do: half-open on
the upper side except at the global maximum edge. -/
def inQ (lo hi top x : ℚ) : Prop := lo ≤ x ∧ (x < hi ∨ hi = top)

def bounds_contain (bd : GeoBounds) (lat lon : ℚ) : Prop :=
  inQ bd.min_latitude bd.max_latitude 90 lat ∧
    inQ bd.min_longitude bd.max_longitude 180 lon

/-- Interval sanity through the bisection. -/
def bounds_wf (bd : GeoBounds) : Prop :=
  -90 ≤ bd.min_latitude ∧ bd.min_latitude < bd.max_latitude ∧
    bd.max_latitude ≤ 90 ∧ -180 ≤ bd.min_longitude ∧
    bd.min_longitude < bd.max_longitude ∧ bd.max_longitude ≤ 180

/-- The latitude cell size at a given precision: 180 / 2^(number of
latitude bits). -/
def lat_cell_size (n : Nat) : ℚ := 180 / 2 ^ (5 * n / 2)

/-- The longitude cell size at a given precision. -/
def lon_cell_size (n : Nat) : ℚ := 360 / 2 ^ ((5 * n + 1) / 2)

/-! ### The bit-stream view of encode and get_bounds -/

/-- The decision bits of the encode loop, in emission order. -/
def enc_bits (lat lon : ℚ) : Nat → GeoBounds × Bool → List Bool
  | 0, _ => []
  | k + 1, st =>
    enc_bit lat lon st :: enc_bits lat lon k (bit_step (enc_bit lat lon st) st)

/-- Grouping a bit stream five at a time into alphabet characters, the way
the encode loop's index/bit accumulators do. -/
def pack_chars : Nat → Nat → List Bool → List Char
  | _, _, [] => []
  | index, bit, b :: rest =>
    let index' := index * 2 + (if b then 1 else 0)
    if bit + 1 = 5 then
      BASE32_ALPHABET.getD index' ' ' :: pack_chars 0 0 rest
    else pack_chars index' (bit + 1) rest

/-- Replaying a bit stream through the shared bisection step. -/
def fold_bits (bits : List Bool) (st : GeoBounds × Bool) : GeoBounds × Bool :=
  bits.foldl (fun s b => bit_step b s) st

/-- The value of five bits, most significant first. -/
def bits5val (bs : List Bool) : Nat :=
  bs.foldl (fun a b => a * 2 + if b then 1 else 0) 0

theorem enc_bits_length (lat lon : ℚ) :
    ∀ k st, (enc_bits lat lon k st).length = k := by
  intro k
  induction k with
  | zero => intro st; rfl
  | succ m ih => intro st; rw [enc_bits, List.length_cons, ih]

/-- The encode loop is exactly pack_chars applied to its decision bits. -/
theorem encode_loop_eq_pack (lat lon : ℚ) :
    ∀ steps st index bit,
      encode_loop lat lon steps st index bit =
        pack_chars index bit (enc_bits lat lon steps st) := by
  intro steps
  induction steps with
  | zero => intro st index bit; rfl
  | succ m ih =>
    intro st index bit
    rw [encode_loop, enc_bits, pack_chars]
    split <;> rw [ih]

theorem pack5 (b1 b2 b3 b4 b5 : Bool) (rest : List Bool) :
    pack_chars 0 0 (b1 :: b2 :: b3 :: b4 :: b5 :: rest) =
      BASE32_ALPHABET.getD (bits5val [b1, b2, b3, b4, b5]) ' ' ::
        pack_chars 0 0 rest := by
  rw [pack_chars]
  simp only [if_neg (by omega : ¬(0 + 1 = 5))]
  rw [pack_chars]
  simp only [if_neg (by omega : ¬(1 + 1 = 5))]
  rw [pack_chars]
  simp only [if_neg (by omega : ¬(2 + 1 = 5))]
  rw [pack_chars]
  simp only [if_neg (by omega : ¬(3 + 1 = 5))]
  rw [pack_chars]
  simp only [if_pos (by omega : 4 + 1 = 5)]
  rfl

/-- One character of get_bounds' loop, when the lookup succeeds. -/
theorem bounds_fold_cons_some (c : Char) (rest : List Char)
    (st : GeoBounds × Bool) (ci : Nat)
    (hfind : find_char_index c BASE32_ALPHABET = some ci) :
    bounds_fold (c :: rest) st =
      bounds_fold rest ((char_bits ci).foldl (fun s b => bit_step b s) st) := by
  rw [bounds_fold, hfind]

theorem bits5val_lt (b1 b2 b3 b4 b5 : Bool) :
    bits5val [b1, b2, b3, b4, b5] < 32 := by
  cases b1 <;> cases b2 <;> cases b3 <;> cases b4 <;> cases b5 <;> decide

theorem getD_mem32 : ∀ v : Nat, v < 32 →
    BASE32_ALPHABET.getD v ' ' ∈ BASE32_ALPHABET := by
  decide

theorem find_getD_b32 : ∀ v : Nat, v < 32 →
    find_char_index (BASE32_ALPHABET.getD v ' ') BASE32_ALPHABET = some v := by
  decide

theorem char_bits_bits5val (b1 b2 b3 b4 b5 : Bool) :
    char_bits (bits5val [b1, b2, b3, b4, b5]) = [b1, b2, b3, b4, b5] := by
  cases b1 <;> cases b2 <;> cases b3 <;> cases b4 <;> cases b5 <;> decide

theorem roundtrip_char : ∀ c ∈ BASE32_ALPHABET,
    BASE32_ALPHABET.getD
      (bits5val (char_bits ((find_char_index c BASE32_ALPHABET).getD 0))) ' ' =
      c := by
  decide

/-- Replaying packed characters through get_bounds' loop reaches exactly
the bit-stream fold, and the packed text is k alphabet characters. -/
theorem pack_bounds :
    ∀ (k : Nat) (bits : List Bool) (st : GeoBounds × Bool),
      bits.length = 5 * k →
      bounds_fold (pack_chars 0 0 bits) st = .ok (fold_bits bits st) ∧
      (pack_chars 0 0 bits).length = k ∧
      (∀ c ∈ pack_chars 0 0 bits, c ∈ BASE32_ALPHABET) := by
  intro k
  induction k with
  | zero =>
    intro bits st hlen
    rw [List.length_eq_zero.mp hlen]
    exact ⟨rfl, rfl, by intro c hc; cases hc⟩
  | succ m ih =>
    intro bits st hlen
    rcases bits with - | ⟨b1, bits⟩
    · simp at hlen
    rcases bits with - | ⟨b2, bits⟩
    · simp at hlen; omega
    rcases bits with - | ⟨b3, bits⟩
    · simp at hlen; omega
    rcases bits with - | ⟨b4, bits⟩
    · simp at hlen; omega
    rcases bits with - | ⟨b5, rest⟩
    · simp at hlen; omega
    have hrest : rest.length = 5 * m := by
      simp only [List.length_cons] at hlen
      omega
    have hv := bits5val_lt b1 b2 b3 b4 b5
    set st5 := fold_bits [b1, b2, b3, b4, b5] st with hst5
    obtain ⟨ih1, ih2, ih3⟩ := ih rest st5 hrest
    rw [pack5]
    refine ⟨?_, ?_, ?_⟩
    · rw [bounds_fold_cons_some _ _ _ _ (find_getD_b32 _ hv),
        char_bits_bits5val]
      rw [show fold_bits (b1 :: b2 :: b3 :: b4 :: b5 :: rest) st =
        fold_bits rest st5 from rfl]
      rw [← ih1]
      rfl
    · rw [List.length_cons, ih2]
    · intro c hc
      rcases List.mem_cons.mp hc with rfl | hc
      · exact getD_mem32 _ hv
      · exact ih3 c hc

/-- The bit stream denoted by a hash string. -/
def hash_bits (h : List Char) : List Bool :=
  h.flatMap (fun c => char_bits ((find_char_index c BASE32_ALPHABET).getD 0))

theorem hash_bits_length (h : List Char) :
    (hash_bits h).length = 5 * h.length := by
  induction h with
  | nil => rfl
  | cons c rest ih =>
    rw [hash_bits, List.flatMap_cons] at *
    rw [List.length_append, ih]
    simp [char_bits]
    ring

/-- On alphabet text, get_bounds' loop is the fold of the denoted bits. -/
theorem bounds_fold_eq_bits (h : List Char)
    (hvc : ∀ c ∈ h, c ∈ BASE32_ALPHABET) :
    ∀ st, bounds_fold h st = .ok (fold_bits (hash_bits h) st) := by
  induction h with
  | nil => intro st; rfl
  | cons c rest ih =>
    intro st
    have hmem := hvc c (List.mem_cons_self c rest)
    obtain ⟨i, hi⟩ := Option.isSome_iff_exists.mp
      ((find_char_index_isSome_iff c BASE32_ALPHABET).mpr hmem)
    rw [bounds_fold_cons_some c rest st i hi,
      ih (fun c hc => hvc c (List.mem_cons_of_mem _ hc))]
    rw [show hash_bits (c :: rest) =
      char_bits ((find_char_index c BASE32_ALPHABET).getD 0) ++ hash_bits rest
      from rfl, hi]
    simp only [Option.getD_some]
    conv_rhs => rw [fold_bits, List.foldl_append]
    rfl

/-- On alphabet text, re-packing the denoted bits restores the text. -/
theorem pack_hash_bits (h : List Char) (hvc : ∀ c ∈ h, c ∈ BASE32_ALPHABET) :
    pack_chars 0 0 (hash_bits h) = h := by
  induction h with
  | nil => rfl
  | cons c rest ih =>
    have hmem := hvc c (List.mem_cons_self c rest)
    rw [hash_bits, List.flatMap_cons]
    have hcb : char_bits ((find_char_index c BASE32_ALPHABET).getD 0) =
        [((find_char_index c BASE32_ALPHABET).getD 0 >>> 4) &&& 1 == 1,
         ((find_char_index c BASE32_ALPHABET).getD 0 >>> 3) &&& 1 == 1,
         ((find_char_index c BASE32_ALPHABET).getD 0 >>> 2) &&& 1 == 1,
         ((find_char_index c BASE32_ALPHABET).getD 0 >>> 1) &&& 1 == 1,
         ((find_char_index c BASE32_ALPHABET).getD 0 >>> 0) &&& 1 == 1] := rfl
    rw [hcb]
    rw [List.cons_append, List.cons_append, List.cons_append,
      List.cons_append, List.cons_append, List.nil_append]
    rw [pack5]
    have hrt := roundtrip_char c hmem
    rw [hcb] at hrt
    rw [hrt]
    rw [show rest.flatMap
        (fun c => char_bits ((find_char_index c BASE32_ALPHABET).getD 0)) =
      hash_bits rest from rfl]
    rw [ih (fun c hc => hvc c (List.mem_cons_of_mem _ hc))]

/-! ### Interval invariants of the bisection -/

theorem fold_bits_cons (b : Bool) (rest : List Bool) (st : GeoBounds × Bool) :
    fold_bits (b :: rest) st = fold_bits rest (bit_step b st) := rfl

theorem bit_step_true_lon (bd : GeoBounds) :
    bit_step true (bd, true) =
      ({ bd with min_longitude := (bd.min_longitude + bd.max_longitude) / 2 },
        false) := by
  simp [bit_step]

theorem bit_step_false_lon (bd : GeoBounds) :
    bit_step false (bd, true) =
      ({ bd with max_longitude := (bd.min_longitude + bd.max_longitude) / 2 },
        false) := by
  simp [bit_step]

theorem bit_step_true_lat (bd : GeoBounds) :
    bit_step true (bd, false) =
      ({ bd with min_latitude := (bd.min_latitude + bd.max_latitude) / 2 },
        true) := by
  simp [bit_step]

theorem bit_step_false_lat (bd : GeoBounds) :
    bit_step false (bd, false) =
      ({ bd with max_latitude := (bd.min_latitude + bd.max_latitude) / 2 },
        true) := by
  simp [bit_step]

theorem bit_step_wf (b : Bool) (bd : GeoBounds) (e : Bool)
    (hwf : bounds_wf bd) : bounds_wf (bit_step b (bd, e)).1 := by
  obtain ⟨h1, h2, h3, h4, h5, h6⟩ := hwf
  cases e <;> cases b <;>
    [rw [bit_step_false_lat]; rw [bit_step_true_lat];
      rw [bit_step_false_lon]; rw [bit_step_true_lon]] <;>
    refine ⟨?_, ?_, ?_, ?_, ?_, ?_⟩ <;> simp <;> linarith

theorem bit_step_nested (b : Bool) (bd : GeoBounds) (e : Bool)
    (hwf : bounds_wf bd) :
    bd.min_latitude ≤ (bit_step b (bd, e)).1.min_latitude ∧
    (bit_step b (bd, e)).1.max_latitude ≤ bd.max_latitude ∧
    bd.min_longitude ≤ (bit_step b (bd, e)).1.min_longitude ∧
    (bit_step b (bd, e)).1.max_longitude ≤ bd.max_longitude := by
  obtain ⟨h1, h2, h3, h4, h5, h6⟩ := hwf
  cases e <;> cases b <;>
    [rw [bit_step_false_lat]; rw [bit_step_true_lat];
      rw [bit_step_false_lon]; rw [bit_step_true_lon]] <;>
    refine ⟨?_, ?_, ?_, ?_⟩ <;> simp <;> linarith

theorem bit_step_contain (lat lon : ℚ) (st : GeoBounds × Bool)
    (hcont : bounds_contain st.1 lat lon) :
    bounds_contain (bit_step (enc_bit lat lon st) st).1 lat lon := by
  obtain ⟨bd, e⟩ := st
  obtain ⟨⟨hla1, hla2⟩, ⟨hlo1, hlo2⟩⟩ := hcont
  cases e
  · -- latitude step
    by_cases hm : lat ≥ (bd.min_latitude + bd.max_latitude) / 2
    · have hbit : enc_bit lat lon (bd, false) = true := by
        simp [enc_bit, hm]
      rw [hbit]
      exact ⟨⟨by simpa using hm, by simpa using hla2⟩, ⟨hlo1, hlo2⟩⟩
    · have hbit : enc_bit lat lon (bd, false) = false := by
        simp [enc_bit, hm]
      rw [hbit]
      refine ⟨⟨by simpa using hla1, Or.inl ?_⟩, ⟨hlo1, hlo2⟩⟩
      simp only [bit_step, Bool.false_eq_true, if_neg]
      simp
      linarith [not_le.mp hm]
  · -- longitude step
    by_cases hm : lon ≥ (bd.min_longitude + bd.max_longitude) / 2
    · have hbit : enc_bit lat lon (bd, true) = true := by
        simp [enc_bit, hm]
      rw [hbit]
      exact ⟨⟨hla1, hla2⟩, ⟨by simpa using hm, by simpa using hlo2⟩⟩
    · have hbit : enc_bit lat lon (bd, true) = false := by
        simp [enc_bit, hm]
      rw [hbit]
      refine ⟨⟨hla1, hla2⟩, ⟨by simpa using hlo1, Or.inl ?_⟩⟩
      simp only [bit_step, Bool.false_eq_true, if_neg]
      simp
      linarith [not_le.mp hm]

theorem fold_bits_wf :
    ∀ (bits : List Bool) (st : GeoBounds × Bool), bounds_wf st.1 →
      bounds_wf (fold_bits bits st).1 := by
  intro bits
  induction bits with
  | nil => intro st h; exact h
  | cons b rest ih =>
    intro st h
    rw [fold_bits_cons]
    exact ih _ (bit_step_wf b st.1 st.2 h)

theorem fold_bits_nested :
    ∀ (bits : List Bool) (st : GeoBounds × Bool), bounds_wf st.1 →
      st.1.min_latitude ≤ (fold_bits bits st).1.min_latitude ∧
      (fold_bits bits st).1.max_latitude ≤ st.1.max_latitude ∧
      st.1.min_longitude ≤ (fold_bits bits st).1.min_longitude ∧
      (fold_bits bits st).1.max_longitude ≤ st.1.max_longitude := by
  intro bits
  induction bits with
  | nil => intro st h; exact ⟨le_refl _, le_refl _, le_refl _, le_refl _⟩
  | cons b rest ih =>
    intro st h
    rw [fold_bits_cons]
    obtain ⟨n1, n2, n3, n4⟩ := bit_step_nested b st.1 st.2 h
    obtain ⟨m1, m2, m3, m4⟩ := ih (bit_step b st) (bit_step_wf b st.1 st.2 h)
    exact ⟨le_trans n1 m1, le_trans m2 n2, le_trans n3 m3, le_trans m4 n4⟩

theorem fold_enc_bits_contain (lat lon : ℚ) :
    ∀ (k : Nat) (st : GeoBounds × Bool), bounds_contain st.1 lat lon →
      bounds_contain (fold_bits (enc_bits lat lon k st) st).1 lat lon := by
  intro k
  induction k with
  | zero => intro st h; exact h
  | succ m ih =>
    intro st h
    rw [enc_bits, fold_bits_cons]
    exact ih _ (bit_step_contain lat lon st h)

/-- Two same-length bit streams whose final cells both contain the point
are equal: at the first difference the two half-cells are disjoint under
the upper-half tie rule. -/
theorem fold_bits_unique (lat lon : ℚ) :
    ∀ (bits1 bits2 : List Bool) (st : GeoBounds × Bool),
      bits1.length = bits2.length → bounds_wf st.1 →
      bounds_contain (fold_bits bits1 st).1 lat lon →
      bounds_contain (fold_bits bits2 st).1 lat lon →
      bits1 = bits2 := by
  intro bits1
  induction bits1 with
  | nil =>
    intro bits2 st hlen _ _ _
    exact (List.length_eq_zero.mp hlen.symm).symm ▸ rfl
  | cons b1 r1 ih =>
    intro bits2 st hlen hwf hc1 hc2
    rcases bits2 with - | ⟨b2, r2⟩
    · simp at hlen
    by_cases hb : b1 = b2
    · subst hb
      rw [ih r2 (bit_step b1 st) (by simpa using hlen)
        (bit_step_wf b1 st.1 st.2 hwf) (by rwa [fold_bits_cons] at hc1)
        (by rwa [fold_bits_cons] at hc2)]
    · exfalso
      obtain ⟨bd, e⟩ := st
      obtain ⟨w1, w2, w3, w4, w5, w6⟩ := hwf
      rw [fold_bits_cons] at hc1 hc2
      -- the branch that kept the upper half pins the point at or above the
      -- midpoint; the lower half pins it strictly below
      have w5' : bd.min_longitude < bd.max_longitude := w5
      have w6' : bd.max_longitude ≤ 180 := w6
      have w2' : bd.min_latitude < bd.max_latitude := w2
      have w3' : bd.max_latitude ≤ 90 := w3
      have keyLonHi : ∀ r : List Bool,
          bounds_contain (fold_bits r (bit_step true (bd, true))).1 lat lon →
          (bd.min_longitude + bd.max_longitude) / 2 ≤ lon := by
        intro r hcont
        obtain ⟨m1, m2, m3, m4⟩ := fold_bits_nested r _
          (bit_step_wf true bd true ⟨w1, w2, w3, w4, w5, w6⟩)
        have hfield : (bit_step true (bd, true)).1.min_longitude =
            (bd.min_longitude + bd.max_longitude) / 2 := by
          rw [bit_step_true_lon]
        exact le_trans (le_of_eq hfield.symm) (le_trans m3 hcont.2.1)
      have keyLonLo : ∀ r : List Bool,
          bounds_contain (fold_bits r (bit_step false (bd, true))).1 lat lon →
          lon < (bd.min_longitude + bd.max_longitude) / 2 := by
        intro r hcont
        obtain ⟨m1, m2, m3, m4⟩ := fold_bits_nested r _
          (bit_step_wf false bd true ⟨w1, w2, w3, w4, w5, w6⟩)
        have hfield : (bit_step false (bd, true)).1.max_longitude =
            (bd.min_longitude + bd.max_longitude) / 2 := by
          rw [bit_step_false_lon]
        have hbound := le_of_le_of_eq m4 hfield
        rcases hcont.2.2 with hlt | heq
        · exact lt_of_lt_of_le hlt hbound
        · exfalso
          rw [heq] at hbound
          linarith
      have keyLatHi : ∀ r : List Bool,
          bounds_contain (fold_bits r (bit_step true (bd, false))).1 lat lon →
          (bd.min_latitude + bd.max_latitude) / 2 ≤ lat := by
        intro r hcont
        obtain ⟨m1, m2, m3, m4⟩ := fold_bits_nested r _
          (bit_step_wf true bd false ⟨w1, w2, w3, w4, w5, w6⟩)
        have hfield : (bit_step true (bd, false)).1.min_latitude =
            (bd.min_latitude + bd.max_latitude) / 2 := by
          rw [bit_step_true_lat]
        exact le_trans (le_of_eq hfield.symm) (le_trans m1 hcont.1.1)
      have keyLatLo : ∀ r : List Bool,
          bounds_contain (fold_bits r (bit_step false (bd, false))).1 lat lon →
          lat < (bd.min_latitude + bd.max_latitude) / 2 := by
        intro r hcont
        obtain ⟨m1, m2, m3, m4⟩ := fold_bits_nested r _
          (bit_step_wf false bd false ⟨w1, w2, w3, w4, w5, w6⟩)
        have hfield : (bit_step false (bd, false)).1.max_latitude =
            (bd.min_latitude + bd.max_latitude) / 2 := by
          rw [bit_step_false_lat]
        have hbound := le_of_le_of_eq m2 hfield
        rcases hcont.1.2 with hlt | heq
        · exact lt_of_lt_of_le hlt hbound
        · exfalso
          rw [heq] at hbound
          linarith
      cases e
      · cases b1 <;> cases b2
        · exact hb rfl
        · exact absurd (keyLatHi r2 hc2) (not_le.mpr (keyLatLo r1 hc1))
        · exact absurd (keyLatHi r1 hc1) (not_le.mpr (keyLatLo r2 hc2))
        · exact hb rfl
      · cases b1 <;> cases b2
        · exact hb rfl
        · exact absurd (keyLonHi r2 hc2) (not_le.mpr (keyLonLo r1 hc1))
        · exact absurd (keyLonHi r1 hc1) (not_le.mpr (keyLonLo r2 hc2))
        · exact hb rfl

/-! ### Cell widths after the bisection -/

/-- How many of the k alternating steps bisect longitude, starting from
flag e. -/
def lon_steps : Nat → Bool → Nat
  | 0, _ => 0
  | k + 1, true => lon_steps k false + 1
  | k + 1, false => lon_steps k true

def lat_steps : Nat → Bool → Nat
  | 0, _ => 0
  | k + 1, true => lat_steps k false
  | k + 1, false => lat_steps k true + 1

theorem lon_steps_val : ∀ k : Nat,
    lon_steps k true = (k + 1) / 2 ∧ lon_steps k false = k / 2 := by
  intro k
  induction k with
  | zero => exact ⟨rfl, rfl⟩
  | succ m ih =>
    rw [lon_steps, lon_steps, ih.1, ih.2]
    omega

theorem lat_steps_val : ∀ k : Nat,
    lat_steps k true = k / 2 ∧ lat_steps k false = (k + 1) / 2 := by
  intro k
  induction k with
  | zero => exact ⟨rfl, rfl⟩
  | succ m ih =>
    rw [lat_steps, lat_steps, ih.1, ih.2]
    omega

theorem half_width_div (w : ℚ) (m : Nat) :
    w / 2 / 2 ^ m = w / 2 ^ (m + 1) := by
  rw [div_div, pow_succ]
  ring_nf

theorem fold_bits_width :
    ∀ (bits : List Bool) (bd : GeoBounds) (e : Bool),
      (fold_bits bits (bd, e)).1.max_longitude -
          (fold_bits bits (bd, e)).1.min_longitude =
        (bd.max_longitude - bd.min_longitude) / 2 ^ (lon_steps bits.length e) ∧
      (fold_bits bits (bd, e)).1.max_latitude -
          (fold_bits bits (bd, e)).1.min_latitude =
        (bd.max_latitude - bd.min_latitude) / 2 ^ (lat_steps bits.length e) := by
  intro bits
  induction bits with
  | nil =>
    intro bd e
    rw [show lon_steps [].length e = 0 from by cases e <;> rfl,
      show lat_steps [].length e = 0 from by cases e <;> rfl]
    constructor <;> simp [fold_bits]
  | cons b rest ih =>
    intro bd e
    rw [fold_bits_cons]
    cases e
    · -- latitude step
      have hstep : ∃ bd', bit_step b (bd, false) = (bd', true) ∧
          bd'.max_longitude - bd'.min_longitude =
            bd.max_longitude - bd.min_longitude ∧
          bd'.max_latitude - bd'.min_latitude =
            (bd.max_latitude - bd.min_latitude) / 2 := by
        cases b
        · refine ⟨_, bit_step_false_lat bd, ?_, ?_⟩ <;> (simp; try ring)
        · refine ⟨_, bit_step_true_lat bd, ?_, ?_⟩ <;> (simp; try ring)
      obtain ⟨bd', hbd', hlonw, hlatw⟩ := hstep
      rw [hbd']
      obtain ⟨ihlon, ihlat⟩ := ih bd' true
      rw [List.length_cons, lon_steps, lat_steps]
      constructor
      · rw [ihlon, hlonw]
      · rw [ihlat, hlatw, half_width_div]
    · -- longitude step
      have hstep : ∃ bd', bit_step b (bd, true) = (bd', false) ∧
          bd'.max_longitude - bd'.min_longitude =
            (bd.max_longitude - bd.min_longitude) / 2 ∧
          bd'.max_latitude - bd'.min_latitude =
            bd.max_latitude - bd.min_latitude := by
        cases b
        · refine ⟨_, bit_step_false_lon bd, ?_, ?_⟩ <;> (simp; try ring)
        · refine ⟨_, bit_step_true_lon bd, ?_, ?_⟩ <;> (simp; try ring)
      obtain ⟨bd', hbd', hlonw, hlatw⟩ := hstep
      rw [hbd']
      obtain ⟨ihlon, ihlat⟩ := ih bd' false
      rw [List.length_cons, lon_steps, lat_steps]
      constructor
      · rw [ihlon, hlonw, half_width_div]
      · rw [ihlat, hlatw]

/-- C3.  For every in-range point and precision 1..12, encode succeeds and
returns the unique length-n hash whose bounds contain the point (ties at
bisection midpoints go to the upper half); decode of any valid hash is the
midpoint of its bounds; and the round-trip error is at most the cell size
at that precision (claimed for n ≥ 5), in particular at most 0.001 degrees
at precision 9. -/
theorem C3_roundtrip (p : GeoPoint) (hla1 : -90 ≤ p.latitude)
    (hla2 : p.latitude ≤ 90) (hlo1 : -180 ≤ p.longitude)
    (hlo2 : p.longitude ≤ 180) (n : Nat) (hn1 : 1 ≤ n) (hn2 : n ≤ 12) :
    ∃ h, geohash_encode p n = .ok h ∧ h.length = n ∧
      (∃ bd, geohash_get_bounds h = .ok bd ∧
        bounds_contain bd p.latitude p.longitude) ∧
      (∀ h2 bd2, h2.length = n → geohash_get_bounds h2 = .ok bd2 →
        bounds_contain bd2 p.latitude p.longitude → h2 = h) ∧
      (∀ h3 bd3, geohash_get_bounds h3 = .ok bd3 →
        geohash_decode h3 = .ok
          { latitude := (bd3.min_latitude + bd3.max_latitude) / 2,
            longitude := (bd3.min_longitude + bd3.max_longitude) / 2 }) ∧
      (∀ q, geohash_decode h = .ok q →
        (5 ≤ n → |q.latitude - p.latitude| ≤ lat_cell_size n ∧
          |q.longitude - p.longitude| ≤ lon_cell_size n) ∧
        (n = 9 → |q.latitude - p.latitude| ≤ 1 / 1000 ∧
          |q.longitude - p.longitude| ≤ 1 / 1000)) := by
  have hvalidp : geopoint_is_valid p = true := by
    simp only [geopoint_is_valid, Bool.and_eq_true, decide_eq_true_eq]
    exact ⟨⟨⟨hla1, hla2⟩, hlo1⟩, hlo2⟩
  have hbitslen :
      (enc_bits p.latitude p.longitude (5 * n) (GEO_INIT, true)).length =
        5 * n := enc_bits_length _ _ _ _
  obtain ⟨hfold, hplen, hpmem⟩ := pack_bounds n
    (enc_bits p.latitude p.longitude (5 * n) (GEO_INIT, true))
    (GEO_INIT, true) hbitslen
  have henc : geohash_encode p n = .ok (pack_chars 0 0
      (enc_bits p.latitude p.longitude (5 * n) (GEO_INIT, true))) := by
    rw [geohash_encode, if_neg (not_not_intro hvalidp), if_neg (by
      rintro (h0 | h12)
      · omega
      · rw [GEOHASH_MAX_PRECISION] at h12; omega), encode_loop_eq_pack]
  have hvalh : is_valid_geohash_string (pack_chars 0 0
      (enc_bits p.latitude p.longitude (5 * n) (GEO_INIT, true))) = true :=
    valid_of_parts _ (by rw [hplen]; omega) (by rw [hplen]; omega) hpmem
  have hbounds : geohash_get_bounds (pack_chars 0 0
      (enc_bits p.latitude p.longitude (5 * n) (GEO_INIT, true))) =
      .ok (fold_bits (enc_bits p.latitude p.longitude (5 * n) (GEO_INIT, true))
        (GEO_INIT, true)).1 := by
    rw [geohash_get_bounds, if_neg (not_not_intro hvalh), hfold]
  have hwfinit : bounds_wf GEO_INIT := by
    refine ⟨?_, ?_, ?_, ?_, ?_, ?_⟩ <;> norm_num [GEO_INIT]
  have hcont0 : bounds_contain GEO_INIT p.latitude p.longitude :=
    ⟨⟨hla1, Or.inr rfl⟩, ⟨hlo1, Or.inr rfl⟩⟩
  have hcontf := fold_enc_bits_contain p.latitude p.longitude (5 * n)
    (GEO_INIT, true) hcont0
  refine ⟨pack_chars 0 0
    (enc_bits p.latitude p.longitude (5 * n) (GEO_INIT, true)),
    henc, hplen, ⟨_, hbounds, hcontf⟩, ?_, ?_, ?_⟩
  · -- uniqueness among same-length valid hashes
    intro h2 bd2 hlen2 hbd2 hcont2
    have hval2 : is_valid_geohash_string h2 = true := by
      by_contra hnv
      rw [geohash_get_bounds, if_pos hnv] at hbd2
      simp at hbd2
    have hvc2 := valid_chars h2 hval2
    rw [geohash_get_bounds, if_neg (not_not_intro hval2),
      bounds_fold_eq_bits h2 hvc2 (GEO_INIT, true)] at hbd2
    injection hbd2 with hbd2
    have hlenbits2 : (hash_bits h2).length = 5 * n := by
      rw [hash_bits_length, hlen2]
    have heqbits := fold_bits_unique p.latitude p.longitude (hash_bits h2)
      (enc_bits p.latitude p.longitude (5 * n) (GEO_INIT, true))
      (GEO_INIT, true) (by rw [hlenbits2, hbitslen]) hwfinit
      (by rw [hbd2]; exact hcont2) hcontf
    rw [← pack_hash_bits h2 hvc2, heqbits]
  · -- decode is the bounds midpoint
    intro h3 bd3 hbd3
    rw [geohash_decode, hbd3]
  · -- round-trip error
    intro q hq
    rw [geohash_decode, hbounds] at hq
    injection hq with hq
    subst hq
    obtain ⟨wlon, wlat⟩ := fold_bits_width
      (enc_bits p.latitude p.longitude (5 * n) (GEO_INIT, true)) GEO_INIT true
    rw [hbitslen] at wlon wlat
    rw [(lon_steps_val (5 * n)).1] at wlon
    rw [(lat_steps_val (5 * n)).1] at wlat
    have hGlon : GEO_INIT.max_longitude - GEO_INIT.min_longitude = 360 := by
      norm_num [GEO_INIT]
    have hGlat : GEO_INIT.max_latitude - GEO_INIT.min_latitude = 180 := by
      norm_num [GEO_INIT]
    rw [hGlon] at wlon
    rw [hGlat] at wlat
    have hwffin := fold_bits_wf
      (enc_bits p.latitude p.longitude (5 * n) (GEO_INIT, true))
      (GEO_INIT, true) hwfinit
    obtain ⟨f1, f2, f3, f4, f5, f6⟩ := hwffin
    obtain ⟨⟨c1, c2⟩, ⟨c3, c4⟩⟩ := hcontf
    have hlatle : p.latitude ≤ (fold_bits
        (enc_bits p.latitude p.longitude (5 * n) (GEO_INIT, true))
        (GEO_INIT, true)).1.max_latitude := by
      rcases c2 with hlt | heq
      · exact le_of_lt hlt
      · rw [heq]; exact hla2
    have hlonle : p.longitude ≤ (fold_bits
        (enc_bits p.latitude p.longitude (5 * n) (GEO_INIT, true))
        (GEO_INIT, true)).1.max_longitude := by
      rcases c4 with hlt | heq
      · exact le_of_lt hlt
      · rw [heq]; exact hlo2
    have herrlat : |((fold_bits
        (enc_bits p.latitude p.longitude (5 * n) (GEO_INIT, true))
        (GEO_INIT, true)).1.min_latitude + (fold_bits
        (enc_bits p.latitude p.longitude (5 * n) (GEO_INIT, true))
        (GEO_INIT, true)).1.max_latitude) / 2 - p.latitude| ≤
        lat_cell_size n := by
      rw [abs_le, lat_cell_size, ← wlat]
      constructor <;> linarith
    have herrlon : |((fold_bits
        (enc_bits p.latitude p.longitude (5 * n) (GEO_INIT, true))
        (GEO_INIT, true)).1.min_longitude + (fold_bits
        (enc_bits p.latitude p.longitude (5 * n) (GEO_INIT, true))
        (GEO_INIT, true)).1.max_longitude) / 2 - p.longitude| ≤
        lon_cell_size n := by
      rw [abs_le, lon_cell_size, ← wlon]
      constructor <;> linarith
    refine ⟨fun _ => ⟨herrlat, herrlon⟩, fun h9 => ⟨?_, ?_⟩⟩
    · refine le_trans herrlat ?_
      rw [h9]
      norm_num [lat_cell_size]
    · refine le_trans herrlon ?_
      rw [h9]
      norm_num [lon_cell_size]

/-- C3 witness: the point (45, -30) at precision 5. -/
theorem C3_witness :
    ∃ h, geohash_encode ⟨45, -30⟩ 5 = .ok h ∧ h.length = 5 ∧
      (∃ bd, geohash_get_bounds h = .ok bd ∧
        bounds_contain bd (45 : ℚ) (-30 : ℚ)) := by
  obtain ⟨h, h1, h2, h3, -⟩ := C3_roundtrip ⟨45, -30⟩ (by decide) (by decide)
    (by decide) (by decide) 5 (by decide) (by decide)
  exact ⟨h, h1, h2, h3⟩

/-! ## Skip list: src/src/data_structure/skip_list.c

The C skip list keeps heap nodes, each with a value pointer, a level, and
a flexible array of `level` forward pointers; the list object holds a
sentinel head node of MAX_LEVEL pointers and `current_max_level`.

The embedding uses an arena: `nodes` lists every value node ever
allocated, in allocation order, a freed slot becoming `none`; a pointer is
the arena index of its target, with `none` for NULL.  The head sentinel's
MAX_LEVEL pointers live in `headNext` (the head stores no value).  The
user comparator — the code only calls `compare` and branches on the sign
of its result — is abstracted by a `LinearOrder` on the value type;
`copy_value` is modeled as the identity (the node stores the given value).
The RNG is factored out: `fast_rand`/`random_level` are defined below
exactly as in the source and `skiplist_insert` takes the generated level
as an argument, so theorems quantify over it. -/

def MAX_LEVEL : Nat := 32

/-- `fast_rand`: one LCG step on the 32-bit rng state; returns the new
state (which the C code also stores back into the list). -/
def fast_rand (state : Nat) : Nat := (state * 1664525 + 1013904223) % 2 ^ 32

/-- The `random_level` loop: while the two low bits of `rnd` are zero and
`level < MAX_LEVEL`, increment `level` and shift `rnd` right by two. -/
def random_level_go (rnd level : Nat) : Nat :=
  if h : rnd % 4 = 0 ∧ level < MAX_LEVEL then
    random_level_go (rnd / 4) (level + 1)
  else level
termination_by MAX_LEVEL - level
decreasing_by omega

/-- `random_level`: draw one `fast_rand` value and run the loop from 1. -/
def random_level (state : Nat) : Nat := random_level_go (fast_rand state) 1

/-- A value node: `SkipListNode` of the source, with `next` of length
`level` (flexible array member). -/
structure SkipListNode (α : Type) where
  value : α
  level : Nat
  next : List (Option Nat)
deriving DecidableEq

/-- The skip list state (`SkipList` of the source): the node arena, the
head sentinel's forward pointers, and `current_max_level`.  The reusable
`update_cache` scratch array is not part of the state: it is written
before every read in `insert`/`erase`, so the walks below thread the
update list explicitly. -/
structure SkipList (α : Type) where
  nodes : List (Option (SkipListNode α))
  headNext : List (Option Nat)
  current_max_level : Nat
deriving DecidableEq

/-- A node pointer during traversal: `none` is the head sentinel. -/
abbrev SLRef := Option Nat

variable {α : Type}

/-- Read pointer `r`'s level-`l` forward pointer. -/
def getNext (s : SkipList α) (r : SLRef) (l : Nat) : Option Nat :=
  match r with
  | none => s.headNext.getD l none
  | some i =>
    match s.nodes.getD i none with
    | some nd => nd.next.getD l none
    | none => none

/-- The value stored at arena slot `j` (none if freed / out of range). -/
def valueAt (s : SkipList α) (j : Nat) : Option α :=
  match s.nodes.getD j none with
  | some nd => some nd.value
  | none => none

/-- The level of the node at arena slot `j` (`node->level`). -/
def levelAt (s : SkipList α) (j : Nat) : Nat :=
  match s.nodes.getD j none with
  | some nd => nd.level
  | none => 0

/-- Write pointer `r`'s level-`l` forward pointer. -/
def setNext (s : SkipList α) (r : SLRef) (l : Nat) (t : Option Nat) :
    SkipList α :=
  match r with
  | none => { s with headNext := s.headNext.set l t }
  | some i =>
    match s.nodes.getD i none with
    | some nd =>
        { s with nodes := s.nodes.set i (some { nd with next := nd.next.set l t }) }
    | none => s

/-- Fuel that dominates the length of any cycle-free pointer chain. -/
def slFuel (s : SkipList α) : Nat := s.nodes.length + 1

/-- The inner `while (current->next[level])` loop shared by contain,
insert and erase: follow level-`level` links from `current` while the
next value compares below `value`; stop with `true` on an equal value,
with `false` on NULL or a greater value.  (The C code dereferences
`next->value` unconditionally; a dangling index — impossible in any
represented state — stops the walk.) -/
def advance [LinearOrder α] (s : SkipList α) (value : α) (level : Nat) :
    SLRef → Nat → SLRef × Bool
  | current, 0 => (current, false)
  | current, fuel + 1 =>
    match getNext s current level with
    | none => (current, false)
    | some j =>
      match valueAt s j with
      | none => (current, false)
      | some w =>
        if w < value then advance s value level (some j) fuel
        else if w = value then (current, true)
        else (current, false)

/-- `skiplist_create`: empty arena, MAX_LEVEL NULL head pointers,
`current_max_level = 1`.  (The comparator argument is the `LinearOrder`
instance; the NULL-comparator guard returning NULL is not modeled.) -/
def skiplist_create (α : Type) : SkipList α :=
  { nodes := []
    headNext := List.replicate MAX_LEVEL none
    current_max_level := 1 }

/-- The level-descent loop of `skiplist_contain`, from `level - 1` down
to 0; returns true as soon as one level's walk hits an equal value. -/
def containGo [LinearOrder α] (s : SkipList α) (value : α) :
    Nat → SLRef → Bool
  | 0, _ => false
  | level + 1, current =>
    let res := advance s value level current (slFuel s)
    if res.2 then true else containGo s value level res.1

/-- `skiplist_contain` (the NULL-argument guard is not modeled). -/
def skiplist_contain [LinearOrder α] (s : SkipList α) (value : α) : Bool :=
  containGo s value s.current_max_level none

/-- The search-and-record descent of `skiplist_insert`: none on a
duplicate (the C code returns false from inside the loop, before
recording that level); otherwise the recorded predecessors, position `l`
of the list holding `update_cache[l]`. -/
def insertWalk [LinearOrder α] (s : SkipList α) (value : α) :
    Nat → SLRef → Option (List SLRef)
  | 0, _ => some []
  | level + 1, current =>
    let res := advance s value level current (slFuel s)
    if res.2 then none
    else
      match insertWalk s value level res.1 with
      | none => none
      | some u => some (u ++ [res.1])

/-- The linking loop of `skiplist_insert`, levels `level` up to
`level + count - 1`: read `t = update_cache[l]->next[l]`, set the new
node's `next[l]` to `t`, then point `update_cache[l]->next[l]` at the
new node.  (The source unrolls levels 0 and 1 by hand; the iterations
are identical to the loop body.) -/
def spliceLevels (update : List SLRef) (newId : Nat) :
    SkipList α → Nat → Nat → SkipList α
  | s, _, 0 => s
  | s, level, count + 1 =>
    let t := getNext s (update.getD level none) level
    let s1 := setNext s (some newId) level t
    let s2 := setNext s1 (update.getD level none) level (some newId)
    spliceLevels update newId s2 (level + 1) count

/-- `skiplist_insert` with the freshly drawn `random_level` result passed
in as `new_level`: walk (false on duplicate), extend the update cache
with head entries and raise `current_max_level` if `new_level` exceeds
it, allocate the node (next pointers memset to NULL), splice at levels
`0 .. new_level - 1`. -/
def skiplist_insert [LinearOrder α] (s : SkipList α) (value : α)
    (new_level : Nat) : Bool × SkipList α :=
  match insertWalk s value s.current_max_level none with
  | none => (false, s)
  | some update =>
    let update1 := if s.current_max_level < new_level then
        update ++ List.replicate (new_level - s.current_max_level) none
      else update
    let s1 := if s.current_max_level < new_level then
        { s with current_max_level := new_level }
      else s
    let newId := s1.nodes.length
    let s2 := { s1 with nodes := s1.nodes ++
        [some { value := value, level := new_level,
                next := List.replicate new_level none }] }
    (true, spliceLevels update1 newId s2 0 new_level)

/-- The search-and-record descent of `skiplist_erase`: like the insert
walk, but an equal value sets `found` and the walk still records every
level's predecessor and continues descending. -/
def eraseWalk [LinearOrder α] (s : SkipList α) (value : α) :
    Nat → SLRef → List SLRef × Bool
  | 0, _ => ([], false)
  | level + 1, current =>
    let res := advance s value level current (slFuel s)
    let ew := eraseWalk s value level res.1
    (ew.1 ++ [res.1], res.2 || ew.2)

/-- The unlink loop of `skiplist_erase`, levels `level` up to
`level + count - 1`: `update_cache[l]->next[l] = node_to_delete->next[l]`,
the right-hand side read from the current state. -/
def unlinkLevels (update : List SLRef) (j : Nat) :
    SkipList α → Nat → Nat → SkipList α
  | s, _, 0 => s
  | s, level, count + 1 =>
    let t := getNext s (some j) level
    unlinkLevels update j (setNext s (update.getD level none) level t)
      (level + 1) count

/-- The `current_max_level` shrink loop of `skiplist_erase`:
`while (cur > 1 && head->next[cur - 1] == NULL) cur--`. -/
def shrinkLoop (hn : List (Option Nat)) : Nat → Nat
  | 0 => 0
  | m + 1 => if 1 ≤ m ∧ hn.getD m none = none then shrinkLoop hn m else m + 1

/-- `skiplist_erase`: walk recording predecessors and the found flag; if
not found return false unchanged; otherwise `node_to_delete` is
`update_cache[0]->next[0]` (non-NULL in every represented state where
found holds; the impossible NULL returns unchanged for totality), unlink
it from levels `0 .. node_to_delete->level - 1`, free its slot, shrink
`current_max_level`. -/
def skiplist_erase [LinearOrder α] (s : SkipList α) (value : α) :
    Bool × SkipList α :=
  let uw := eraseWalk s value s.current_max_level none
  if uw.2 then
    match getNext s (uw.1.getD 0 none) 0 with
    | none => (false, s)
    | some j =>
      let s1 := unlinkLevels uw.1 j s 0 (levelAt s j)
      let s2 := { s1 with nodes := s1.nodes.set j none }
      (true, { s2 with
        current_max_level := shrinkLoop s2.headNext s2.current_max_level })
  else (false, s)

/-! ### Basic state lemmas -/

theorem getD_set_general {β : Type} (l : List β) (i j : Nat) (a d : β) :
    (l.set i a).getD j d = if i = j ∧ i < l.length then a else l.getD j d := by
  simp only [List.getD_eq_getElem?_getD, List.getElem?_set]
  by_cases hij : i = j
  · subst hij
    by_cases hi : i < l.length <;> simp [hi, List.getElem?_eq_none, Nat.le_of_not_lt]
  · simp [hij]

theorem random_level_go_range :
    ∀ fuel rnd level, MAX_LEVEL ≤ level + fuel → 1 ≤ level →
      level ≤ MAX_LEVEL →
      1 ≤ random_level_go rnd level ∧ random_level_go rnd level ≤ MAX_LEVEL := by
  intro fuel
  induction fuel with
  | zero =>
    intro rnd level hf h1 h2
    rw [random_level_go]
    rw [dif_neg (by omega)]
    exact ⟨h1, h2⟩
  | succ n ih =>
    intro rnd level hf h1 h2
    rw [random_level_go]
    split
    · next h => exact ih _ _ (by omega) (by omega) (by omega)
    · exact ⟨h1, h2⟩

/-- The level drawn by `random_level` always lies in `[1, MAX_LEVEL]`. -/
theorem random_level_range (st : Nat) :
    1 ≤ random_level st ∧ random_level st ≤ MAX_LEVEL :=
  random_level_go_range MAX_LEVEL _ 1 (by omega) (by omega)
    (by unfold MAX_LEVEL; omega)

/-- The observable signature of an arena slot: value, level, and length
of the next-pointer array (none for a freed or out-of-range slot). -/
def slotSig (s : SkipList α) (j : Nat) : Option (α × Nat × Nat) :=
  (s.nodes.getD j none).map (fun nd => (nd.value, nd.level, nd.next.length))

/-- `r`'s level-`l` pointer slot physically exists (so a write sticks). -/
def okRef (s : SkipList α) (r : SLRef) (l : Nat) : Prop :=
  match r with
  | none => l < s.headNext.length
  | some i => ∃ p, slotSig s i = some p ∧ l < p.2.2

theorem valueAt_eq_slotSig (s : SkipList α) (j : Nat) :
    valueAt s j = (slotSig s j).map (fun x => x.1) := by
  unfold valueAt slotSig
  cases s.nodes.getD j none <;> rfl

theorem levelAt_eq_slotSig (s : SkipList α) (j : Nat) :
    levelAt s j = ((slotSig s j).map (fun x => x.2.1)).getD 0 := by
  unfold levelAt slotSig
  cases s.nodes.getD j none <;> rfl

theorem getD_some_lt_length {β : Type} {l : List (Option β)} {i : Nat}
    {x : β} (h : l.getD i none = some x) : i < l.length := by
  by_contra hc
  rw [List.getD_eq_default _ _ (Nat.le_of_not_lt hc)] at h
  exact Option.noConfusion h

theorem setNext_none_eq (s : SkipList α) (l : Nat) (t : Option Nat) :
    setNext s none l t = { s with headNext := s.headNext.set l t } := rfl

theorem setNext_some_none (s : SkipList α) (i l : Nat) (t : Option Nat)
    (h : s.nodes.getD i none = none) : setNext s (some i) l t = s := by
  unfold setNext
  simp only [h]

theorem setNext_some_some (s : SkipList α) (i l : Nat) (t : Option Nat)
    (nd : SkipListNode α) (h : s.nodes.getD i none = some nd) :
    setNext s (some i) l t =
      { s with nodes := s.nodes.set i (some { nd with next := nd.next.set l t }) } := by
  unfold setNext
  simp only [h]

theorem getNext_none_eq (s : SkipList α) (l : Nat) :
    getNext s none l = s.headNext.getD l none := rfl

theorem getNext_some_none {s : SkipList α} {i : Nat} (l : Nat)
    (h : s.nodes.getD i none = none) : getNext s (some i) l = none := by
  unfold getNext
  simp only [h]

theorem getNext_some_some {s : SkipList α} {i : Nat} (l : Nat)
    {nd : SkipListNode α} (h : s.nodes.getD i none = some nd) :
    getNext s (some i) l = nd.next.getD l none := by
  unfold getNext
  simp only [h]

theorem setNext_curMax (s : SkipList α) (r : SLRef) (l : Nat) (t : Option Nat) :
    (setNext s r l t).current_max_level = s.current_max_level := by
  cases r with
  | none => rfl
  | some i =>
    cases h : s.nodes.getD i none with
    | none => rw [setNext_some_none _ _ _ _ h]
    | some nd => rw [setNext_some_some _ _ _ _ _ h]

theorem setNext_headNext_length (s : SkipList α) (r : SLRef) (l : Nat)
    (t : Option Nat) :
    (setNext s r l t).headNext.length = s.headNext.length := by
  cases r with
  | none =>
    rw [setNext_none_eq]
    exact List.length_set s.headNext l t
  | some i =>
    cases h : s.nodes.getD i none with
    | none => rw [setNext_some_none _ _ _ _ h]
    | some nd => rw [setNext_some_some _ _ _ _ _ h]

theorem setNext_nodes_length (s : SkipList α) (r : SLRef) (l : Nat)
    (t : Option Nat) :
    (setNext s r l t).nodes.length = s.nodes.length := by
  cases r with
  | none => rfl
  | some i =>
    cases h : s.nodes.getD i none with
    | none => rw [setNext_some_none _ _ _ _ h]
    | some nd =>
      rw [setNext_some_some _ _ _ _ _ h]
      exact List.length_set s.nodes i _

theorem slotSig_setNext (s : SkipList α) (r : SLRef) (l : Nat)
    (t : Option Nat) (j : Nat) :
    slotSig (setNext s r l t) j = slotSig s j := by
  cases r with
  | none => rfl
  | some i =>
    cases h : s.nodes.getD i none with
    | none => rw [setNext_some_none _ _ _ _ h]
    | some nd =>
      rw [setNext_some_some _ _ _ _ _ h]
      unfold slotSig
      rw [show ({ s with nodes := s.nodes.set i (some { nd with next := nd.next.set l t }) } : SkipList α).nodes = s.nodes.set i (some { nd with next := nd.next.set l t }) from rfl]
      rw [getD_set_general]
      split
      · next hc =>
        obtain ⟨rfl, -⟩ := hc
        rw [h]
        simp
      · rfl

theorem valueAt_setNext (s : SkipList α) (r : SLRef) (l : Nat)
    (t : Option Nat) (j : Nat) :
    valueAt (setNext s r l t) j = valueAt s j := by
  rw [valueAt_eq_slotSig, valueAt_eq_slotSig, slotSig_setNext]

theorem okRef_setNext (s : SkipList α) (r0 : SLRef) (l0 : Nat)
    (t : Option Nat) (r : SLRef) (l : Nat) :
    okRef (setNext s r0 l0 t) r l ↔ okRef s r l := by
  cases r with
  | none =>
    simp only [okRef]
    rw [setNext_headNext_length]
  | some i =>
    simp only [okRef]
    rw [slotSig_setNext]

theorem getNext_nodes_congr {s2 s : SkipList α} (h : s2.nodes = s.nodes)
    (i l : Nat) : getNext s2 (some i) l = getNext s (some i) l := by
  simp only [getNext, h]

theorem getNext_setNext_ne (s : SkipList α) {r : SLRef} {l : Nat}
    (t : Option Nat) {r2 : SLRef} {l2 : Nat} (h : r2 ≠ r ∨ l2 ≠ l) :
    getNext (setNext s r l t) r2 l2 = getNext s r2 l2 := by
  cases r with
  | none =>
    cases r2 with
    | none =>
      have hl : l2 ≠ l := by
        rcases h with h | h
        · exact absurd rfl h
        · exact h
      rw [setNext_none_eq, getNext_none_eq, getNext_none_eq]
      rw [show ({ s with headNext := s.headNext.set l t } : SkipList α).headNext =
          s.headNext.set l t from rfl]
      rw [getD_set_general, if_neg]
      rintro ⟨h1, -⟩
      exact hl h1.symm
    | some i =>
      rw [setNext_none_eq]
      exact getNext_nodes_congr rfl i l2
  | some i =>
    cases hnd : s.nodes.getD i none with
    | none => rw [setNext_some_none _ _ _ _ hnd]
    | some nd =>
      rw [setNext_some_some _ _ _ _ _ hnd]
      set s2 : SkipList α :=
        { s with nodes := s.nodes.set i (some { nd with next := nd.next.set l t }) }
        with hs2
      cases r2 with
      | none => rfl
      | some i2 =>
        have hnodes : s2.nodes.getD i2 none =
            if i = i2 ∧ i < s.nodes.length then
              some { nd with next := nd.next.set l t }
            else s.nodes.getD i2 none := by
          rw [hs2]
          exact getD_set_general s.nodes i i2 _ none
        by_cases hii : i = i2 ∧ i < s.nodes.length
        · rw [if_pos hii] at hnodes
          obtain ⟨rfl, -⟩ := hii
          have hl : l2 ≠ l := by
            rcases h with h | h
            · exact absurd rfl h
            · exact h
          rw [getNext_some_some _ hnodes, getNext_some_some _ hnd]
          show (nd.next.set l t).getD l2 none = nd.next.getD l2 none
          rw [getD_set_general, if_neg]
          rintro ⟨h1, -⟩
          exact hl h1.symm
        · rw [if_neg hii] at hnodes
          cases hnd2 : s.nodes.getD i2 none with
          | none =>
            rw [hnd2] at hnodes
            rw [getNext_some_none _ hnodes, getNext_some_none _ hnd2]
          | some nd2 =>
            rw [hnd2] at hnodes
            rw [getNext_some_some _ hnodes, getNext_some_some _ hnd2]

theorem getNext_setNext_eq (s : SkipList α) {r : SLRef} {l : Nat}
    (t : Option Nat) (hok : okRef s r l) :
    getNext (setNext s r l t) r l = t := by
  cases r with
  | none =>
    rw [setNext_none_eq, getNext_none_eq]
    rw [show ({ s with headNext := s.headNext.set l t } : SkipList α).headNext =
        s.headNext.set l t from rfl]
    rw [getD_set_general, if_pos ⟨rfl, hok⟩]
  | some i =>
    obtain ⟨p, hp, hl⟩ := hok
    unfold slotSig at hp
    cases hnd : s.nodes.getD i none with
    | none => rw [hnd] at hp; exact absurd hp (by simp)
    | some nd =>
      rw [hnd] at hp
      have hp2 : p = (nd.value, nd.level, nd.next.length) := by
        simpa using hp.symm
      have hlen : l < nd.next.length := by
        rw [hp2] at hl
        exact hl
      have hi : i < s.nodes.length := getD_some_lt_length hnd
      rw [setNext_some_some _ _ _ _ _ hnd]
      have hnodes : (s.nodes.set i
          (some { nd with next := nd.next.set l t })).getD i none =
          some { nd with next := nd.next.set l t } := by
        rw [getD_set_general, if_pos ⟨rfl, hi⟩]
      rw [getNext_some_some _ hnodes]
      show (nd.next.set l t).getD l none = t
      rw [getD_set_general, if_pos ⟨rfl, hlen⟩]

theorem getNext_setNext (s : SkipList α) {r : SLRef} {l : Nat}
    (t : Option Nat) (hok : okRef s r l) (r2 : SLRef) (l2 : Nat) :
    getNext (setNext s r l t) r2 l2 =
      if r2 = r ∧ l2 = l then t else getNext s r2 l2 := by
  split
  · next hc =>
    obtain ⟨rfl, rfl⟩ := hc
    exact getNext_setNext_eq s t hok
  · next hc => exact getNext_setNext_ne s t (by tauto)

theorem getNext_append_old {s : SkipList α} {nd : Option (SkipListNode α)}
    {r : SLRef} (l : Nat) (hr : ∀ i, r = some i → i < s.nodes.length) :
    getNext { s with nodes := s.nodes ++ [nd] } r l = getNext s r l := by
  cases r with
  | none => rfl
  | some i =>
    have hi := hr i rfl
    have hD : ({ s with nodes := s.nodes ++ [nd] } : SkipList α).nodes.getD i none =
        s.nodes.getD i none := List.getD_append _ _ _ _ hi
    cases hx : s.nodes.getD i none with
    | none =>
      rw [hx] at hD
      rw [getNext_some_none _ hD, getNext_some_none _ hx]
    | some nd2 =>
      rw [hx] at hD
      rw [getNext_some_some _ hD, getNext_some_some _ hx]

theorem slotSig_append_old {s : SkipList α} {nd : Option (SkipListNode α)}
    {j : Nat} (hj : j ≠ s.nodes.length) :
    slotSig { s with nodes := s.nodes ++ [nd] } j = slotSig s j := by
  unfold slotSig
  rcases Nat.lt_or_ge j s.nodes.length with h | h
  · rw [List.getD_append _ _ _ _ h]
  · have h1 : s.nodes.length ≤ j := h
    have h2 : (s.nodes ++ [nd]).length ≤ j := by
      simp only [List.length_append, List.length_singleton]
      omega
    rw [List.getD_eq_default _ _ h2, List.getD_eq_default _ _ h1]

theorem slotSig_append_new {s : SkipList α} (nd : SkipListNode α) :
    slotSig { s with nodes := s.nodes ++ [some nd] } s.nodes.length =
      some (nd.value, nd.level, nd.next.length) := by
  unfold slotSig
  rw [List.getD_append_right _ _ _ _ (le_refl _)]
  simp

theorem getNext_append_new {s : SkipList α} (nd : SkipListNode α) (l : Nat) :
    getNext { s with nodes := s.nodes ++ [some nd] }
      (some s.nodes.length) l = nd.next.getD l none := by
  have hD : ({ s with nodes := s.nodes ++ [some nd] } : SkipList α).nodes.getD
      s.nodes.length none = some nd := by
    rw [show ({ s with nodes := s.nodes ++ [some nd] } : SkipList α).nodes =
        s.nodes ++ [some nd] from rfl]
    rw [List.getD_append_right _ _ _ _ (le_refl _)]
    simp
  rw [getNext_some_some _ hD]

/-! ### Pointer chains -/

/-- `ChainVals s l r xs`: starting at `r`, the level-`l` links visit
exactly the (arena id, value) pairs of `xs` and then NULL. -/
inductive ChainVals (s : SkipList α) (l : Nat) : SLRef → List (Nat × α) → Prop where
  | nil {r : SLRef} : getNext s r l = none → ChainVals s l r []
  | cons {r : SLRef} {j : Nat} {w : α} {rest : List (Nat × α)} :
      getNext s r l = some j → valueAt s j = some w →
      ChainVals s l (some j) rest → ChainVals s l r ((j, w) :: rest)

/-- A not necessarily maximal link path from `r` through the pairs of
`xs` (no condition on where the last node points). -/
inductive ChainPath (s : SkipList α) (l : Nat) : SLRef → List (Nat × α) → Prop where
  | nil (r : SLRef) : ChainPath s l r []
  | cons {r : SLRef} {j : Nat} {w : α} {rest : List (Nat × α)} :
      getNext s r l = some j → valueAt s j = some w →
      ChainPath s l (some j) rest → ChainPath s l r ((j, w) :: rest)

/-- The last node of a path `xs` that starts at `r`. -/
def lastRef (r : SLRef) (xs : List (Nat × α)) : SLRef :=
  match xs.getLast? with
  | none => r
  | some e => some e.1

theorem lastRef_nil (r : SLRef) : lastRef r ([] : List (Nat × α)) = r := rfl

theorem lastRef_cons (r : SLRef) (e : Nat × α) (xs : List (Nat × α)) :
    lastRef r (e :: xs) = lastRef (some e.1) xs := by
  cases xs with
  | nil => simp [lastRef]
  | cons f t =>
    unfold lastRef
    rw [List.getLast?_cons_cons]
    cases hx : (f :: t).getLast? with
    | none => simp at hx
    | some y => rfl

theorem lastRef_append (r : SLRef) (xs ys : List (Nat × α)) :
    lastRef r (xs ++ ys) = lastRef (lastRef r xs) ys := by
  unfold lastRef
  rw [List.getLast?_append]
  cases hy : ys.getLast? with
  | none => simp
  | some y => simp

theorem chainVals_path {s : SkipList α} {l : Nat} {r : SLRef}
    {xs : List (Nat × α)} (h : ChainVals s l r xs) : ChainPath s l r xs := by
  induction h with
  | nil _ => exact ChainPath.nil _
  | cons hg hv _ ih => exact ChainPath.cons hg hv ih

theorem chainPath_append {s : SkipList α} {l : Nat} {ys : List (Nat × α)} :
    ∀ {r : SLRef} {xs : List (Nat × α)}, ChainPath s l r xs →
      ChainVals s l (lastRef r xs) ys → ChainVals s l r (xs ++ ys) := by
  intro r xs h1
  induction h1 with
  | nil r => intro h2; exact h2
  | cons hg hv hp ih =>
    intro h2
    rw [lastRef_cons] at h2
    exact ChainVals.cons hg hv (ih h2)

theorem chainVals_append_inv {s : SkipList α} {l : Nat} :
    ∀ {xs : List (Nat × α)} {r : SLRef} {ys : List (Nat × α)},
      ChainVals s l r (xs ++ ys) →
      ChainPath s l r xs ∧ ChainVals s l (lastRef r xs) ys := by
  intro xs
  induction xs with
  | nil =>
    intro r ys h
    exact ⟨ChainPath.nil r, h⟩
  | cons e t ih =>
    intro r ys h
    rw [List.cons_append] at h
    cases h with
    | cons hg hv hrest =>
      obtain ⟨hp, hv2⟩ := ih hrest
      refine ⟨ChainPath.cons hg hv hp, ?_⟩
      rwa [lastRef_cons]

theorem chainVals_congr {s s2 : SkipList α} {l : Nat} :
    ∀ {r : SLRef} {xs : List (Nat × α)}, ChainVals s l r xs →
      (∀ r2, r2 = r ∨ (∃ e ∈ xs, r2 = some e.1) →
        getNext s2 r2 l = getNext s r2 l) →
      (∀ j, (∃ e ∈ xs, e.1 = j) → valueAt s2 j = valueAt s j) →
      ChainVals s2 l r xs := by
  intro r xs h
  induction h with
  | nil hg =>
    intro hgs hvs
    refine ChainVals.nil ?_
    rw [hgs _ (Or.inl rfl)]
    exact hg
  | @cons r j w rest hg hv hrest ih =>
    intro hgs hvs
    refine ChainVals.cons ?_ ?_ (ih ?_ ?_)
    · rw [hgs _ (Or.inl rfl)]
      exact hg
    · rw [hvs j ⟨(j, w), List.mem_cons_self _ _, rfl⟩]
      exact hv
    · intro r2 hr2
      refine hgs r2 ?_
      rcases hr2 with h1 | ⟨e, he, h2⟩
      · exact Or.inr ⟨(j, w), List.mem_cons_self _ _, by rw [h1]⟩
      · exact Or.inr ⟨e, List.mem_cons_of_mem _ he, h2⟩
    · intro j2 hj2
      refine hvs j2 ?_
      obtain ⟨e, he, h2⟩ := hj2
      exact ⟨e, List.mem_cons_of_mem _ he, h2⟩

theorem chainPath_congr {s s2 : SkipList α} {l : Nat} :
    ∀ {xs : List (Nat × α)} {r : SLRef}, ChainPath s l r xs →
      (∀ r2, r2 = r ∨ (∃ e ∈ xs.dropLast, r2 = some e.1) →
        getNext s2 r2 l = getNext s r2 l) →
      (∀ j, (∃ e ∈ xs, e.1 = j) → valueAt s2 j = valueAt s j) →
      ChainPath s2 l r xs := by
  intro xs
  induction xs with
  | nil =>
    intro r h hgs hvs
    exact ChainPath.nil r
  | cons e t ih =>
    intro r h hgs hvs
    cases h with
    | @cons _ j w _ hg hv hrest =>
      cases t with
      | nil =>
        refine ChainPath.cons ?_ ?_ (ChainPath.nil _)
        · rw [hgs _ (Or.inl rfl)]
          exact hg
        · rw [hvs _ ⟨(j, w), List.mem_cons_self _ _, rfl⟩]
          exact hv
      | cons f t2 =>
        refine ChainPath.cons ?_ ?_ (ih hrest ?_ ?_)
        · rw [hgs _ (Or.inl rfl)]
          exact hg
        · rw [hvs _ ⟨(j, w), List.mem_cons_self _ _, rfl⟩]
          exact hv
        · intro r2 hr2
          refine hgs r2 (Or.inr ?_)
          rcases hr2 with h1 | ⟨e2, he2, h2⟩
          · exact ⟨(j, w), by rw [List.dropLast_cons_of_ne_nil (by simp)]; exact List.mem_cons_self _ _, by rw [h1]⟩
          · refine ⟨e2, ?_, h2⟩
            rw [List.dropLast_cons_of_ne_nil (by simp)]
            exact List.mem_cons_of_mem _ he2
        · intro j2 hj2
          refine hvs j2 ?_
          obtain ⟨e2, he2, h2⟩ := hj2
          exact ⟨e2, List.mem_cons_of_mem _ he2, h2⟩

theorem advance_spec [LinearOrder α] (s : SkipList α) (v : α) (l : Nat) :
    ∀ {xs : List (Nat × α)} {r : SLRef} {fuel : Nat}, ChainVals s l r xs →
      xs.length < fuel →
      advance s v l r fuel =
        (lastRef r (xs.takeWhile (fun e => decide (e.2 < v))),
         match xs.dropWhile (fun e => decide (e.2 < v)) with
         | [] => false
         | e :: _ => decide (e.2 = v)) := by
  intro xs
  induction xs with
  | nil =>
    intro r fuel h hf
    cases h with
    | nil hg =>
      cases fuel with
      | zero => exact absurd hf (by omega)
      | succ f => simp only [advance, hg, List.takeWhile_nil, List.dropWhile_nil, lastRef_nil]
  | cons e t ih =>
    intro r fuel h hf
    cases h with
    | @cons _ j w _ hg hv hrest =>
      cases fuel with
      | zero => exact absurd hf (by omega)
      | succ f =>
        have hf2 : t.length < f := by
          simp only [List.length_cons] at hf
          omega
        simp only [advance, hg, hv, List.takeWhile_cons, List.dropWhile_cons]
        by_cases hlt : w < v
        · rw [if_pos hlt, ih hrest hf2]
          have hd : decide (((j, w) : Nat × α).2 < v) = true := by
            simp [hlt]
          rw [hd]
          simp only [if_true, lastRef_cons]
        · rw [if_neg hlt]
          have hd : decide (((j, w) : Nat × α).2 < v) = false := by
            simp [hlt]
          rw [hd]
          by_cases heq : w = v
          · rw [if_pos heq]
            simp [heq, lastRef_nil]
          · rw [if_neg heq]
            simp [heq, lastRef_nil]

/-! ### The abstract node table

A represented skip list is described by `L : List (Nat × α × Nat)`, its
resident nodes in value order: entry `(id, value, level)` is the node at
arena slot `id`.  `SLRepr` ties the state to its table. -/

/-- The (id, value) pairs of the table entries visible on level `l`,
i.e. the nodes whose level exceeds `l`, in value order. -/
def chainEnts (L : List (Nat × α × Nat)) (l : Nat) : List (Nat × α) :=
  (L.filter (fun e => decide (l < e.2.2))).map (fun e => (e.1, e.2.1))

/-- The largest node level in the table (0 when empty). -/
def maxLvl (L : List (Nat × α × Nat)) : Nat :=
  L.foldr (fun e m => max e.2.2 m) 0

/-- State `s` is the skip list holding exactly the nodes of table `L`. -/
structure SLRepr [LinearOrder α] (s : SkipList α) (L : List (Nat × α × Nat)) : Prop where
  headLen : s.headNext.length = MAX_LEVEL
  curMax : s.current_max_level = max 1 (maxLvl L)
  lvl_pos : ∀ e ∈ L, 1 ≤ e.2.2
  lvl_le : ∀ e ∈ L, e.2.2 ≤ MAX_LEVEL
  slots : ∀ e ∈ L, slotSig s e.1 = some (e.2.1, e.2.2, e.2.2)
  live : ∀ i, s.nodes.getD i none ≠ none → ∃ e ∈ L, e.1 = i
  sorted : List.Pairwise (fun a b => a.2.1 < b.2.1) L
  chains : ∀ l, ChainVals s l none (chainEnts L l)

theorem maxLvl_nil : maxLvl ([] : List (Nat × α × Nat)) = 0 := rfl

theorem maxLvl_cons (e : Nat × α × Nat) (t : List (Nat × α × Nat)) :
    maxLvl (e :: t) = max e.2.2 (maxLvl t) := rfl

theorem maxLvl_append (X Y : List (Nat × α × Nat)) :
    maxLvl (X ++ Y) = max (maxLvl X) (maxLvl Y) := by
  induction X with
  | nil => simp [maxLvl_nil, maxLvl]
  | cons e t ih =>
    rw [List.cons_append, maxLvl_cons, maxLvl_cons, ih]
    omega

theorem maxLvl_le_iff (L : List (Nat × α × Nat)) (k : Nat) :
    maxLvl L ≤ k ↔ ∀ e ∈ L, e.2.2 ≤ k := by
  induction L with
  | nil => simp [maxLvl_nil]
  | cons e t ih =>
    rw [maxLvl_cons]
    simp only [List.mem_cons]
    constructor
    · intro h e2 he2
      rcases he2 with rfl | he2
      · omega
      · exact ih.1 (by omega) e2 he2
    · intro h
      have h1 := h e (Or.inl rfl)
      have h2 := ih.2 (fun e2 he2 => h e2 (Or.inr he2))
      omega

theorem le_maxLvl {L : List (Nat × α × Nat)} {e : Nat × α × Nat}
    (he : e ∈ L) : e.2.2 ≤ maxLvl L :=
  (maxLvl_le_iff L _).1 le_rfl e he

theorem SLRepr.id_lt [LinearOrder α] {s : SkipList α} {L : List (Nat × α × Nat)}
    (h : SLRepr s L) {e : Nat × α × Nat} (he : e ∈ L) :
    e.1 < s.nodes.length := by
  have hs := h.slots e he
  unfold slotSig at hs
  cases hx : s.nodes.getD e.1 none with
  | none => rw [hx] at hs; exact absurd hs (by simp)
  | some nd => exact getD_some_lt_length hx

theorem SLRepr.sig_eq_of_id_eq [LinearOrder α] {s : SkipList α} {L : List (Nat × α × Nat)}
    (h : SLRepr s L) {e1 e2 : Nat × α × Nat} (h1 : e1 ∈ L) (h2 : e2 ∈ L)
    (heq : e1.1 = e2.1) : e1.2.1 = e2.2.1 ∧ e1.2.2 = e2.2.2 := by
  have s1 := h.slots e1 h1
  have s2 := h.slots e2 h2
  rw [heq, s2] at s1
  simp only [Option.some.injEq, Prod.mk.injEq] at s1
  exact ⟨s1.1.symm, s1.2.1.symm⟩

theorem SLRepr.nodup_ids [LinearOrder α] {s : SkipList α} {L : List (Nat × α × Nat)}
    (h : SLRepr s L) : (L.map (fun e => e.1)).Nodup := by
  rw [List.Nodup, List.pairwise_map]
  refine List.Pairwise.imp_of_mem ?_ h.sorted
  intro a b ha hb hlt hid
  exact absurd (h.sig_eq_of_id_eq ha hb hid).1 (ne_of_lt hlt)

theorem SLRepr.length_le [LinearOrder α] {s : SkipList α} {L : List (Nat × α × Nat)}
    (h : SLRepr s L) : L.length ≤ s.nodes.length := by
  classical
  have hnd := h.nodup_ids
  have hsub : (L.map (fun e => e.1)).toFinset ⊆ Finset.range s.nodes.length := by
    intro x hx
    rw [List.mem_toFinset] at hx
    obtain ⟨e, he, rfl⟩ := List.mem_map.1 hx
    exact Finset.mem_range.2 (h.id_lt he)
  have hc := Finset.card_le_card hsub
  rw [List.toFinset_card_of_nodup hnd, Finset.card_range, List.length_map] at hc
  exact hc

theorem chainEnts_nil (l : Nat) : chainEnts ([] : List (Nat × α × Nat)) l = [] := rfl

theorem chainEnts_append (X Y : List (Nat × α × Nat)) (l : Nat) :
    chainEnts (X ++ Y) l = chainEnts X l ++ chainEnts Y l := by
  unfold chainEnts
  rw [List.filter_append, List.map_append]

theorem chainEnts_cons (e : Nat × α × Nat) (t : List (Nat × α × Nat)) (l : Nat) :
    chainEnts (e :: t) l =
      if l < e.2.2 then (e.1, e.2.1) :: chainEnts t l else chainEnts t l := by
  unfold chainEnts
  rw [List.filter_cons]
  by_cases h : l < e.2.2 <;> simp [h]

theorem chainEnts_eq_nil {L : List (Nat × α × Nat)} {l : Nat}
    (h : ∀ e ∈ L, e.2.2 ≤ l) : chainEnts L l = [] := by
  unfold chainEnts
  have hf : L.filter (fun e => decide (l < e.2.2)) = [] := by
    rw [List.filter_eq_nil_iff]
    intro e he
    simpa using Nat.not_lt.2 (h e he)
  rw [hf, List.map_nil]

theorem chainEnts_length_le (L : List (Nat × α × Nat)) (l : Nat) :
    (chainEnts L l).length ≤ L.length := by
  unfold chainEnts
  rw [List.length_map]
  exact List.length_filter_le _ _

theorem mem_chainEnts {L : List (Nat × α × Nat)} {l : Nat} {x : Nat × α} :
    x ∈ chainEnts L l ↔ ∃ e ∈ L, l < e.2.2 ∧ (e.1, e.2.1) = x := by
  unfold chainEnts
  simp only [List.mem_map, List.mem_filter, decide_eq_true_eq]
  constructor
  · rintro ⟨e, ⟨he, hl⟩, hx⟩
    exact ⟨e, he, hl, hx⟩
  · rintro ⟨e, he, hl, hx⟩
    exact ⟨e, ⟨he, hl⟩, hx⟩

theorem filter_getLast?_of_pos {β : Type} (p : β → Bool) :
    ∀ (X : List β) (e : β), X.getLast? = some e → p e = true →
      (X.filter p).getLast? = some e := by
  intro X
  induction X with
  | nil =>
    intro e h hp
    exact absurd h (by simp)
  | cons x t ih =>
    intro e h hp
    cases t with
    | nil =>
      have hex : e = x := by simpa using h.symm
      subst hex
      simp [List.filter_cons, hp]
    | cons y t2 =>
      rw [List.getLast?_cons_cons] at h
      rw [List.filter_cons]
      by_cases hx : p x = true
      · rw [if_pos hx]
        have ih2 := ih e h hp
        rw [show x :: (y :: t2).filter p = [x] ++ (y :: t2).filter p from rfl]
        rw [List.getLast?_append, ih2]
        rfl
      · rw [if_neg hx]
        exact ih e h hp

theorem rdrop_rtake {β : Type} (p : β → Bool) (l : List β) :
    l.rdropWhile p ++ l.rtakeWhile p = l := by
  rw [List.rdropWhile, List.rtakeWhile, ← List.reverse_append,
    List.takeWhile_append_dropWhile, List.reverse_reverse]

theorem takeWhile_append_all {β : Type} (p : β → Bool) :
    ∀ (xs ys : List β), (∀ x ∈ xs, p x = true) →
      (xs ++ ys).takeWhile p = xs ++ ys.takeWhile p := by
  intro xs
  induction xs with
  | nil => intro ys _; rfl
  | cons x t ih =>
    intro ys h
    rw [List.cons_append, List.takeWhile_cons, h x (List.mem_cons_self _ _)]
    rw [ih ys (fun z hz => h z (List.mem_cons_of_mem _ hz))]
    rfl

theorem dropWhile_append_all {β : Type} (p : β → Bool) :
    ∀ (xs ys : List β), (∀ x ∈ xs, p x = true) →
      (xs ++ ys).dropWhile p = ys.dropWhile p := by
  intro xs
  induction xs with
  | nil => intro ys _; rfl
  | cons x t ih =>
    intro ys h
    rw [List.cons_append, List.dropWhile_cons, h x (List.mem_cons_self _ _)]
    rw [ih ys (fun z hz => h z (List.mem_cons_of_mem _ hz))]
    rfl

theorem takeWhile_eq_nil_of_all {β : Type} (p : β → Bool) (ys : List β)
    (h : ∀ x ∈ ys, p x = false) : ys.takeWhile p = [] := by
  cases ys with
  | nil => rfl
  | cons y t =>
    rw [List.takeWhile_cons, h y (List.mem_cons_self _ _)]
    simp

theorem dropWhile_eq_self_of_all {β : Type} (p : β → Bool) (ys : List β)
    (h : ∀ x ∈ ys, p x = false) : ys.dropWhile p = ys := by
  cases ys with
  | nil => rfl
  | cons y t =>
    rw [List.dropWhile_cons, h y (List.mem_cons_self _ _)]
    simp

theorem mem_of_mem_takeWhile {β : Type} (p : β → Bool) :
    ∀ (l : List β) {x : β}, x ∈ l.takeWhile p → x ∈ l := by
  intro l
  induction l with
  | nil => intro x h; exact absurd h (by simp)
  | cons a t ih =>
    intro x h
    rw [List.takeWhile_cons] at h
    by_cases ha : p a = true
    · rw [ha] at h
      simp only [if_true] at h
      rcases List.mem_cons.1 h with rfl | h2
      · exact List.mem_cons_self _ _
      · exact List.mem_cons_of_mem _ (ih h2)
    · rw [Bool.not_eq_true] at ha
      rw [ha] at h
      simp at h

theorem mem_of_mem_dropWhile {β : Type} (p : β → Bool) :
    ∀ (l : List β) {x : β}, x ∈ l.dropWhile p → x ∈ l := by
  intro l
  induction l with
  | nil => intro x h; exact absurd h (by simp)
  | cons a t ih =>
    intro x h
    rw [List.dropWhile_cons] at h
    by_cases ha : p a = true
    · rw [ha] at h
      simp only [if_true] at h
      exact List.mem_cons_of_mem _ (ih h)
    · rw [Bool.not_eq_true] at ha
      rw [ha] at h
      simpa using h

/-! ### The search frontier -/

/-- The table entries with value below `v` (an initial segment of the
value-sorted table). -/
def entsBelow [LinearOrder α] (L : List (Nat × α × Nat)) (v : α) :
    List (Nat × α × Nat) :=
  L.takeWhile (fun e => decide (e.2.1 < v))

/-- The table entries with value at least `v` (the matching terminal
segment). -/
def entsFrom [LinearOrder α] (L : List (Nat × α × Nat)) (v : α) :
    List (Nat × α × Nat) :=
  L.dropWhile (fun e => decide (e.2.1 < v))

/-- The last level-`l` node with value below `v`: the predecessor the
search walk rests on when it leaves level `l`. -/
def predAt [LinearOrder α] (L : List (Nat × α × Nat)) (v : α) (l : Nat) :
    SLRef :=
  lastRef none (chainEnts (entsBelow L v) l)

/-- The resident entry holding exactly value `v`, if any. -/
def vHead? [LinearOrder α] (L : List (Nat × α × Nat)) (v : α) :
    Option (Nat × α × Nat) :=
  match entsFrom L v with
  | [] => none
  | b :: _ => if b.2.1 = v then some b else none

/-- Whether the level-`l` walk stops on a value equal to `v`. -/
def foundFlag [LinearOrder α] (L : List (Nat × α × Nat)) (v : α) (l : Nat) :
    Bool :=
  match vHead? L v with
  | some b => decide (l < b.2.2)
  | none => false

theorem entsBelow_append_entsFrom [LinearOrder α] (L : List (Nat × α × Nat))
    (v : α) : entsBelow L v ++ entsFrom L v = L :=
  List.takeWhile_append_dropWhile _ L

theorem mem_entsBelow_lt [LinearOrder α] {L : List (Nat × α × Nat)} {v : α}
    {e : Nat × α × Nat} (he : e ∈ entsBelow L v) : e.2.1 < v := by
  have h := List.mem_takeWhile_imp he
  simpa using h

theorem mem_entsBelow [LinearOrder α] {L : List (Nat × α × Nat)} {v : α}
    {e : Nat × α × Nat} (he : e ∈ entsBelow L v) : e ∈ L :=
  mem_of_mem_takeWhile _ L he

theorem mem_entsFrom [LinearOrder α] {L : List (Nat × α × Nat)} {v : α}
    {e : Nat × α × Nat} (he : e ∈ entsFrom L v) : e ∈ L :=
  mem_of_mem_dropWhile _ L he

theorem entsFrom_pairwise [LinearOrder α] {L : List (Nat × α × Nat)}
    (hs : List.Pairwise (fun a b => a.2.1 < b.2.1) L) (v : α) :
    List.Pairwise (fun a b => a.2.1 < b.2.1) (entsFrom L v) :=
  List.Pairwise.sublist (List.dropWhile_sublist _) hs

theorem entsFrom_head_not_lt [LinearOrder α] (L : List (Nat × α × Nat))
    (v : α) {b : Nat × α × Nat} {B2 : List (Nat × α × Nat)}
    (hB : entsFrom L v = b :: B2) : ¬(b.2.1 < v) := by
  have h2 := List.head?_dropWhile_not (fun e => decide (e.2.1 < v)) L
  rw [show L.dropWhile (fun e => decide (e.2.1 < v)) = entsFrom L v from rfl,
    hB] at h2
  simpa using h2

theorem entsFrom_not_lt [LinearOrder α] {L : List (Nat × α × Nat)}
    (hs : List.Pairwise (fun a b => a.2.1 < b.2.1) L) (v : α) :
    ∀ e ∈ entsFrom L v, ¬(e.2.1 < v) := by
  intro e he
  cases hB : entsFrom L v with
  | nil => rw [hB] at he; exact absurd he (by simp)
  | cons b B2 =>
    rw [hB] at he
    have hhead := entsFrom_head_not_lt L v hB
    rcases List.mem_cons.1 he with rfl | he2
    · exact hhead
    · have hBp : List.Pairwise (fun a b => a.2.1 < b.2.1) (b :: B2) := by
        rw [← hB]
        exact entsFrom_pairwise hs v
      have hblt := (List.pairwise_cons.1 hBp).1 e he2
      intro hlt
      exact hhead (lt_trans hblt hlt)

theorem vHead?_spec [LinearOrder α] {L : List (Nat × α × Nat)} {v : α}
    {b : Nat × α × Nat} (h : vHead? L v = some b) :
    b ∈ L ∧ b.2.1 = v ∧ ∃ B2, entsFrom L v = b :: B2 := by
  unfold vHead? at h
  cases hB : entsFrom L v with
  | nil => rw [hB] at h; exact absurd h (by simp)
  | cons b2 B2 =>
    simp only [hB] at h
    by_cases hv : b2.2.1 = v
    · rw [if_pos hv] at h
      obtain rfl := Option.some.inj h
      refine ⟨?_, hv, B2, rfl⟩
      have hmem : b2 ∈ entsFrom L v := by
        rw [hB]
        exact List.mem_cons_self _ _
      exact mem_entsFrom hmem
    · rw [if_neg hv] at h
      exact absurd h (by simp)

theorem vHead?_none_iff [LinearOrder α] {L : List (Nat × α × Nat)}
    (hs : List.Pairwise (fun a b => a.2.1 < b.2.1) L) (v : α) :
    vHead? L v = none ↔ ∀ e ∈ L, e.2.1 ≠ v := by
  constructor
  · intro h e he hev
    rcases List.mem_append.1
        (by rw [entsBelow_append_entsFrom]; exact he :
          e ∈ entsBelow L v ++ entsFrom L v) with hb | hf
    · exact absurd hev (ne_of_lt (mem_entsBelow_lt hb))
    · cases hB : entsFrom L v with
      | nil => rw [hB] at hf; exact absurd hf (by simp)
      | cons b B2 =>
        unfold vHead? at h
        simp only [hB] at h
        rw [hB] at hf
        have hhead := entsFrom_head_not_lt L v hB
        rcases List.mem_cons.1 hf with rfl | h2
        · rw [if_pos hev] at h
          exact absurd h (by simp)
        · have hBp : List.Pairwise (fun a b => a.2.1 < b.2.1) (b :: B2) := by
            rw [← hB]
            exact entsFrom_pairwise hs v
          have hblt := (List.pairwise_cons.1 hBp).1 e h2
          rw [hev] at hblt
          exact hhead hblt
  · intro h
    cases hv : vHead? L v with
    | none => rfl
    | some b =>
      obtain ⟨hb, hbv, -⟩ := vHead?_spec hv
      exact absurd hbv (h b hb)

theorem predAt_high [LinearOrder α] {L : List (Nat × α × Nat)} (v : α)
    {l : Nat} (h : ∀ e ∈ L, e.2.2 ≤ l) : predAt L v l = none := by
  unfold predAt
  rw [chainEnts_eq_nil (fun e he => h e (mem_entsBelow he))]
  rfl

theorem predAt_okRef [LinearOrder α] {s : SkipList α}
    {L : List (Nat × α × Nat)} (hrep : SLRepr s L) (v : α) {l : Nat}
    (hl : l < MAX_LEVEL) : okRef s (predAt L v l) l := by
  unfold predAt
  cases hc : (chainEnts (entsBelow L v) l).getLast? with
  | none =>
    unfold lastRef
    rw [hc]
    simp only [okRef]
    rw [hrep.headLen]
    exact hl
  | some x =>
    unfold lastRef
    rw [hc]
    simp only [okRef]
    have hmem : x ∈ chainEnts (entsBelow L v) l :=
      List.mem_of_mem_getLast? (Option.mem_def.2 hc)
    obtain ⟨e, heL, hlt, hx⟩ := mem_chainEnts.1 hmem
    subst hx
    exact ⟨(e.2.1, e.2.2, e.2.2), hrep.slots e (mem_entsBelow heL), hlt⟩

/-- One level of the shared search descent: from the level-`l+1`
predecessor of `v`, the level-`l` walk stops exactly at the level-`l`
predecessor, reporting whether a node with value `v` is visible on
level `l`. -/
theorem descend_step [LinearOrder α] {s : SkipList α}
    {L : List (Nat × α × Nat)} (hrep : SLRepr s L) (v : α) (l : Nat) :
    advance s v l (predAt L v (l + 1)) (slFuel s) =
      (predAt L v l, foundFlag L v l) := by
  classical
  obtain ⟨A1, A2, hsplit, hA2le, hA1last⟩ :
      ∃ A1 A2, A1 ++ A2 = entsBelow L v ∧ (∀ e ∈ A2, e.2.2 ≤ l + 1) ∧
        (A1 = [] ∨ ∃ e, A1.getLast? = some e ∧ l + 1 < e.2.2) := by
    refine ⟨(entsBelow L v).rdropWhile (fun e => decide (e.2.2 ≤ l + 1)),
      (entsBelow L v).rtakeWhile (fun e => decide (e.2.2 ≤ l + 1)),
      rdrop_rtake _ _, ?_, ?_⟩
    · intro e he
      have h := List.mem_rtakeWhile_imp he
      simpa using h
    · by_cases hnil :
          (entsBelow L v).rdropWhile (fun e => decide (e.2.2 ≤ l + 1)) = []
      · exact Or.inl hnil
      · refine Or.inr ⟨_, List.getLast?_eq_getLast _ hnil, ?_⟩
        have hlast := List.rdropWhile_last_not
          (fun e => decide (e.2.2 ≤ l + 1)) (entsBelow L v) hnil
        simpa using hlast
  have hstep1 : predAt L v (l + 1) = lastRef none (chainEnts A1 l) := by
    unfold predAt
    rw [← hsplit, chainEnts_append, chainEnts_eq_nil hA2le, List.append_nil]
    rcases hA1last with rfl | ⟨e, hA1l, hel⟩
    · rfl
    · have h1 : (chainEnts A1 (l + 1)).getLast? = some (e.1, e.2.1) := by
        unfold chainEnts
        rw [List.getLast?_map,
          filter_getLast?_of_pos _ A1 e hA1l (by simpa using hel)]
        rfl
      have h2 : (chainEnts A1 l).getLast? = some (e.1, e.2.1) := by
        unfold chainEnts
        rw [List.getLast?_map,
          filter_getLast?_of_pos _ A1 e hA1l (by simp; omega)]
        rfl
      unfold lastRef
      rw [h1, h2]
  have hchain := hrep.chains l
  have hLdecomp : chainEnts L l =
      chainEnts A1 l ++ (chainEnts A2 l ++ chainEnts (entsFrom L v) l) := by
    conv_lhs => rw [← entsBelow_append_entsFrom L v, ← hsplit]
    rw [chainEnts_append, chainEnts_append, List.append_assoc]
  rw [hLdecomp] at hchain
  obtain ⟨-, hchain2⟩ := chainVals_append_inv hchain
  rw [← hstep1] at hchain2
  have hlen : (chainEnts A2 l ++ chainEnts (entsFrom L v) l).length <
      slFuel s := by
    have h1 := chainEnts_length_le A2 l
    have h2 := chainEnts_length_le (entsFrom L v) l
    have h3 := congrArg List.length (entsBelow_append_entsFrom L v)
    rw [List.length_append, ← hsplit, List.length_append] at h3
    have h4 := hrep.length_le
    unfold slFuel
    rw [List.length_append]
    omega
  rw [advance_spec s v l hchain2 hlen]
  have hallA2 : ∀ x ∈ chainEnts A2 l,
      (fun (e : Nat × α) => decide (e.2 < v)) x = true := by
    intro x hx
    obtain ⟨e, he, hlt, hxe⟩ := mem_chainEnts.1 hx
    have heA : e ∈ entsBelow L v := by
      rw [← hsplit]
      exact List.mem_append_right A1 he
    have hev : e.2.1 < v := mem_entsBelow_lt heA
    rw [← hxe]
    simpa using hev
  have hallB : ∀ x ∈ chainEnts (entsFrom L v) l,
      (fun (e : Nat × α) => decide (e.2 < v)) x = false := by
    intro x hx
    obtain ⟨e, he, hlt, hxe⟩ := mem_chainEnts.1 hx
    have hnot := entsFrom_not_lt hrep.sorted v e he
    rw [← hxe]
    simpa using hnot
  rw [takeWhile_append_all _ _ _ hallA2, dropWhile_append_all _ _ _ hallA2,
    takeWhile_eq_nil_of_all _ _ hallB, dropWhile_eq_self_of_all _ _ hallB,
    List.append_nil]
  rw [Prod.mk.injEq]
  refine ⟨?_, ?_⟩
  · rw [hstep1, ← lastRef_append, ← chainEnts_append, hsplit]
    rfl
  · cases hBc : entsFrom L v with
    | nil =>
      unfold foundFlag vHead?
      simp only [hBc, chainEnts_nil]
    | cons b B2 =>
      have hBp : List.Pairwise (fun a c => a.2.1 < c.2.1) (b :: B2) := by
        rw [← hBc]
        exact entsFrom_pairwise hrep.sorted v
      unfold foundFlag vHead?
      simp only [hBc, chainEnts_cons]
      by_cases hbl : l < b.2.2
      · rw [if_pos hbl]
        by_cases hbv : b.2.1 = v
        · rw [if_pos hbv]
          simp [hbv, hbl]
        · rw [if_neg hbv]
          simp [hbv]
      · rw [if_neg hbl]
        by_cases hbv : b.2.1 = v
        · rw [if_pos hbv]
          cases hc2 : chainEnts B2 l with
          | nil => simp [hbl]
          | cons x xs =>
            have hxmem : x ∈ chainEnts B2 l := by
              rw [hc2]
              exact List.mem_cons_self x xs
            obtain ⟨e, he, hlt2, hxe⟩ := mem_chainEnts.1 hxmem
            have hbe := (List.pairwise_cons.1 hBp).1 e he
            rw [hbv] at hbe
            have hx2 : x.2 = e.2.1 := by rw [← hxe]
            simp [hx2, hbl, ne_of_gt hbe]
        · rw [if_neg hbv]
          cases hc2 : chainEnts B2 l with
          | nil => simp
          | cons x xs =>
            have hxmem : x ∈ chainEnts B2 l := by
              rw [hc2]
              exact List.mem_cons_self x xs
            obtain ⟨e, he, hlt2, hxe⟩ := mem_chainEnts.1 hxmem
            have hbe := (List.pairwise_cons.1 hBp).1 e he
            have hhead := entsFrom_head_not_lt L v hBc
            have hev : v < e.2.1 := lt_of_le_of_lt (le_of_not_lt hhead) hbe
            have hx2 : x.2 = e.2.1 := by rw [← hxe]
            simp [hx2, ne_of_gt hev]

theorem predAt_top [LinearOrder α] {L : List (Nat × α × Nat)} (v : α)
    {lv : Nat} (hlv : maxLvl L ≤ lv) : predAt L v lv = none := by
  refine predAt_high v ?_
  intro e he
  exact le_trans (le_maxLvl he) hlv

theorem prod_fst_mk {β γ : Type} (a : β) (b : γ) : ((a, b) : β × γ).1 = a := rfl

theorem prod_snd_mk {β γ : Type} (a : β) (b : γ) : ((a, b) : β × γ).2 = b := rfl

theorem containGo_succ [LinearOrder α] (s : SkipList α) (v : α) (n : Nat)
    (r : SLRef) :
    containGo s v (n + 1) r =
      (if (advance s v n r (slFuel s)).2 then true
       else containGo s v n (advance s v n r (slFuel s)).1) := rfl

theorem insertWalk_succ [LinearOrder α] (s : SkipList α) (v : α) (n : Nat)
    (r : SLRef) :
    insertWalk s v (n + 1) r =
      (if (advance s v n r (slFuel s)).2 then none
       else
         match insertWalk s v n (advance s v n r (slFuel s)).1 with
         | none => none
         | some u => some (u ++ [(advance s v n r (slFuel s)).1])) := rfl

theorem eraseWalk_succ [LinearOrder α] (s : SkipList α) (v : α) (n : Nat)
    (r : SLRef) :
    eraseWalk s v (n + 1) r =
      ((eraseWalk s v n (advance s v n r (slFuel s)).1).1 ++
          [(advance s v n r (slFuel s)).1],
        (advance s v n r (slFuel s)).2 ||
          (eraseWalk s v n (advance s v n r (slFuel s)).1).2) := rfl

/-- A found flag that is false at level `n` forces `1 ≤ n` whenever a
`v`-entry exists (its level is at least 1). -/
theorem foundFlag_false_one_le [LinearOrder α] {s : SkipList α}
    {L : List (Nat × α × Nat)} (hrep : SLRepr s L) {v : α}
    {b : Nat × α × Nat} (hv : vHead? L v = some b) {n : Nat}
    (hf : foundFlag L v n = false) : 1 ≤ n := by
  unfold foundFlag at hf
  rw [hv] at hf
  simp only [decide_eq_false_iff_not, Nat.not_lt] at hf
  exact le_trans (hrep.lvl_pos b (vHead?_spec hv).1) hf

/-- The contain descent, started on the predecessor frontier, finds `v`
iff a `v`-entry exists and at least one level is walked. -/
theorem containGo_spec [LinearOrder α] {s : SkipList α}
    {L : List (Nat × α × Nat)} (hrep : SLRepr s L) (v : α) :
    ∀ lv, containGo s v lv (predAt L v lv) =
      ((vHead? L v).isSome && decide (1 ≤ lv)) := by
  intro lv
  induction lv with
  | zero => simp [containGo]
  | succ n ih =>
    rw [containGo_succ, descend_step hrep v n]
    cases hf : foundFlag L v n with
    | true =>
      cases hv : vHead? L v with
      | none =>
        unfold foundFlag at hf
        rw [hv] at hf
        exact absurd hf (by simp)
      | some b => simp [hv]
    | false =>
      simp only [Bool.false_eq_true, if_false]
      rw [ih]
      cases hv : vHead? L v with
      | none => simp [hv]
      | some b =>
        have h1n := foundFlag_false_one_le hrep hv hf
        simp [hv, h1n]

/-- The insert descent, started on the predecessor frontier: a duplicate
yields none, otherwise the recorded cache is exactly the predecessor of
`v` at each level. -/
theorem insertWalk_spec [LinearOrder α] {s : SkipList α}
    {L : List (Nat × α × Nat)} (hrep : SLRepr s L) (v : α) :
    ∀ lv, insertWalk s v lv (predAt L v lv) =
      (if (vHead? L v).isSome ∧ 1 ≤ lv then none
       else some ((List.range lv).map (predAt L v))) := by
  intro lv
  induction lv with
  | zero => simp [insertWalk]
  | succ n ih =>
    rw [insertWalk_succ, descend_step hrep v n]
    cases hf : foundFlag L v n with
    | true =>
      cases hv : vHead? L v with
      | none =>
        unfold foundFlag at hf
        rw [hv] at hf
        exact absurd hf (by simp)
      | some b => simp [hv]
    | false =>
      simp only [Bool.false_eq_true, if_false]
      rw [ih]
      cases hv : vHead? L v with
      | none => simp [hv, List.range_succ]
      | some b =>
        have h1n := foundFlag_false_one_le hrep hv hf
        simp [hv, h1n]

/-- The erase descent, started on the predecessor frontier: the found
flag is set iff a `v`-entry exists, and every level's predecessor is
recorded. -/
theorem eraseWalk_spec [LinearOrder α] {s : SkipList α}
    {L : List (Nat × α × Nat)} (hrep : SLRepr s L) (v : α) :
    ∀ lv, eraseWalk s v lv (predAt L v lv) =
      ((List.range lv).map (predAt L v),
        (vHead? L v).isSome && decide (1 ≤ lv)) := by
  intro lv
  induction lv with
  | zero => simp [eraseWalk]
  | succ n ih =>
    rw [eraseWalk_succ, descend_step hrep v n]
    simp only [prod_fst_mk, prod_snd_mk]
    rw [ih]
    rw [Prod.mk.injEq]
    refine ⟨by simp [List.range_succ], ?_⟩
    cases hf : foundFlag L v n with
    | true =>
      cases hv : vHead? L v with
      | none =>
        unfold foundFlag at hf
        rw [hv] at hf
        exact absurd hf (by simp)
      | some b => simp [hv]
    | false =>
      cases hv : vHead? L v with
      | none => simp [hv]
      | some b =>
        have h1n := foundFlag_false_one_le hrep hv hf
        simp [hv, h1n]

/-! ### The splice and unlink loops -/

theorem slotSig_none_iff (s : SkipList α) (j : Nat) :
    slotSig s j = none ↔ s.nodes.getD j none = none := by
  unfold slotSig
  cases s.nodes.getD j none <;> simp

theorem spliceLevels_succ (update : List SLRef) (nid : Nat)
    (s0 : SkipList α) (level count : Nat) :
    spliceLevels update nid s0 level (count + 1) =
      spliceLevels update nid
        (setNext (setNext s0 (some nid) level
            (getNext s0 (update.getD level none) level))
          (update.getD level none) level (some nid))
        (level + 1) count := rfl

theorem spliceLevels_out (update : List SLRef) (nid : Nat) :
    ∀ (count level : Nat) (s0 : SkipList α) (r : SLRef) (l2 : Nat),
      l2 < level ∨ level + count ≤ l2 →
      getNext (spliceLevels update nid s0 level count) r l2 =
        getNext s0 r l2 := by
  intro count
  induction count with
  | zero => intro level s0 r l2 h; rfl
  | succ n ih =>
    intro level s0 r l2 h
    rw [spliceLevels_succ, ih _ _ _ _ (by omega)]
    rw [getNext_setNext_ne _ _ (Or.inr (by omega)),
      getNext_setNext_ne _ _ (Or.inr (by omega))]

theorem spliceLevels_slotSig (update : List SLRef) (nid : Nat) :
    ∀ (count level : Nat) (s0 : SkipList α) (j : Nat),
      slotSig (spliceLevels update nid s0 level count) j = slotSig s0 j := by
  intro count
  induction count with
  | zero => intro level s0 j; rfl
  | succ n ih =>
    intro level s0 j
    rw [spliceLevels_succ, ih, slotSig_setNext, slotSig_setNext]

theorem spliceLevels_headLen (update : List SLRef) (nid : Nat) :
    ∀ (count level : Nat) (s0 : SkipList α),
      (spliceLevels update nid s0 level count).headNext.length =
        s0.headNext.length := by
  intro count
  induction count with
  | zero => intro level s0; rfl
  | succ n ih =>
    intro level s0
    rw [spliceLevels_succ, ih, setNext_headNext_length, setNext_headNext_length]

theorem spliceLevels_curMax (update : List SLRef) (nid : Nat) :
    ∀ (count level : Nat) (s0 : SkipList α),
      (spliceLevels update nid s0 level count).current_max_level =
        s0.current_max_level := by
  intro count
  induction count with
  | zero => intro level s0; rfl
  | succ n ih =>
    intro level s0
    rw [spliceLevels_succ, ih, setNext_curMax, setNext_curMax]

theorem spliceLevels_in (update : List SLRef) (nid : Nat) :
    ∀ (count level : Nat) (s0 : SkipList α),
      (∀ l2, level ≤ l2 → l2 < level + count →
        okRef s0 (update.getD l2 none) l2 ∧ okRef s0 (some nid) l2) →
      ∀ (l2 : Nat) (r : SLRef), level ≤ l2 → l2 < level + count →
      getNext (spliceLevels update nid s0 level count) r l2 =
        (if r = update.getD l2 none then some nid
         else if r = some nid then getNext s0 (update.getD l2 none) l2
         else getNext s0 r l2) := by
  intro count
  induction count with
  | zero => intro level s0 hok l2 r h1 h2; omega
  | succ n ih =>
    intro level s0 hok l2 r h1 h2
    rw [spliceLevels_succ]
    obtain ⟨hoku, hoknid⟩ := hok level (le_refl _) (by omega)
    rcases Nat.eq_or_lt_of_le h1 with heq | hlt2
    · subst heq
      rw [spliceLevels_out _ _ _ _ _ _ _ (Or.inl (by omega))]
      have hokuA : okRef (setNext s0 (some nid) level
          (getNext s0 (update.getD level none) level))
          (update.getD level none) level :=
        (okRef_setNext _ _ _ _ _ _).2 hoku
      rw [getNext_setNext _ _ hokuA]
      by_cases hr : r = update.getD level none
      · rw [if_pos ⟨hr, rfl⟩, if_pos hr]
      · rw [if_neg (by tauto), if_neg hr]
        rw [getNext_setNext _ _ hoknid]
        by_cases hr2 : r = some nid
        · rw [if_pos ⟨hr2, rfl⟩, if_pos hr2]
        · rw [if_neg (by tauto), if_neg hr2]
    · have hok2 : ∀ l3, level + 1 ≤ l3 → l3 < level + 1 + n →
          okRef (setNext (setNext s0 (some nid) level
              (getNext s0 (update.getD level none) level))
            (update.getD level none) level (some nid))
            (update.getD l3 none) l3 ∧
          okRef (setNext (setNext s0 (some nid) level
              (getNext s0 (update.getD level none) level))
            (update.getD level none) level (some nid)) (some nid) l3 := by
        intro l3 ha hb
        obtain ⟨o1, o2⟩ := hok l3 (by omega) (by omega)
        exact ⟨(okRef_setNext _ _ _ _ _ _).2 ((okRef_setNext _ _ _ _ _ _).2 o1),
          (okRef_setNext _ _ _ _ _ _).2 ((okRef_setNext _ _ _ _ _ _).2 o2)⟩
      rw [ih (level + 1) _ hok2 l2 r (by omega) (by omega)]
      have hgx : ∀ x, getNext (setNext (setNext s0 (some nid) level
          (getNext s0 (update.getD level none) level))
          (update.getD level none) level (some nid)) x l2 =
          getNext s0 x l2 := by
        intro x
        rw [getNext_setNext_ne _ _ (Or.inr (by omega)),
          getNext_setNext_ne _ _ (Or.inr (by omega))]
      rw [hgx, hgx]

theorem unlinkLevels_succ (update : List SLRef) (j : Nat)
    (s0 : SkipList α) (level count : Nat) :
    unlinkLevels update j s0 level (count + 1) =
      unlinkLevels update j
        (setNext s0 (update.getD level none) level (getNext s0 (some j) level))
        (level + 1) count := rfl

theorem unlinkLevels_out (update : List SLRef) (j : Nat) :
    ∀ (count level : Nat) (s0 : SkipList α) (r : SLRef) (l2 : Nat),
      l2 < level ∨ level + count ≤ l2 →
      getNext (unlinkLevels update j s0 level count) r l2 =
        getNext s0 r l2 := by
  intro count
  induction count with
  | zero => intro level s0 r l2 h; rfl
  | succ n ih =>
    intro level s0 r l2 h
    rw [unlinkLevels_succ, ih _ _ _ _ (by omega)]
    rw [getNext_setNext_ne _ _ (Or.inr (by omega))]

theorem unlinkLevels_slotSig (update : List SLRef) (j : Nat) :
    ∀ (count level : Nat) (s0 : SkipList α) (i : Nat),
      slotSig (unlinkLevels update j s0 level count) i = slotSig s0 i := by
  intro count
  induction count with
  | zero => intro level s0 i; rfl
  | succ n ih =>
    intro level s0 i
    rw [unlinkLevels_succ, ih, slotSig_setNext]

theorem unlinkLevels_headLen (update : List SLRef) (j : Nat) :
    ∀ (count level : Nat) (s0 : SkipList α),
      (unlinkLevels update j s0 level count).headNext.length =
        s0.headNext.length := by
  intro count
  induction count with
  | zero => intro level s0; rfl
  | succ n ih =>
    intro level s0
    rw [unlinkLevels_succ, ih, setNext_headNext_length]

theorem unlinkLevels_curMax (update : List SLRef) (j : Nat) :
    ∀ (count level : Nat) (s0 : SkipList α),
      (unlinkLevels update j s0 level count).current_max_level =
        s0.current_max_level := by
  intro count
  induction count with
  | zero => intro level s0; rfl
  | succ n ih =>
    intro level s0
    rw [unlinkLevels_succ, ih, setNext_curMax]

theorem unlinkLevels_in (update : List SLRef) (j : Nat) :
    ∀ (count level : Nat) (s0 : SkipList α),
      (∀ l2, level ≤ l2 → l2 < level + count →
        okRef s0 (update.getD l2 none) l2) →
      ∀ (l2 : Nat) (r : SLRef), level ≤ l2 → l2 < level + count →
      getNext (unlinkLevels update j s0 level count) r l2 =
        (if r = update.getD l2 none then getNext s0 (some j) l2
         else getNext s0 r l2) := by
  intro count
  induction count with
  | zero => intro level s0 hok l2 r h1 h2; omega
  | succ n ih =>
    intro count_level s0 hok l2 r h1 h2
    rw [unlinkLevels_succ]
    have hoku := hok count_level (le_refl _) (by omega)
    rcases Nat.eq_or_lt_of_le h1 with heq | hlt2
    · subst heq
      rw [unlinkLevels_out _ _ _ _ _ _ _ (Or.inl (by omega))]
      rw [getNext_setNext _ _ hoku]
      by_cases hr : r = update.getD count_level none
      · rw [if_pos ⟨hr, rfl⟩, if_pos hr]
      · rw [if_neg (by tauto), if_neg hr]
    · have hok2 : ∀ l3, count_level + 1 ≤ l3 → l3 < count_level + 1 + n →
          okRef (setNext s0 (update.getD count_level none) count_level
            (getNext s0 (some j) count_level)) (update.getD l3 none) l3 := by
        intro l3 ha hb
        exact (okRef_setNext _ _ _ _ _ _).2 (hok l3 (by omega) (by omega))
      rw [ih (count_level + 1) _ hok2 l2 r (by omega) (by omega)]
      have hgx : ∀ x, getNext (setNext s0 (update.getD count_level none)
          count_level (getNext s0 (some j) count_level)) x l2 =
          getNext s0 x l2 := by
        intro x
        rw [getNext_setNext_ne _ _ (Or.inr (by omega))]
      rw [hgx, hgx]

/-! ### The operations on represented states -/

theorem range_map_getD {β : Type} (f : Nat → β) (n l : Nat) (d : β) :
    ((List.range n).map f).getD l d = if l < n then f l else d := by
  by_cases h : l < n
  · rw [if_pos h]
    rw [List.getD_eq_getElem?_getD, List.getElem?_map, List.getElem?_range h]
    rfl
  · rw [if_neg h]
    refine List.getD_eq_default _ _ ?_
    rw [List.length_map, List.length_range]
    omega

theorem vHead?_isSome_iff [LinearOrder α] {L : List (Nat × α × Nat)}
    (hs : List.Pairwise (fun a b => a.2.1 < b.2.1) L) (v : α) :
    (vHead? L v).isSome = true ↔ ∃ e ∈ L, e.2.1 = v := by
  constructor
  · intro h
    obtain ⟨b, hb⟩ := Option.isSome_iff_exists.1 h
    obtain ⟨hbl, hbv, -⟩ := vHead?_spec hb
    exact ⟨b, hbl, hbv⟩
  · rintro ⟨e, he, hev⟩
    cases hx : vHead? L v with
    | some b => rfl
    | none => exact absurd hev ((vHead?_none_iff hs v).1 hx e he)

theorem curMax_one_le [LinearOrder α] {s : SkipList α}
    {L : List (Nat × α × Nat)} (hrep : SLRepr s L) :
    1 ≤ s.current_max_level := by
  rw [hrep.curMax]
  omega

theorem predAt_curMax_none [LinearOrder α] {s : SkipList α}
    {L : List (Nat × α × Nat)} (hrep : SLRepr s L) (v : α) :
    predAt L v s.current_max_level = none := by
  refine predAt_top v ?_
  rw [hrep.curMax]
  omega

/-- `skiplist_contain` on a represented state reports exactly residence
of the value. -/
theorem repr_contain [LinearOrder α] {s : SkipList α}
    {L : List (Nat × α × Nat)} (hrep : SLRepr s L) (v : α) :
    skiplist_contain s v = (vHead? L v).isSome := by
  unfold skiplist_contain
  rw [← predAt_curMax_none hrep v, containGo_spec hrep v]
  have h1 := curMax_one_le hrep
  simp [h1]

/-- Inserting a value already resident fails and leaves the state
untouched (the C code returns from inside the walk). -/
theorem repr_insert_dup [LinearOrder α] {s : SkipList α}
    {L : List (Nat × α × Nat)} (hrep : SLRepr s L) {v : α}
    (hv : (vHead? L v).isSome = true) (lvl : Nat) :
    skiplist_insert s v lvl = (false, s) := by
  unfold skiplist_insert
  rw [← predAt_curMax_none hrep v, insertWalk_spec hrep v,
    if_pos ⟨hv, curMax_one_le hrep⟩]

/-- Erasing an absent value fails and leaves the state untouched. -/
theorem repr_erase_absent [LinearOrder α] {s : SkipList α}
    {L : List (Nat × α × Nat)} (hrep : SLRepr s L) {v : α}
    (hv : vHead? L v = none) :
    skiplist_erase s v = (false, s) := by
  unfold skiplist_erase
  rw [← predAt_curMax_none hrep v, eraseWalk_spec hrep v]
  simp [hv]

theorem getD_replicate_none (n l : Nat) :
    (List.replicate n (none : Option Nat)).getD l none = none := by
  rcases Nat.lt_or_ge l n with h | h
  · rw [List.getD_eq_getElem?_getD, List.getElem?_replicate]
    simp [h]
  · rw [List.getD_eq_default]
    rw [List.length_replicate]
    exact h

theorem valueAt_of_slots [LinearOrder α] {s : SkipList α}
    {L : List (Nat × α × Nat)} (hrep : SLRepr s L) {e : Nat × α × Nat}
    (he : e ∈ L) : valueAt s e.1 = some e.2.1 := by
  rw [valueAt_eq_slotSig, hrep.slots e he]
  rfl

theorem predAt_none_or_old [LinearOrder α] (L : List (Nat × α × Nat))
    (v : α) (l : Nat) :
    predAt L v l = none ∨
      ∃ e ∈ entsBelow L v, l < e.2.2 ∧ predAt L v l = some e.1 := by
  cases hc : (chainEnts (entsBelow L v) l).getLast? with
  | none =>
    left
    unfold predAt lastRef
    rw [hc]
  | some x =>
    right
    obtain ⟨e, he, hl, hx⟩ := mem_chainEnts.1
      (List.mem_of_mem_getLast? (Option.mem_def.2 hc))
    refine ⟨e, he, hl, ?_⟩
    unfold predAt lastRef
    rw [hc, ← hx]

theorem predAt_some_lt [LinearOrder α] {s : SkipList α}
    {L : List (Nat × α × Nat)} (hrep : SLRepr s L) (v : α) (l : Nat)
    {i : Nat} (hi : predAt L v l = some i) : i < s.nodes.length := by
  rcases predAt_none_or_old L v l with h | ⟨e, he, -, h⟩
  · rw [h] at hi
    exact absurd hi (by simp)
  · rw [h] at hi
    obtain rfl := Option.some.inj hi
    exact hrep.id_lt (mem_entsBelow he)

/-- Ids of entries below `v` never collide with ids of entries from `v`
(same id means same node, hence same value). -/
theorem below_from_id_disjoint [LinearOrder α] {s : SkipList α}
    {L : List (Nat × α × Nat)} (hrep : SLRepr s L) (v : α) :
    ∀ a ∈ entsBelow L v, ∀ b ∈ entsFrom L v, a.1 ≠ b.1 := by
  intro a ha b hb heq
  have h1 := mem_entsBelow_lt ha
  have h2 := entsFrom_not_lt hrep.sorted v b hb
  have h3 := (hrep.sig_eq_of_id_eq (mem_entsBelow ha) (mem_entsFrom hb) heq).1
  rw [h3] at h1
  exact h2 h1

/-- The state after allocating and splicing a fresh node for an absent
value `v` at level `nl` is represented by inserting the new entry at its
sorted position. -/
theorem splice_repr [LinearOrder α] {s : SkipList α}
    {L : List (Nat × α × Nat)} (hrep : SLRepr s L) {v : α}
    (hno : vHead? L v = none) {nl : Nat} (hl1 : 1 ≤ nl)
    (hl32 : nl ≤ MAX_LEVEL) (update1 : List SLRef)
    (hupd : ∀ l, l < nl → update1.getD l none = predAt L v l) {cur2 : Nat}
    (hcur2 : cur2 = max s.current_max_level nl) :
    SLRepr
      (spliceLevels update1 s.nodes.length
        { s with
          nodes := s.nodes ++ [some ⟨v, nl, List.replicate nl none⟩]
          current_max_level := cur2 }
        0 nl)
      (entsBelow L v ++ (s.nodes.length, v, nl) :: entsFrom L v) := by
  classical
  set nid := s.nodes.length with hnid
  set s2 : SkipList α :=
    { s with
      nodes := s.nodes ++ [some ⟨v, nl, List.replicate nl none⟩]
      current_max_level := cur2 } with hs2def
  -- basic transfer facts from s to s2
  have hg_old : ∀ (r : SLRef) (l : Nat), (∀ i, r = some i → i < s.nodes.length) →
      getNext s2 r l = getNext s r l := by
    intro r l hr
    cases r with
    | none => rfl
    | some i =>
      have hi := hr i rfl
      have hD : s2.nodes.getD i none = s.nodes.getD i none :=
        List.getD_append s.nodes [some ⟨v, nl, List.replicate nl none⟩] none i hi
      cases hx : s.nodes.getD i none with
      | none =>
        rw [hx] at hD
        rw [getNext_some_none _ hD, getNext_some_none _ hx]
      | some nd2 =>
        rw [hx] at hD
        rw [getNext_some_some _ hD, getNext_some_some _ hx]
  have hsig_old : ∀ j, j ≠ nid → slotSig s2 j = slotSig s j := by
    intro j hj
    unfold slotSig
    have hD : s2.nodes.getD j none = s.nodes.getD j none := by
      rcases Nat.lt_or_ge j s.nodes.length with h | h
      · exact List.getD_append _ _ _ _ h
      · have h2 : (s.nodes ++ [some (⟨v, nl, List.replicate nl none⟩ :
            SkipListNode α)]).length ≤ j := by
          rw [List.length_append, List.length_singleton]
          omega
        rw [List.getD_eq_default _ _ h2, List.getD_eq_default _ _ h]
    rw [hD]
  have hDnew : s2.nodes.getD nid none =
      some ⟨v, nl, List.replicate nl none⟩ := by
    show (s.nodes ++ [some (⟨v, nl, List.replicate nl none⟩ : SkipListNode α)]).getD
      s.nodes.length none =
      some (⟨v, nl, List.replicate nl none⟩ : SkipListNode α)
    rw [List.getD_append_right _ _ _ _ (le_refl _)]
    simp
  have hsig_new : slotSig s2 nid = some (v, nl, nl) := by
    unfold slotSig
    rw [hDnew]
    simp
  have hg_new : ∀ l, getNext s2 (some nid) l = none := by
    intro l
    rw [getNext_some_some _ hDnew]
    exact getD_replicate_none nl l
  have hok_transfer : ∀ (r : SLRef) (l2 : Nat), okRef s r l2 → okRef s2 r l2 := by
    intro r l2 hok
    cases r with
    | none => exact hok
    | some i =>
      obtain ⟨p, hp, hl2⟩ := hok
      have hi : i < s.nodes.length := by
        unfold slotSig at hp
        cases hx : s.nodes.getD i none with
        | none => rw [hx] at hp; exact absurd hp (by simp)
        | some nd => exact getD_some_lt_length hx
      refine ⟨p, ?_, hl2⟩
      rw [hsig_old i (by omega)]
      exact hp
  -- the splice characterizations
  have hchar : ∀ l2, l2 < nl → ∀ r,
      getNext (spliceLevels update1 nid s2 0 nl) r l2 =
        (if r = predAt L v l2 then some nid
         else if r = some nid then getNext s2 (predAt L v l2) l2
         else getNext s2 r l2) := by
    intro l2 hl2 r
    have h := spliceLevels_in update1 nid nl 0 s2 ?_ l2 r (by omega) (by omega)
    · rw [hupd l2 hl2] at h
      exact h
    · intro l3 h0 h3
      constructor
      · rw [hupd l3 (by omega)]
        exact hok_transfer _ _ (predAt_okRef hrep v (by omega))
      · exact ⟨(v, nl, nl), hsig_new, by show l3 < nl; omega⟩
  have hhigh : ∀ l2, nl ≤ l2 → ∀ r,
      getNext (spliceLevels update1 nid s2 0 nl) r l2 = getNext s2 r l2 := by
    intro l2 hl2 r
    exact spliceLevels_out update1 nid nl 0 s2 r l2 (Or.inr (by omega))
  have hsigsp : ∀ j, slotSig (spliceLevels update1 nid s2 0 nl) j =
      slotSig s2 j := fun j => spliceLevels_slotSig update1 nid nl 0 s2 j
  -- sorted decomposition
  have hsortAB : List.Pairwise (fun a b => a.2.1 < b.2.1)
      (entsBelow L v ++ entsFrom L v) := by
    have h := hrep.sorted
    rw [← entsBelow_append_entsFrom L v] at h
    exact h
  obtain ⟨hpA, hpB, hcross⟩ := List.pairwise_append.1 hsortAB
  have hvltB : ∀ b ∈ entsFrom L v, v < b.2.1 := by
    intro b hb
    have h1 := entsFrom_not_lt hrep.sorted v b hb
    have h2 := (vHead?_none_iff hrep.sorted v).1 hno b (mem_entsFrom hb)
    exact lt_of_le_of_ne (le_of_not_lt h1) (Ne.symm h2)
  have hpred_ne_nid : ∀ l, predAt L v l ≠ some nid := by
    intro l hc
    have := predAt_some_lt hrep v l hc
    omega
  have hpredold : ∀ l (i : Nat), predAt L v l = some i → i < s.nodes.length :=
    fun l i h => predAt_some_lt hrep v l h
  -- the representation
  refine ⟨?_, ?_, ?_, ?_, ?_, ?_, ?_, ?_⟩
  -- headLen
  · rw [spliceLevels_headLen]
    exact hrep.headLen
  -- curMax
  · rw [spliceLevels_curMax]
    have hmax2 : maxLvl (entsBelow L v ++ (nid, v, nl) :: entsFrom L v) =
        max (maxLvl L) nl := by
      rw [maxLvl_append, maxLvl_cons]
      conv_rhs => rw [← entsBelow_append_entsFrom L v]
      rw [maxLvl_append]
      rw [show ((nid, v, nl) : Nat × α × Nat).2.2 = nl from rfl]
      omega
    rw [hmax2]
    have hcm := hrep.curMax
    show cur2 = _
    omega
  -- lvl_pos
  · intro e he
    rcases List.mem_append.1 he with h | h
    · exact hrep.lvl_pos e (mem_entsBelow h)
    · rcases List.mem_cons.1 h with rfl | h2
      · exact hl1
      · exact hrep.lvl_pos e (mem_entsFrom h2)
  -- lvl_le
  · intro e he
    rcases List.mem_append.1 he with h | h
    · exact hrep.lvl_le e (mem_entsBelow h)
    · rcases List.mem_cons.1 h with rfl | h2
      · exact hl32
      · exact hrep.lvl_le e (mem_entsFrom h2)
  -- slots
  · intro e he
    rw [hsigsp]
    rcases List.mem_append.1 he with h | h
    · have hlt := hrep.id_lt (mem_entsBelow h)
      rw [hsig_old e.1 (by omega)]
      exact hrep.slots e (mem_entsBelow h)
    · rcases List.mem_cons.1 h with rfl | h2
      · exact hsig_new
      · have hlt := hrep.id_lt (mem_entsFrom h2)
        rw [hsig_old e.1 (by omega)]
        exact hrep.slots e (mem_entsFrom h2)
  -- live
  · intro i hi
    have hsi : slotSig (spliceLevels update1 nid s2 0 nl) i ≠ none := by
      intro hc
      exact hi ((slotSig_none_iff _ i).1 hc)
    rw [hsigsp] at hsi
    by_cases hin : i = nid
    · exact ⟨(nid, v, nl), List.mem_append_right _ (List.mem_cons_self _ _),
        by rw [hin]⟩
    · rw [hsig_old i hin] at hsi
      have hsi2 : s.nodes.getD i none ≠ none := by
        intro hc
        exact hsi ((slotSig_none_iff s i).2 hc)
      obtain ⟨e, he, hei⟩ := hrep.live i hsi2
      rcases List.mem_append.1 (by rw [entsBelow_append_entsFrom]; exact he :
          e ∈ entsBelow L v ++ entsFrom L v) with h | h
      · exact ⟨e, List.mem_append_left _ h, hei⟩
      · exact ⟨e, List.mem_append_right _ (List.mem_cons_of_mem _ h), hei⟩
  -- sorted
  · rw [List.pairwise_append]
    refine ⟨hpA, ?_, ?_⟩
    · rw [List.pairwise_cons]
      exact ⟨fun b hb => hvltB b hb, hpB⟩
    · intro a ha b hb
      rcases List.mem_cons.1 hb with rfl | h2
      · exact mem_entsBelow_lt ha
      · exact hcross a ha b h2
  -- chains
  · intro l
    rw [chainEnts_append, chainEnts_cons]
    rcases Nat.lt_or_ge l nl with hl | hl
    · -- the spliced levels
      rw [if_pos hl]
      have hA_B : chainEnts L l =
          chainEnts (entsBelow L v) l ++ chainEnts (entsFrom L v) l := by
        conv_lhs => rw [← entsBelow_append_entsFrom L v]
        rw [chainEnts_append]
      have hch := hrep.chains l
      rw [hA_B] at hch
      obtain ⟨hpathA, hBv0⟩ := chainVals_append_inv hch
      have hBv : ChainVals s l (predAt L v l)
          (chainEnts (entsFrom L v) l) := hBv0
      have hAid : ∀ {x : Nat × α}, x ∈ chainEnts (entsBelow L v) l →
          x.1 < s.nodes.length := by
        intro x hx
        obtain ⟨f, hf, -, hfe⟩ := mem_chainEnts.1 hx
        rw [← hfe]
        exact hrep.id_lt (mem_entsBelow hf)
      have hBref : ∀ {x : Nat × α}, x ∈ chainEnts (entsFrom L v) l →
          some x.1 ≠ predAt L v l ∧ x.1 < s.nodes.length := by
        intro x hx
        obtain ⟨f, hf, -, hfe⟩ := mem_chainEnts.1 hx
        have hxf : x.1 = f.1 := by rw [← hfe]
        have hxlt : x.1 < s.nodes.length := by
          rw [hxf]
          exact hrep.id_lt (mem_entsFrom hf)
        refine ⟨?_, hxlt⟩
        intro hc
        rcases predAt_none_or_old L v l with h | ⟨g, hg2, -, h⟩
        · rw [h] at hc
          exact absurd hc (by simp)
        · rw [h] at hc
          have hxg : x.1 = g.1 := Option.some.inj hc
          exact below_from_id_disjoint hrep v g hg2 f hf
            (by rw [← hxg, hxf])
      -- the middle and tail of the new chain, hanging from the
      -- level-l predecessor
      have hmid : ChainVals (spliceLevels update1 nid s2 0 nl) l
          (predAt L v l) ((nid, v) :: chainEnts (entsFrom L v) l) := by
        refine ChainVals.cons ?_ ?_ ?_
        · rw [hchar l hl (predAt L v l), if_pos rfl]
        · rw [valueAt_eq_slotSig, hsigsp nid, hsig_new]
          rfl
        · cases hBc : chainEnts (entsFrom L v) l with
          | nil =>
            rw [hBc] at hBv
            refine ChainVals.nil ?_
            rw [hchar l hl (some nid),
              if_neg (fun hcon => hpred_ne_nid l hcon.symm), if_pos rfl]
            rw [hg_old (predAt L v l) l (hpredold l)]
            cases hBv with
            | nil hg0 => exact hg0
          | cons bx rest =>
            rw [hBc] at hBv
            cases hBv with
            | @cons _ j2 w2 _ hg0 hv0 hrest =>
              have hj2mem : ((j2, w2) : Nat × α) ∈
                  chainEnts (entsFrom L v) l := by
                rw [hBc]
                exact List.mem_cons_self _ _
              obtain ⟨hj2ne, hj2lt⟩ := hBref hj2mem
              refine ChainVals.cons ?_ ?_ ?_
              · rw [hchar l hl (some nid),
                  if_neg (fun hcon => hpred_ne_nid l hcon.symm), if_pos rfl]
                rw [hg_old (predAt L v l) l (hpredold l)]
                exact hg0
              · rw [valueAt_eq_slotSig, hsigsp j2, hsig_old j2 (by omega),
                  ← valueAt_eq_slotSig]
                exact hv0
              · refine chainVals_congr hrest ?_ ?_
                · intro r2 hr2
                  have hr2B : ∃ y ∈ chainEnts (entsFrom L v) l,
                      r2 = some y.1 := by
                    rcases hr2 with h | ⟨e2, he2, h⟩
                    · exact ⟨(j2, w2), hj2mem, h⟩
                    · refine ⟨e2, ?_, h⟩
                      rw [hBc]
                      exact List.mem_cons_of_mem _ he2
                  obtain ⟨y, hy, hyeq⟩ := hr2B
                  obtain ⟨hyne, hylt⟩ := hBref hy
                  have hcn1 : r2 ≠ predAt L v l := by
                    rw [hyeq]
                    exact hyne
                  have hcn2 : r2 ≠ some nid := by
                    rw [hyeq]
                    intro hc
                    have := Option.some.inj hc
                    omega
                  rw [hchar l hl r2, if_neg hcn1, if_neg hcn2]
                  refine hg_old r2 l ?_
                  intro i hi
                  rw [hyeq] at hi
                  obtain rfl := Option.some.inj hi
                  exact hylt
                · intro j3 hj3
                  obtain ⟨e2, he2, hje⟩ := hj3
                  have hj3mem : ∃ y ∈ chainEnts (entsFrom L v) l,
                      y.1 = j3 := by
                    refine ⟨e2, ?_, hje⟩
                    rw [hBc]
                    exact List.mem_cons_of_mem _ he2
                  obtain ⟨y, hy, hyeq⟩ := hj3mem
                  have hylt := (hBref hy).2
                  rw [valueAt_eq_slotSig, valueAt_eq_slotSig, hsigsp j3,
                    hsig_old j3 (by omega)]
      -- prepend the (untouched) part of the chain below v
      cases hAc : chainEnts (entsBelow L v) l with
      | nil =>
        have hpred : predAt L v l = none := by
          unfold predAt lastRef
          rw [hAc]
          rfl
        rw [List.nil_append]
        rw [hpred] at hmid
        exact hmid
      | cons a0 arest =>
        have hAne : chainEnts (entsBelow L v) l ≠ [] := by
          rw [hAc]
          simp
        have hpredA : predAt L v l =
            some ((chainEnts (entsBelow L v) l).getLast hAne).1 := by
          unfold predAt lastRef
          cases hc : (chainEnts (entsBelow L v) l).getLast? with
          | none =>
            rw [List.getLast?_eq_getLast _ hAne] at hc
            exact absurd hc (by simp)
          | some y =>
            rw [List.getLast?_eq_getLast _ hAne] at hc
            have hy : y = (chainEnts (entsBelow L v) l).getLast hAne :=
              (Option.some.inj hc).symm
            rw [hy]
        have hchApair : List.Pairwise (fun x y : Nat × α => x.2 < y.2)
            (chainEnts (entsBelow L v) l) := by
          unfold chainEnts
          rw [List.pairwise_map]
          exact List.Pairwise.filter _ hpA
        obtain ⟨glast, hglasteq⟩ :
            ∃ y, y = (chainEnts (entsBelow L v) l).getLast hAne := ⟨_, rfl⟩
        have hsplitA : (chainEnts (entsBelow L v) l).dropLast ++ [glast] =
            chainEnts (entsBelow L v) l := by
          rw [hglasteq]
          exact List.dropLast_append_getLast hAne
        have hpredA2 : predAt L v l = some glast.1 := by
          rw [hglasteq]
          exact hpredA
        have hdrop_ne : ∀ e ∈ (chainEnts (entsBelow L v) l).dropLast,
            e.1 ≠ glast.1 := by
          intro e he hid
          have hpair2 := hchApair
          rw [← hsplitA] at hpair2
          obtain ⟨-, -, hcross2⟩ := List.pairwise_append.1 hpair2
          have hval := hcross2 e he _ (List.mem_cons_self _ _)
          -- same id means same value: both pairs come from entries of L
          have hemem : e ∈ chainEnts (entsBelow L v) l :=
            (List.dropLast_sublist _).subset he
          have hgmem : glast ∈ chainEnts (entsBelow L v) l := by
            rw [← hsplitA]
            exact List.mem_append_right _ (List.mem_cons_self _ _)
          obtain ⟨f1, hf1, -, hfe1⟩ := mem_chainEnts.1 hemem
          obtain ⟨f2, hf2, -, hfe2⟩ := mem_chainEnts.1 hgmem
          have hfid : f1.1 = f2.1 := by
            have h1 : f1.1 = e.1 := by rw [← hfe1]
            have h2 : f2.1 = glast.1 := by
              rw [← hfe2]
            rw [h1, h2, hid]
          have hfv := (hrep.sig_eq_of_id_eq (mem_entsBelow hf1)
            (mem_entsBelow hf2) hfid).1
          have hv1 : e.2 = f1.2.1 := by rw [← hfe1]
          have hv2 : glast.2 = f2.2.1 := by rw [← hfe2]
          rw [hv1, hv2, hfv] at hval
          exact lt_irrefl _ hval
        have hpathA2 : ChainPath (spliceLevels update1 nid s2 0 nl) l none
            (chainEnts (entsBelow L v) l) := by
          refine chainPath_congr hpathA ?_ ?_
          · intro r2 hr2
            have hr2a : r2 ≠ predAt L v l := by
              rcases hr2 with h | ⟨e, he, h⟩
              · rw [h, hpredA2]
                simp
              · rw [h, hpredA2]
                intro hc
                exact hdrop_ne e he (Option.some.inj hc)
            have hr2b : r2 ≠ some nid := by
              rcases hr2 with h | ⟨e, he, h⟩
              · rw [h]
                simp
              · rw [h]
                intro hc
                have := Option.some.inj hc
                have helt := hAid ((List.dropLast_sublist _).subset he)
                omega
            rw [hchar l hl r2, if_neg hr2a, if_neg hr2b]
            refine hg_old r2 l ?_
            intro i hi
            rcases hr2 with h | ⟨e, he, h⟩
            · rw [h] at hi
              exact absurd hi (by simp)
            · rw [h] at hi
              obtain rfl := Option.some.inj hi
              exact hAid ((List.dropLast_sublist _).subset he)
          · intro j hj
            obtain ⟨e, he, hje⟩ := hj
            have hjlt : j < s.nodes.length := by
              rw [← hje]
              exact hAid he
            rw [valueAt_eq_slotSig, valueAt_eq_slotSig, hsigsp j,
              hsig_old j (by omega)]
        rw [← hAc]
        exact chainPath_append hpathA2 hmid
    · -- the untouched levels
      rw [if_neg (by show ¬(l < nl); omega)]
      have hLl : chainEnts (entsBelow L v) l ++ chainEnts (entsFrom L v) l =
          chainEnts L l := by
        rw [← chainEnts_append, entsBelow_append_entsFrom]
      rw [hLl]
      have hstep1 : ChainVals s2 l none (chainEnts L l) := by
        refine chainVals_congr (hrep.chains l) ?_ ?_
        · intro r2 hr2
          refine hg_old r2 l ?_
          intro i hri
          rcases hr2 with h | ⟨e, he, h⟩
          · rw [h] at hri
            exact absurd hri (by simp)
          · rw [h] at hri
            obtain rfl := Option.some.inj hri
            obtain ⟨f, hf, -, hfe⟩ := mem_chainEnts.1 he
            rw [← hfe]
            exact hrep.id_lt hf
        · intro j hj
          obtain ⟨e, he, hje⟩ := hj
          obtain ⟨f, hf, -, hfe⟩ := mem_chainEnts.1 he
          have hfj : f.1 = j := by rw [← hje, ← hfe]
          have hjlt : j < s.nodes.length := by
            rw [← hfj]
            exact hrep.id_lt hf
          rw [valueAt_eq_slotSig, valueAt_eq_slotSig, hsig_old j (by omega)]
      refine chainVals_congr hstep1 (fun r2 _ => hhigh l hl r2) ?_
      intro j _
      rw [valueAt_eq_slotSig, valueAt_eq_slotSig, hsigsp j]

/-- `skiplist_insert` of an absent value with a level in range succeeds,
and the new state is represented by the table with the new entry at its
sorted position. -/
theorem repr_insert_new [LinearOrder α] {s : SkipList α}
    {L : List (Nat × α × Nat)} (hrep : SLRepr s L) {v : α}
    (hno : vHead? L v = none) {nl : Nat} (hl1 : 1 ≤ nl)
    (hl32 : nl ≤ MAX_LEVEL) :
    (skiplist_insert s v nl).1 = true ∧
    SLRepr (skiplist_insert s v nl).2
      (entsBelow L v ++ (s.nodes.length, v, nl) :: entsFrom L v) := by
  have hwalk : insertWalk s v s.current_max_level none =
      some ((List.range s.current_max_level).map (predAt L v)) := by
    rw [← predAt_curMax_none hrep v, insertWalk_spec hrep v, if_neg]
    rintro ⟨h1, -⟩
    rw [hno] at h1
    exact absurd h1 (by simp)
  have hstate : skiplist_insert s v nl =
      (true, spliceLevels
        (if s.current_max_level < nl then
          (List.range s.current_max_level).map (predAt L v) ++
            List.replicate (nl - s.current_max_level) none
         else (List.range s.current_max_level).map (predAt L v))
        s.nodes.length
        { s with
          nodes := s.nodes ++ [some ⟨v, nl, List.replicate nl none⟩]
          current_max_level := max s.current_max_level nl }
        0 nl) := by
    unfold skiplist_insert
    rw [hwalk]
    by_cases hc : s.current_max_level < nl
    · simp only [if_pos hc]
      rw [show max s.current_max_level nl = nl from by omega]
    · simp only [if_neg hc]
      rw [show max s.current_max_level nl = s.current_max_level from by omega]
  rw [hstate]
  refine ⟨rfl, ?_⟩
  refine splice_repr hrep hno hl1 hl32 _ ?_ rfl
  intro l hl
  by_cases hc : s.current_max_level < nl
  · rw [if_pos hc]
    rcases Nat.lt_or_ge l s.current_max_level with h | h
    · rw [List.getD_append _ _ _ _
        (by rw [List.length_map, List.length_range]; exact h)]
      rw [range_map_getD, if_pos h]
    · rw [List.getD_append_right _ _ _ _
        (by rw [List.length_map, List.length_range]; exact h)]
      have hp : predAt L v l = none := by
        refine predAt_top v ?_
        have hcm := hrep.curMax
        omega
      rw [hp]
      exact getD_replicate_none _ _
  · rw [if_neg hc]
    have h : l < s.current_max_level := by omega
    rw [range_map_getD, if_pos h]

/-- The level-`l` chain hanging from the level-`l` predecessor of `v` is
exactly the part of the chain with values at least `v`. -/
theorem chain_from_pred [LinearOrder α] {s : SkipList α}
    {L : List (Nat × α × Nat)} (hrep : SLRepr s L) (v : α) (l : Nat) :
    ChainVals s l (predAt L v l) (chainEnts (entsFrom L v) l) := by
  have hA_B : chainEnts L l =
      chainEnts (entsBelow L v) l ++ chainEnts (entsFrom L v) l := by
    conv_lhs => rw [← entsBelow_append_entsFrom L v]
    rw [chainEnts_append]
  have hch := hrep.chains l
  rw [hA_B] at hch
  exact (chainVals_append_inv hch).2

theorem path_below [LinearOrder α] {s : SkipList α}
    {L : List (Nat × α × Nat)} (hrep : SLRepr s L) (v : α) (l : Nat) :
    ChainPath s l none (chainEnts (entsBelow L v) l) := by
  have hA_B : chainEnts L l =
      chainEnts (entsBelow L v) l ++ chainEnts (entsFrom L v) l := by
    conv_lhs => rw [← entsBelow_append_entsFrom L v]
    rw [chainEnts_append]
  have hch := hrep.chains l
  rw [hA_B] at hch
  exact (chainVals_append_inv hch).1

/-- The `current_max_level` shrink loop lands exactly on
`max 1 M` when the head pointers above `M` and only those are NULL. -/
theorem shrinkLoop_spec (hn : List (Option Nat)) (M : Nat)
    (hchar : ∀ m, hn.getD m none = none ↔ M ≤ m) :
    ∀ c, max 1 M ≤ c → shrinkLoop hn c = max 1 M := by
  intro c
  induction c with
  | zero => intro h; omega
  | succ m ih =>
    intro h
    rw [show shrinkLoop hn (m + 1) =
      (if 1 ≤ m ∧ hn.getD m none = none then shrinkLoop hn m else m + 1)
      from rfl]
    by_cases hc : 1 ≤ m ∧ hn.getD m none = none
    · rw [if_pos hc]
      refine ih ?_
      have := (hchar m).1 hc.2
      omega
    · rw [if_neg hc]
      rcases Nat.lt_or_ge m 1 with h1 | h1
      · omega
      · have h2 : hn.getD m none ≠ none := fun hx => hc ⟨h1, hx⟩
        have h3 : ¬ M ≤ m := fun hx => h2 ((hchar m).2 hx)
        omega

/-- Shape of a successful `skiplist_erase`, with the walk and the
node-to-delete lookup supplied. -/
theorem skiplist_erase_eq [LinearOrder α] (s : SkipList α) (v : α)
    (u : List SLRef) (hw : eraseWalk s v s.current_max_level none = (u, true))
    (j : Nat) (hj : getNext s (u.getD 0 none) 0 = some j) :
    skiplist_erase s v =
      (true,
        { unlinkLevels u j s 0 (levelAt s j) with
          nodes := (unlinkLevels u j s 0 (levelAt s j)).nodes.set j none
          current_max_level := shrinkLoop
            (unlinkLevels u j s 0 (levelAt s j)).headNext
            (unlinkLevels u j s 0 (levelAt s j)).current_max_level }) := by
  unfold skiplist_erase
  rw [hw]
  simp only [prod_fst_mk, prod_snd_mk, if_true]
  rw [hj]

/-- Unlinking, freeing and shrinking after a successful erase walk
leaves a state represented by the table without the erased entry. -/
theorem erase_repr [LinearOrder α] {s : SkipList α}
    {L : List (Nat × α × Nat)} (hrep : SLRepr s L) {v : α}
    {b : Nat × α × Nat} {B2 : List (Nat × α × Nat)}
    (hv : vHead? L v = some b) (hB2 : entsFrom L v = b :: B2) :
    SLRepr
      { unlinkLevels ((List.range s.current_max_level).map (predAt L v))
          b.1 s 0 b.2.2 with
        nodes := (unlinkLevels ((List.range s.current_max_level).map
          (predAt L v)) b.1 s 0 b.2.2).nodes.set b.1 none
        current_max_level := shrinkLoop
          (unlinkLevels ((List.range s.current_max_level).map (predAt L v))
            b.1 s 0 b.2.2).headNext
          (unlinkLevels ((List.range s.current_max_level).map (predAt L v))
            b.1 s 0 b.2.2).current_max_level }
      (entsBelow L v ++ B2) := by
  classical
  obtain ⟨hbL, hbv, -⟩ := vHead?_spec hv
  have hb1 : 1 ≤ b.2.2 := hrep.lvl_pos b hbL
  have hb32 : b.2.2 ≤ MAX_LEVEL := hrep.lvl_le b hbL
  have hbid : b.1 < s.nodes.length := hrep.id_lt hbL
  have hbcur : b.2.2 ≤ s.current_max_level := by
    have h1 := le_maxLvl hbL
    have h2 := hrep.curMax
    omega
  set u := (List.range s.current_max_level).map (predAt L v) with hu
  set s1 := unlinkLevels u b.1 s 0 b.2.2 with hs1
  have hupd : ∀ l, l < b.2.2 → u.getD l none = predAt L v l := by
    intro l hl
    rw [hu, range_map_getD, if_pos (by omega)]
  have hchar : ∀ l2, l2 < b.2.2 → ∀ r, getNext s1 r l2 =
      (if r = predAt L v l2 then getNext s (some b.1) l2
       else getNext s r l2) := by
    intro l2 hl2 r
    have h := unlinkLevels_in u b.1 b.2.2 0 s ?_ l2 r (by omega) (by omega)
    · rw [hupd l2 hl2] at h
      exact h
    · intro l3 h0 h3
      rw [hupd l3 (by omega)]
      exact predAt_okRef hrep v (by omega)
  have hhigh1 : ∀ l2, b.2.2 ≤ l2 → ∀ r, getNext s1 r l2 = getNext s r l2 := by
    intro l2 hl2 r
    exact unlinkLevels_out u b.1 b.2.2 0 s r l2 (Or.inr (by omega))
  have hsig1 : ∀ j, slotSig s1 j = slotSig s j :=
    fun j => unlinkLevels_slotSig u b.1 b.2.2 0 s j
  have hbid1 : b.1 < s1.nodes.length := by
    have hx : slotSig s1 b.1 = some (b.2.1, b.2.2, b.2.2) := by
      rw [hsig1]
      exact hrep.slots b hbL
    unfold slotSig at hx
    cases hy : s1.nodes.getD b.1 none with
    | none => rw [hy] at hx; exact absurd hx (by simp)
    | some nd => exact getD_some_lt_length hy
  set sfin : SkipList α :=
    { s1 with
      nodes := s1.nodes.set b.1 none
      current_max_level := shrinkLoop s1.headNext s1.current_max_level }
    with hsfin
  have hfree_sig : ∀ j, j ≠ b.1 → slotSig sfin j = slotSig s1 j := by
    intro j hj
    unfold slotSig
    rw [show sfin.nodes = s1.nodes.set b.1 none from rfl]
    rw [getD_set_general, if_neg]
    rintro ⟨h1, -⟩
    exact hj h1.symm
  have hfree_sig_b : slotSig sfin b.1 = none := by
    unfold slotSig
    rw [show sfin.nodes = s1.nodes.set b.1 none from rfl]
    rw [getD_set_general, if_pos ⟨rfl, hbid1⟩]
    rfl
  have hfree_g : ∀ (r : SLRef) (l : Nat), r ≠ some b.1 →
      getNext sfin r l = getNext s1 r l := by
    intro r l hr
    cases r with
    | none => rfl
    | some i =>
      have hi : i ≠ b.1 := fun hc => hr (by rw [hc])
      have hD : sfin.nodes.getD i none = s1.nodes.getD i none := by
        rw [show sfin.nodes = s1.nodes.set b.1 none from rfl]
        rw [getD_set_general, if_neg]
        rintro ⟨h1, -⟩
        exact hi h1.symm
      cases hx : s1.nodes.getD i none with
      | none =>
        rw [hx] at hD
        rw [getNext_some_none _ hD, getNext_some_none _ hx]
      | some nd =>
        rw [hx] at hD
        rw [getNext_some_some _ hD, getNext_some_some _ hx]
  -- id disjointness
  have hbB : b ∈ entsFrom L v := by
    rw [hB2]
    exact List.mem_cons_self _ _
  have hAneb : ∀ a ∈ entsBelow L v, a.1 ≠ b.1 :=
    fun a ha => below_from_id_disjoint hrep v a ha b hbB
  have hB2mem : ∀ e ∈ B2, e ∈ entsFrom L v := by
    intro e he
    rw [hB2]
    exact List.mem_cons_of_mem _ he
  have hB2neb : ∀ e ∈ B2, e.1 ≠ b.1 := by
    intro e he heq
    have hp := entsFrom_pairwise hrep.sorted v
    rw [hB2] at hp
    have hlt := (List.pairwise_cons.1 hp).1 e he
    have hvv := (hrep.sig_eq_of_id_eq (mem_entsFrom (hB2mem e he)) hbL heq).1
    rw [hvv] at hlt
    exact lt_irrefl _ hlt
  have hpred_ne_b : ∀ l, predAt L v l ≠ some b.1 := by
    intro l hc
    rcases predAt_none_or_old L v l with h | ⟨g, hg2, -, h⟩
    · rw [h] at hc
      exact absurd hc (by simp)
    · rw [h] at hc
      exact hAneb g hg2 (Option.some.inj hc)
  -- chain facts
  have hBvl : ∀ l, l < b.2.2 →
      ChainVals s l (predAt L v l) ((b.1, b.2.1) :: chainEnts B2 l) := by
    intro l hl
    have h := chain_from_pred hrep v l
    rw [hB2, chainEnts_cons, if_pos hl] at h
    exact h
  -- the final chains, proven before assembling the structure
  have hchainsfin : ∀ l, ChainVals sfin l none
      (chainEnts (entsBelow L v ++ B2) l) := by
    intro l
    rw [chainEnts_append]
    rcases Nat.lt_or_ge l b.2.2 with hl | hl
    · -- unlinked levels
      have hBl := hBvl l hl
      cases hBl with
      | @cons _ j2 w2 _ hgP hvP hrest =>
        -- the chain from the predecessor, bypassing b
        have hmidE : ChainVals sfin l (predAt L v l) (chainEnts B2 l) := by
          cases hB2c : chainEnts B2 l with
          | nil =>
            rw [hB2c] at hrest
            refine ChainVals.nil ?_
            rw [hfree_g _ _ (hpred_ne_b l), hchar l hl _, if_pos rfl]
            cases hrest with
            | nil hg0 => exact hg0
          | cons x rest2 =>
            rw [hB2c] at hrest
            cases hrest with
            | @cons _ j3 w3 _ hg3 hv3 hrest3 =>
              have hj3mem : ((j3, w3) : Nat × α) ∈ chainEnts B2 l := by
                rw [hB2c]
                exact List.mem_cons_self _ _
              obtain ⟨f3, hf3, -, hfe3⟩ := mem_chainEnts.1 hj3mem
              have hj3f : f3.1 = j3 := congrArg Prod.fst hfe3
              have hj3ne : j3 ≠ b.1 := by
                rw [← hj3f]
                exact hB2neb f3 hf3
              refine ChainVals.cons ?_ ?_ ?_
              · rw [hfree_g _ _ (hpred_ne_b l), hchar l hl _, if_pos rfl]
                exact hg3
              · rw [valueAt_eq_slotSig, hfree_sig j3 hj3ne, hsig1 j3,
                  ← valueAt_eq_slotSig]
                exact hv3
              · refine chainVals_congr hrest3 ?_ ?_
                · intro r2 hr2
                  have hr2B : ∃ y ∈ chainEnts B2 l, r2 = some y.1 := by
                    rcases hr2 with h | ⟨e2, he2, h⟩
                    · exact ⟨(j3, w3), hj3mem, h⟩
                    · refine ⟨e2, ?_, h⟩
                      rw [hB2c]
                      exact List.mem_cons_of_mem _ he2
                  obtain ⟨y, hy, hyeq⟩ := hr2B
                  obtain ⟨fy, hfy, -, hfey⟩ := mem_chainEnts.1 hy
                  have hyf : fy.1 = y.1 := by rw [← hfey]
                  have hyne : y.1 ≠ b.1 := by
                    rw [← hyf]
                    exact hB2neb fy hfy
                  have hynepred : some y.1 ≠ predAt L v l := by
                    intro hc
                    rcases predAt_none_or_old L v l with h2 | ⟨g, hg2, -, h2⟩
                    · rw [h2] at hc
                      exact absurd hc (by simp)
                    · rw [h2] at hc
                      have hyg : y.1 = g.1 := Option.some.inj hc
                      exact below_from_id_disjoint hrep v g hg2 fy
                        (hB2mem fy hfy) (by rw [← hyg, hyf])
                  have hcn1 : r2 ≠ some b.1 := by
                    rw [hyeq]
                    intro hc
                    exact hyne (Option.some.inj hc)
                  have hcn2 : ¬ r2 = predAt L v l := by
                    rw [hyeq]
                    exact hynepred
                  rw [hfree_g _ _ hcn1, hchar l hl _, if_neg hcn2]
                · intro j4 hj4
                  obtain ⟨e2, he2, hje⟩ := hj4
                  have hj4mem : ∃ y ∈ chainEnts B2 l, y.1 = j4 := by
                    refine ⟨e2, ?_, hje⟩
                    rw [hB2c]
                    exact List.mem_cons_of_mem _ he2
                  obtain ⟨y, hy, hyeq⟩ := hj4mem
                  obtain ⟨fy, hfy, -, hfey⟩ := mem_chainEnts.1 hy
                  have hyf : fy.1 = y.1 := by rw [← hfey]
                  have hyne : j4 ≠ b.1 := by
                    rw [← hyeq, ← hyf]
                    exact hB2neb fy hfy
                  rw [valueAt_eq_slotSig, valueAt_eq_slotSig,
                    hfree_sig j4 hyne, hsig1 j4]
        -- prepend the untouched part below v
        cases hAc : chainEnts (entsBelow L v) l with
        | nil =>
          have hpred : predAt L v l = none := by
            unfold predAt lastRef
            rw [hAc]
            rfl
          rw [List.nil_append]
          rw [hpred] at hmidE
          exact hmidE
        | cons a0 arest =>
          have hAne : chainEnts (entsBelow L v) l ≠ [] := by
            rw [hAc]
            simp
          have hpredA : predAt L v l =
              some ((chainEnts (entsBelow L v) l).getLast hAne).1 := by
            unfold predAt lastRef
            cases hc : (chainEnts (entsBelow L v) l).getLast? with
            | none =>
              rw [List.getLast?_eq_getLast _ hAne] at hc
              exact absurd hc (by simp)
            | some y =>
              rw [List.getLast?_eq_getLast _ hAne] at hc
              have hy : y = (chainEnts (entsBelow L v) l).getLast hAne :=
                (Option.some.inj hc).symm
              rw [hy]
          obtain ⟨glast, hglasteq⟩ :
              ∃ y, y = (chainEnts (entsBelow L v) l).getLast hAne := ⟨_, rfl⟩
          have hsplitA : (chainEnts (entsBelow L v) l).dropLast ++ [glast] =
              chainEnts (entsBelow L v) l := by
            rw [hglasteq]
            exact List.dropLast_append_getLast hAne
          have hpredA2 : predAt L v l = some glast.1 := by
            rw [hglasteq]
            exact hpredA
          have hsortAB : List.Pairwise (fun a c => a.2.1 < c.2.1)
              (entsBelow L v ++ entsFrom L v) := by
            have h := hrep.sorted
            rw [← entsBelow_append_entsFrom L v] at h
            exact h
          obtain ⟨hpA, -, -⟩ := List.pairwise_append.1 hsortAB
          have hchApair : List.Pairwise (fun x y : Nat × α => x.2 < y.2)
              (chainEnts (entsBelow L v) l) := by
            unfold chainEnts
            rw [List.pairwise_map]
            exact List.Pairwise.filter _ hpA
          have hAid : ∀ {x : Nat × α}, x ∈ chainEnts (entsBelow L v) l →
              x.1 < s.nodes.length ∧ x.1 ≠ b.1 := by
            intro x hx
            obtain ⟨f, hf, -, hfe⟩ := mem_chainEnts.1 hx
            have hxf : x.1 = f.1 := by rw [← hfe]
            constructor
            · rw [hxf]
              exact hrep.id_lt (mem_entsBelow hf)
            · rw [hxf]
              exact hAneb f hf
          have hdrop_ne : ∀ e ∈ (chainEnts (entsBelow L v) l).dropLast,
              e.1 ≠ glast.1 := by
            intro e he hid
            have hpair2 := hchApair
            rw [← hsplitA] at hpair2
            obtain ⟨-, -, hcross2⟩ := List.pairwise_append.1 hpair2
            have hval := hcross2 e he _ (List.mem_cons_self _ _)
            have hemem : e ∈ chainEnts (entsBelow L v) l :=
              (List.dropLast_sublist _).subset he
            have hgmem : glast ∈ chainEnts (entsBelow L v) l := by
              rw [← hsplitA]
              exact List.mem_append_right _ (List.mem_cons_self _ _)
            obtain ⟨f1, hf1, -, hfe1⟩ := mem_chainEnts.1 hemem
            obtain ⟨f2, hf2, -, hfe2⟩ := mem_chainEnts.1 hgmem
            have hfid : f1.1 = f2.1 := by
              have h1 : f1.1 = e.1 := by rw [← hfe1]
              have h2 : f2.1 = glast.1 := by rw [← hfe2]
              rw [h1, h2, hid]
            have hfv := (hrep.sig_eq_of_id_eq (mem_entsBelow hf1)
              (mem_entsBelow hf2) hfid).1
            have hv1 : e.2 = f1.2.1 := by rw [← hfe1]
            have hv2 : glast.2 = f2.2.1 := by rw [← hfe2]
            rw [hv1, hv2, hfv] at hval
            exact lt_irrefl _ hval
          have hpathA2 : ChainPath sfin l none
              (chainEnts (entsBelow L v) l) := by
            refine chainPath_congr (path_below hrep v l) ?_ ?_
            · intro r2 hr2
              have hr2a : r2 ≠ predAt L v l := by
                rcases hr2 with h | ⟨e, he, h⟩
                · rw [h, hpredA2]
                  simp
                · rw [h, hpredA2]
                  intro hc
                  exact hdrop_ne e he (Option.some.inj hc)
              have hr2b : r2 ≠ some b.1 := by
                rcases hr2 with h | ⟨e, he, h⟩
                · rw [h]
                  simp
                · rw [h]
                  intro hc
                  exact (hAid ((List.dropLast_sublist _).subset he)).2
                    (Option.some.inj hc)
              rw [hfree_g _ _ hr2b, hchar l hl _, if_neg hr2a]
            · intro j hj
              obtain ⟨e, he, hje⟩ := hj
              have hjb : j ≠ b.1 := by
                rw [← hje]
                exact (hAid he).2
              rw [valueAt_eq_slotSig, valueAt_eq_slotSig,
                hfree_sig j hjb, hsig1 j]
          rw [← hAc]
          exact chainPath_append hpathA2 hmidE
    · -- untouched levels
      have hBeq : chainEnts (entsFrom L v) l = chainEnts B2 l := by
        rw [hB2, chainEnts_cons, if_neg (by omega)]
      have hLl : chainEnts (entsBelow L v) l ++ chainEnts B2 l =
          chainEnts L l := by
        rw [← hBeq, ← chainEnts_append, entsBelow_append_entsFrom]
      rw [hLl]
      have hLid : ∀ {x : Nat × α}, x ∈ chainEnts L l →
          x.1 < s.nodes.length ∧ x.1 ≠ b.1 := by
        intro x hx
        obtain ⟨f, hf, hflvl, hfe⟩ := mem_chainEnts.1 hx
        have hxf : x.1 = f.1 := by rw [← hfe]
        constructor
        · rw [hxf]
          exact hrep.id_lt hf
        · rw [hxf]
          intro hc
          have := (hrep.sig_eq_of_id_eq hf hbL hc).2
          omega
      refine chainVals_congr (hrep.chains l) ?_ ?_
      · intro r2 hr2
        have hr2b : r2 ≠ some b.1 := by
          rcases hr2 with h | ⟨e, he, h⟩
          · rw [h]
            simp
          · rw [h]
            intro hc
            exact (hLid he).2 (Option.some.inj hc)
        rw [hfree_g _ _ hr2b, hhigh1 l hl _]
      · intro j hj
        obtain ⟨e, he, hje⟩ := hj
        have hjb : j ≠ b.1 := by
          rw [← hje]
          exact (hLid he).2
        rw [valueAt_eq_slotSig, valueAt_eq_slotSig, hfree_sig j hjb, hsig1 j]
  -- head-pointer characterization for the shrink loop
  have hhn : ∀ m, s1.headNext.getD m none = none ↔
      maxLvl (entsBelow L v ++ B2) ≤ m := by
    intro m
    constructor
    · intro h
      rw [maxLvl_le_iff]
      intro e he
      by_contra hgt
      have hmem : ((e.1, e.2.1) : Nat × α) ∈
          chainEnts (entsBelow L v ++ B2) m :=
        mem_chainEnts.2 ⟨e, he, by omega, rfl⟩
      cases hcc : chainEnts (entsBelow L v ++ B2) m with
      | nil => rw [hcc] at hmem; exact absurd hmem (by simp)
      | cons x rest =>
        have hch := hchainsfin m
        rw [hcc] at hch
        cases hch with
        | cons hg0 _ _ =>
          rw [show getNext sfin none m = s1.headNext.getD m none from rfl,
            h] at hg0
          exact absurd hg0 (by simp)
    · intro h
      have hnilc : chainEnts (entsBelow L v ++ B2) m = [] :=
        chainEnts_eq_nil (by rw [← maxLvl_le_iff]; exact h)
      have hch := hchainsfin m
      rw [hnilc] at hch
      cases hch with
      | nil hg0 =>
        rw [show getNext sfin none m = s1.headNext.getD m none from rfl] at hg0
        exact hg0
  have hmaxle : maxLvl (entsBelow L v ++ B2) ≤ maxLvl L := by
    rw [maxLvl_le_iff]
    intro e he
    rcases List.mem_append.1 he with h | h
    · exact le_maxLvl (mem_entsBelow h)
    · exact le_maxLvl (mem_entsFrom (hB2mem e h))
  have hcurfin : sfin.current_max_level =
      max 1 (maxLvl (entsBelow L v ++ B2)) := by
    rw [show sfin.current_max_level =
      shrinkLoop s1.headNext s1.current_max_level from rfl]
    rw [show s1.current_max_level = s.current_max_level from
      unlinkLevels_curMax u b.1 b.2.2 0 s]
    refine shrinkLoop_spec s1.headNext _ hhn s.current_max_level ?_
    have h2 := hrep.curMax
    omega
  -- assemble
  refine ⟨?_, hcurfin, ?_, ?_, ?_, ?_, ?_, hchainsfin⟩
  · rw [show sfin.headNext = s1.headNext from rfl]
    rw [unlinkLevels_headLen u b.1 b.2.2 0 s]
    exact hrep.headLen
  · intro e he
    rcases List.mem_append.1 he with h | h
    · exact hrep.lvl_pos e (mem_entsBelow h)
    · exact hrep.lvl_pos e (mem_entsFrom (hB2mem e h))
  · intro e he
    rcases List.mem_append.1 he with h | h
    · exact hrep.lvl_le e (mem_entsBelow h)
    · exact hrep.lvl_le e (mem_entsFrom (hB2mem e h))
  · intro e he
    have heL : e ∈ L ∧ e.1 ≠ b.1 := by
      rcases List.mem_append.1 he with h | h
      · exact ⟨mem_entsBelow h, hAneb e h⟩
      · exact ⟨mem_entsFrom (hB2mem e h), hB2neb e h⟩
    rw [hfree_sig e.1 heL.2, hsig1 e.1]
    exact hrep.slots e heL.1
  · intro i hi
    have hib : i ≠ b.1 := by
      intro hc
      have hx : slotSig sfin i ≠ none := by
        intro hx2
        exact hi ((slotSig_none_iff _ i).1 hx2)
      rw [hc] at hx
      exact hx hfree_sig_b
    have hsx : slotSig s i ≠ none := by
      intro hx
      refine hi ((slotSig_none_iff _ i).1 ?_)
      rw [hfree_sig i hib, hsig1 i]
      exact hx
    have hsx2 : s.nodes.getD i none ≠ none := by
      intro hc
      exact hsx ((slotSig_none_iff s i).2 hc)
    obtain ⟨e, heL, hei⟩ := hrep.live i hsx2
    have heAB : e ∈ entsBelow L v ++ entsFrom L v := by
      rw [entsBelow_append_entsFrom]
      exact heL
    rcases List.mem_append.1 heAB with h | h
    · exact ⟨e, List.mem_append_left _ h, hei⟩
    · rw [hB2] at h
      rcases List.mem_cons.1 h with rfl | h2
      · exact absurd hei.symm hib
      · exact ⟨e, List.mem_append_right _ h2, hei⟩
  · have hsub : (entsBelow L v ++ B2).Sublist L := by
      have h1 : B2.Sublist (b :: B2) := List.sublist_cons_self b B2
      have h2 := h1.append_left (entsBelow L v)
      rw [← hB2] at h2
      have h3 : entsBelow L v ++ entsFrom L v = L :=
        entsBelow_append_entsFrom L v
      rw [h3] at h2
      exact h2
    exact List.Pairwise.sublist hsub hrep.sorted

/-- `skiplist_erase` of a resident value succeeds and the new state is
represented by the table without that value's entry. -/
theorem repr_erase_found [LinearOrder α] {s : SkipList α}
    {L : List (Nat × α × Nat)} (hrep : SLRepr s L) {v : α}
    {b : Nat × α × Nat} (hv : vHead? L v = some b) :
    (skiplist_erase s v).1 = true ∧
    SLRepr (skiplist_erase s v).2
      (entsBelow L v ++ (entsFrom L v).tail) := by
  obtain ⟨hbL, hbv, B2, hB2⟩ := vHead?_spec hv
  have hwalkE : eraseWalk s v s.current_max_level none =
      ((List.range s.current_max_level).map (predAt L v), true) := by
    rw [← predAt_curMax_none hrep v, eraseWalk_spec hrep v, hv]
    have h1 := curMax_one_le hrep
    simp [h1]
  have hb1 : 1 ≤ b.2.2 := hrep.lvl_pos b hbL
  have hupd0 : ((List.range s.current_max_level).map (predAt L v)).getD 0 none
      = predAt L v 0 := by
    rw [range_map_getD, if_pos (show 0 < s.current_max_level from curMax_one_le hrep)]
  have hBv0 := chain_from_pred hrep v 0
  rw [hB2, chainEnts_cons, if_pos (by omega)] at hBv0
  have hnode : getNext s
      (((List.range s.current_max_level).map (predAt L v)).getD 0 none) 0 =
      some b.1 := by
    rw [hupd0]
    cases hBv0 with
    | cons hg _ _ => exact hg
  have hlev : levelAt s b.1 = b.2.2 := by
    rw [levelAt_eq_slotSig, hrep.slots b hbL]
    rfl
  have hstate := skiplist_erase_eq s v _ hwalkE b.1 hnode
  rw [hlev] at hstate
  rw [hstate, hB2]
  exact ⟨rfl, erase_repr hrep hv hB2⟩

/-! ### Operation sequences -/

/-- A fresh list is represented by the empty table. -/
theorem create_repr [LinearOrder α] :
    SLRepr (skiplist_create α) ([] : List (Nat × α × Nat)) := by
  refine ⟨?_, ?_, ?_, ?_, ?_, ?_, ?_, ?_⟩
  · exact List.length_replicate _ _
  · show 1 = max 1 (maxLvl ([] : List (Nat × α × Nat)))
    rw [maxLvl_nil]
    omega
  · intro e he
    exact absurd he (by simp)
  · intro e he
    exact absurd he (by simp)
  · intro e he
    exact absurd he (by simp)
  · intro i hi
    exact absurd rfl hi
  · exact List.Pairwise.nil
  · intro l
    refine ChainVals.nil ?_
    show (List.replicate MAX_LEVEL (none : Option Nat)).getD l none = none
    exact getD_replicate_none _ _

/-- The table membership after inserting a fresh `v`. -/
theorem insert_table_corr [LinearOrder α] (L : List (Nat × α × Nat))
    (v w : α) (nid lvl : Nat) :
    (∃ e ∈ entsBelow L v ++ (nid, v, lvl) :: entsFrom L v, e.2.1 = w) ↔
      (w = v ∨ ∃ e ∈ L, e.2.1 = w) := by
  constructor
  · rintro ⟨e, he, hew⟩
    rcases List.mem_append.1 he with h | h
    · exact Or.inr ⟨e, mem_entsBelow h, hew⟩
    · rcases List.mem_cons.1 h with rfl | h2
      · exact Or.inl hew.symm
      · exact Or.inr ⟨e, mem_entsFrom h2, hew⟩
  · rintro (rfl | ⟨e, he, hew⟩)
    · exact ⟨(nid, w, lvl), List.mem_append_right _ (List.mem_cons_self _ _),
        rfl⟩
    · have h2 : e ∈ entsBelow L v ++ entsFrom L v := by
        rw [entsBelow_append_entsFrom]
        exact he
      rcases List.mem_append.1 h2 with h | h
      · exact ⟨e, List.mem_append_left _ h, hew⟩
      · exact ⟨e, List.mem_append_right _ (List.mem_cons_of_mem _ h), hew⟩

/-- The table membership after erasing the resident `v`. -/
theorem erase_table_corr [LinearOrder α] {s : SkipList α}
    {L : List (Nat × α × Nat)} (hrep : SLRepr s L) {v : α}
    {b : Nat × α × Nat} (hv : vHead? L v = some b) (w : α) :
    (∃ e ∈ entsBelow L v ++ (entsFrom L v).tail, e.2.1 = w) ↔
      (w ≠ v ∧ ∃ e ∈ L, e.2.1 = w) := by
  obtain ⟨hbL, hbv, B2, hB2⟩ := vHead?_spec hv
  rw [hB2]
  constructor
  · rintro ⟨e, he, hew⟩
    rcases List.mem_append.1 he with h | h
    · refine ⟨?_, e, mem_entsBelow h, hew⟩
      rw [← hew]
      exact ne_of_lt (mem_entsBelow_lt h)
    · have h2 : e ∈ B2 := h
      have heB : e ∈ entsFrom L v := by
        rw [hB2]
        exact List.mem_cons_of_mem _ h2
      refine ⟨?_, e, mem_entsFrom heB, hew⟩
      have hp := entsFrom_pairwise hrep.sorted v
      rw [hB2] at hp
      have hlt := (List.pairwise_cons.1 hp).1 e h2
      rw [hbv] at hlt
      rw [← hew]
      exact ne_of_gt hlt
  · rintro ⟨hwv, e, he, hew⟩
    have h2 : e ∈ entsBelow L v ++ entsFrom L v := by
      rw [entsBelow_append_entsFrom]
      exact he
    rcases List.mem_append.1 h2 with h | h
    · exact ⟨e, List.mem_append_left _ h, hew⟩
    · rw [hB2] at h
      rcases List.mem_cons.1 h with rfl | h3
      · exact absurd (hew.symm.trans hbv) hwv
      · exact ⟨e, List.mem_append_right _ h3, hew⟩

/-- An operation against the ordered index: insert (with the level the
RNG produced) or erase. -/
inductive SLOp (α : Type) where
  | ins (v : α) (lvl : Nat)
  | del (v : α)

/-- Run a sequence of operations from a state. -/
def slRun [LinearOrder α] (s : SkipList α) : List (SLOp α) → SkipList α
  | [] => s
  | SLOp.ins v lvl :: ops => slRun (skiplist_insert s v lvl).2 ops
  | SLOp.del v :: ops => slRun (skiplist_erase s v).2 ops

/-- Every insert level lies in the `random_level` range `[1, MAX_LEVEL]`. -/
def opsOK : List (SLOp α) → Bool
  | [] => true
  | SLOp.ins _ lvl :: ops =>
      decide (1 ≤ lvl) && decide (lvl ≤ MAX_LEVEL) && opsOK ops
  | SLOp.del _ :: ops => opsOK ops

/-- The specification: the same operations on a finite set. -/
def specRun [LinearOrder α] : List (SLOp α) → Finset α → Finset α
  | [], m => m
  | SLOp.ins v _ :: ops, m => specRun ops (insert v m)
  | SLOp.del v :: ops, m => specRun ops (m.erase v)

theorem vHead?_of_mem [LinearOrder α] {s : SkipList α}
    {L : List (Nat × α × Nat)} (hrep : SLRepr s L) {v : α}
    (h : ∃ e ∈ L, e.2.1 = v) : (vHead? L v).isSome = true :=
  (vHead?_isSome_iff hrep.sorted v).2 h

theorem vHead?_of_not_mem [LinearOrder α] {s : SkipList α}
    {L : List (Nat × α × Nat)} (_hrep : SLRepr s L) {v : α}
    (h : ¬ ∃ e ∈ L, e.2.1 = v) : vHead? L v = none := by
  cases hv : vHead? L v with
  | none => rfl
  | some b => exact absurd ⟨b, (vHead?_spec hv).1, (vHead?_spec hv).2.1⟩ h

/-- Along any well-leveled run, the state stays represented by a table
whose values are the specification set. -/
theorem slRun_repr [LinearOrder α] :
    ∀ (ops : List (SLOp α)) (s : SkipList α) (L : List (Nat × α × Nat))
      (m : Finset α), opsOK ops = true → SLRepr s L →
      (∀ w, (∃ e ∈ L, e.2.1 = w) ↔ w ∈ m) →
      ∃ L2, SLRepr (slRun s ops) L2 ∧
        (∀ w, (∃ e ∈ L2, e.2.1 = w) ↔ w ∈ specRun ops m) := by
  intro ops
  induction ops with
  | nil =>
    intro s L m hok hrep hcorr
    exact ⟨L, hrep, hcorr⟩
  | cons op rest ih =>
    intro s L m hok hrep hcorr
    cases op with
    | ins v lvl =>
      have hok2 : opsOK rest = true ∧ 1 ≤ lvl ∧ lvl ≤ MAX_LEVEL := by
        rw [show opsOK (SLOp.ins v lvl :: rest) =
          (decide (1 ≤ lvl) && decide (lvl ≤ MAX_LEVEL) && opsOK rest)
          from rfl] at hok
        simp at hok
        tauto
      rw [show slRun s (SLOp.ins v lvl :: rest) =
        slRun (skiplist_insert s v lvl).2 rest from rfl]
      rw [show specRun (SLOp.ins v lvl :: rest) m =
        specRun rest (insert v m) from rfl]
      cases hv : vHead? L v with
      | some b =>
        have hdup := repr_insert_dup hrep (by rw [hv]; rfl) lvl
        rw [hdup]
        have hvm : v ∈ m :=
          (hcorr v).1 ⟨b, (vHead?_spec hv).1, (vHead?_spec hv).2.1⟩
        rw [Finset.insert_eq_self.2 hvm]
        exact ih s L m hok2.1 hrep hcorr
      | none =>
        obtain ⟨-, hrep2⟩ := repr_insert_new hrep hv hok2.2.1 hok2.2.2
        refine ih _ _ _ hok2.1 hrep2 ?_
        intro w
        rw [Finset.mem_insert, ← hcorr w]
        exact insert_table_corr L v w s.nodes.length lvl
    | del v =>
      have hok2 : opsOK rest = true := by
        rw [show opsOK (SLOp.del v :: rest) = opsOK rest from rfl] at hok
        exact hok
      rw [show slRun s (SLOp.del v :: rest) =
        slRun (skiplist_erase s v).2 rest from rfl]
      rw [show specRun (SLOp.del v :: rest) m =
        specRun rest (m.erase v) from rfl]
      cases hv : vHead? L v with
      | none =>
        rw [repr_erase_absent hrep hv]
        have hvm : v ∉ m := by
          intro hc
          have h2 := vHead?_of_mem hrep ((hcorr v).2 hc)
          rw [hv] at h2
          exact absurd h2 (by simp)
        rw [Finset.erase_eq_self.2 hvm]
        exact ih s L m hok2 hrep hcorr
      | some b =>
        obtain ⟨-, hrep2⟩ := repr_erase_found hrep hv
        refine ih _ _ _ hok2 hrep2 ?_
        intro w
        rw [Finset.mem_erase, ← hcorr w]
        exact erase_table_corr hrep hv w

/-- **C5.** OrderedIndex behaves as a set under insert/contains/erase:
after any sequence of inserts and erases from a fresh index (each insert
using a level in the `random_level` range), contains reports exactly the
not-yet-erased inserted values; inserting a resident value returns false
and leaves the state (hence all containment) unchanged; inserting a
fresh value succeeds and afterwards exactly it is newly contained;
erasing a resident value succeeds and removes exactly it; erasing from
an empty index or of an absent value returns false with the state
unchanged; re-inserting a just-erased value succeeds. -/
theorem C5_set_semantics [LinearOrder α] (ops : List (SLOp α))
    (hops : opsOK ops = true) :
    (∀ v, skiplist_contain (slRun (skiplist_create α) ops) v =
        decide (v ∈ specRun ops ∅)) ∧
    (∀ v lvl, v ∈ specRun ops ∅ →
        skiplist_insert (slRun (skiplist_create α) ops) v lvl =
          (false, slRun (skiplist_create α) ops)) ∧
    (∀ v lvl, 1 ≤ lvl → lvl ≤ MAX_LEVEL → v ∉ specRun ops ∅ →
        (skiplist_insert (slRun (skiplist_create α) ops) v lvl).1 = true ∧
        ∀ w, skiplist_contain
            (skiplist_insert (slRun (skiplist_create α) ops) v lvl).2 w =
          decide (w = v ∨ w ∈ specRun ops ∅)) ∧
    (∀ v, v ∈ specRun ops ∅ →
        (skiplist_erase (slRun (skiplist_create α) ops) v).1 = true ∧
        ∀ w, skiplist_contain
            (skiplist_erase (slRun (skiplist_create α) ops) v).2 w =
          decide (w ≠ v ∧ w ∈ specRun ops ∅)) ∧
    (∀ v, v ∉ specRun ops ∅ →
        skiplist_erase (slRun (skiplist_create α) ops) v =
          (false, slRun (skiplist_create α) ops)) ∧
    (∀ v lvl, 1 ≤ lvl → lvl ≤ MAX_LEVEL → v ∈ specRun ops ∅ →
        (skiplist_insert
          ((skiplist_erase (slRun (skiplist_create α) ops) v).2) v lvl).1 =
          true) := by
  classical
  obtain ⟨L, hrep, hcorr⟩ := slRun_repr ops (skiplist_create α) [] ∅ hops
    create_repr (by simp)
  have hcontain : ∀ {s2 : SkipList α} {L2 : List (Nat × α × Nat)},
      SLRepr s2 L2 → (∀ w, (∃ e ∈ L2, e.2.1 = w) ↔ w ∈ specRun ops ∅) →
      True := fun _ _ => trivial
  refine ⟨?_, ?_, ?_, ?_, ?_, ?_⟩
  · intro v
    rw [repr_contain hrep v]
    cases hh : (vHead? L v).isSome with
    | true =>
      have hm := (hcorr v).1 ((vHead?_isSome_iff hrep.sorted v).1 hh)
      simp [hm]
    | false =>
      have hnm : v ∉ specRun ops ∅ := by
        intro hm
        rw [vHead?_of_mem hrep ((hcorr v).2 hm)] at hh
        exact Bool.noConfusion hh
      simp [hnm]
  · intro v lvl hm
    exact repr_insert_dup hrep (vHead?_of_mem hrep ((hcorr v).2 hm)) lvl
  · intro v lvl h1 h2 hnm
    have hno : vHead? L v = none :=
      vHead?_of_not_mem hrep (fun hc => hnm ((hcorr v).1 hc))
    obtain ⟨hres, hrep2⟩ := repr_insert_new hrep hno h1 h2
    refine ⟨hres, ?_⟩
    intro w
    rw [repr_contain hrep2 w]
    have hiff2 : (∃ e ∈ entsBelow L v ++
        ((slRun (skiplist_create α) ops).nodes.length, v, lvl) ::
        entsFrom L v, e.2.1 = w) ↔ (w = v ∨ w ∈ specRun ops ∅) := by
      rw [insert_table_corr L v w _ lvl, hcorr w]
    cases hh : (vHead? (entsBelow L v ++
        ((slRun (skiplist_create α) ops).nodes.length, v, lvl) ::
        entsFrom L v) w).isSome with
    | true =>
      have hm := hiff2.1 ((vHead?_isSome_iff hrep2.sorted w).1 hh)
      simp [hm]
    | false =>
      have hnm2 : ¬(w = v ∨ w ∈ specRun ops ∅) := by
        intro hm
        rw [vHead?_of_mem hrep2 (hiff2.2 hm)] at hh
        exact Bool.noConfusion hh
      simp only [decide_eq_false hnm2]
  · intro v hm
    have hsome := vHead?_of_mem hrep ((hcorr v).2 hm)
    obtain ⟨b, hb⟩ := Option.isSome_iff_exists.1 hsome
    obtain ⟨hres, hrep2⟩ := repr_erase_found hrep hb
    refine ⟨hres, ?_⟩
    intro w
    rw [repr_contain hrep2 w]
    have hiff2 : (∃ e ∈ entsBelow L v ++ (entsFrom L v).tail, e.2.1 = w) ↔
        (w ≠ v ∧ w ∈ specRun ops ∅) := by
      rw [erase_table_corr hrep hb w, hcorr w]
    cases hh : (vHead? (entsBelow L v ++ (entsFrom L v).tail) w).isSome with
    | true =>
      have hm2 := hiff2.1 ((vHead?_isSome_iff hrep2.sorted w).1 hh)
      simp [hm2.1, hm2.2]
    | false =>
      have hnm2 : ¬(w ≠ v ∧ w ∈ specRun ops ∅) := by
        intro hm2
        rw [vHead?_of_mem hrep2 (hiff2.2 hm2)] at hh
        exact Bool.noConfusion hh
      simp only [decide_eq_false hnm2]
  · intro v hnm
    exact repr_erase_absent hrep
      (vHead?_of_not_mem hrep (fun hc => hnm ((hcorr v).1 hc)))
  · intro v lvl h1 h2 hm
    have hsome := vHead?_of_mem hrep ((hcorr v).2 hm)
    obtain ⟨b, hb⟩ := Option.isSome_iff_exists.1 hsome
    obtain ⟨-, hrep2⟩ := repr_erase_found hrep hb
    have hno2 : vHead? (entsBelow L v ++ (entsFrom L v).tail) v = none := by
      refine vHead?_of_not_mem hrep2 ?_
      intro hc
      exact ((erase_table_corr hrep hb v).1 hc).1 rfl
    exact (repr_insert_new hrep2 hno2 h1 h2).1

/-- C5 witness: the run insert 5 (level 2), insert 3 (level 1),
erase 5 — afterwards 3 is contained and 5 is not, re-inserting 3 is
rejected unchanged, and 3 can be erased and re-inserted. -/
theorem C5_witness :
    skiplist_contain (slRun (skiplist_create Nat)
      [SLOp.ins 5 2, SLOp.ins 3 1, SLOp.del 5]) 3 = true ∧
    skiplist_contain (slRun (skiplist_create Nat)
      [SLOp.ins 5 2, SLOp.ins 3 1, SLOp.del 5]) 5 = false ∧
    skiplist_insert (slRun (skiplist_create Nat)
      [SLOp.ins 5 2, SLOp.ins 3 1, SLOp.del 5]) 3 4 =
      (false, slRun (skiplist_create Nat)
        [SLOp.ins 5 2, SLOp.ins 3 1, SLOp.del 5]) ∧
    (skiplist_erase (slRun (skiplist_create Nat)
      [SLOp.ins 5 2, SLOp.ins 3 1, SLOp.del 5]) 3).1 = true ∧
    (skiplist_insert (skiplist_erase (slRun (skiplist_create Nat)
      [SLOp.ins 5 2, SLOp.ins 3 1, SLOp.del 5]) 3).2 3 1).1 = true := by
  have h := @C5_set_semantics Nat _
    [SLOp.ins 5 2, SLOp.ins 3 1, SLOp.del 5] (by decide)
  refine ⟨?_, ?_, ?_, ?_, ?_⟩
  · rw [h.1 3]
    decide
  · rw [h.1 5]
    decide
  · exact h.2.1 3 4 (by decide)
  · exact (h.2.2.2.1 3 (by decide)).1
  · exact h.2.2.2.2.2 3 1 (by decide) (by decide) (by decide)

/-! ### Structural invariants of reachable states -/

/-- The largest level among resident nodes (0 on an empty index). -/
def maxLiveLevel (s : SkipList α) : Nat :=
  (List.range s.nodes.length).foldr (fun j m => max (levelAt s j) m) 0

theorem foldr_max_le_iff (f : Nat → Nat) :
    ∀ (l : List Nat) (k : Nat),
      l.foldr (fun j m => max (f j) m) 0 ≤ k ↔ ∀ j ∈ l, f j ≤ k := by
  intro l
  induction l with
  | nil => intro k; simp
  | cons a t ih =>
    intro k
    rw [List.foldr_cons]
    simp only [List.mem_cons]
    constructor
    · intro h j hj
      rcases hj with rfl | hj
      · omega
      · exact (ih k).1 (by omega) j hj
    · intro h
      have h1 := h a (Or.inl rfl)
      have h2 := (ih k).2 (fun j hj => h j (Or.inr hj))
      omega

theorem maxLiveLevel_le_iff (s : SkipList α) (k : Nat) :
    maxLiveLevel s ≤ k ↔ ∀ j, j < s.nodes.length → levelAt s j ≤ k := by
  unfold maxLiveLevel
  rw [foldr_max_le_iff]
  constructor
  · intro h j hj
    exact h j (List.mem_range.2 hj)
  · intro h j hj
    exact h j (List.mem_range.1 hj)

theorem maxLiveLevel_eq [LinearOrder α] {s : SkipList α}
    {L : List (Nat × α × Nat)} (hrep : SLRepr s L) :
    maxLiveLevel s = maxLvl L := by
  have hlev : ∀ e ∈ L, levelAt s e.1 = e.2.2 := by
    intro e he
    rw [levelAt_eq_slotSig, hrep.slots e he]
    rfl
  refine Nat.le_antisymm ?_ ?_
  · rw [maxLiveLevel_le_iff]
    intro j hj
    cases hx : s.nodes.getD j none with
    | none =>
      rw [show levelAt s j = 0 from by unfold levelAt; rw [hx]]
      omega
    | some nd =>
      obtain ⟨e, he, hei⟩ := hrep.live j (by rw [hx]; simp)
      rw [← hei, hlev e he]
      exact le_maxLvl he
  · rw [maxLvl_le_iff]
    intro e he
    rw [← hlev e he]
    exact (maxLiveLevel_le_iff s (maxLiveLevel s)).1 le_rfl e.1 (hrep.id_lt he)

/-- The states reachable from a fresh index by inserts (with levels in
the `random_level` range) and erases. -/
inductive SLReach [LinearOrder α] : SkipList α → Prop where
  | create : SLReach (skiplist_create α)
  | insert {s : SkipList α} (v : α) (lvl : Nat) : SLReach s → 1 ≤ lvl →
      lvl ≤ MAX_LEVEL → SLReach (skiplist_insert s v lvl).2
  | erase {s : SkipList α} (v : α) : SLReach s →
      SLReach (skiplist_erase s v).2

/-- Every reachable state is represented by some table. -/
theorem reach_repr [LinearOrder α] {s : SkipList α} (h : SLReach s) :
    ∃ L, SLRepr s L := by
  induction h with
  | create => exact ⟨[], create_repr⟩
  | insert v lvl hr h1 h2 ih =>
    obtain ⟨L, hrep⟩ := ih
    cases hv : vHead? L v with
    | some b =>
      rw [repr_insert_dup hrep (by rw [hv]; rfl) lvl]
      exact ⟨L, hrep⟩
    | none => exact ⟨_, (repr_insert_new hrep hv h1 h2).2⟩
  | erase v hr ih =>
    obtain ⟨L, hrep⟩ := ih
    cases hv : vHead? L v with
    | none =>
      rw [repr_erase_absent hrep hv]
      exact ⟨L, hrep⟩
    | some b => exact ⟨_, (repr_erase_found hrep hv).2⟩

theorem sorted_val_inj [LinearOrder α] :
    ∀ (L : List (Nat × α × Nat)),
      List.Pairwise (fun a b => a.2.1 < b.2.1) L →
      ∀ e ∈ L, ∀ f ∈ L, e.2.1 = f.2.1 → e = f := by
  intro L
  induction L with
  | nil =>
    intro h e he
    exact absurd he (by simp)
  | cons a t ih =>
    intro h e he f hf heq
    rw [List.pairwise_cons] at h
    rcases List.mem_cons.1 he with rfl | he2
    · rcases List.mem_cons.1 hf with rfl | hf2
      · rfl
      · exact absurd heq (ne_of_lt (h.1 f hf2))
    · rcases List.mem_cons.1 hf with rfl | hf2
      · exact absurd heq.symm (ne_of_lt (h.1 e he2))
      · exact ih h.2 e he2 f hf2 heq

/-- **C6** (amended). In every state reachable from a fresh index by
inserts and erases: no two resident values compare equal; at every level
`l` the chain of level-`l` forward links from the head sentinel visits
exactly the residents of level above `l`, in strictly increasing value
order; and `current_max_level` equals the highest level of any resident
node whenever one is resident, and 1 on an empty index — that is, it
always equals `max 1 (maxLiveLevel s)`.  (The unamended claim — equality
with the highest resident level outright — fails on the reachable empty
states, where `current_max_level` is 1 and there is no resident node;
see the counterexample.) -/
theorem C6_structural_invariants [LinearOrder α] (s : SkipList α)
    (hreach : SLReach s) :
    (∀ i j vi vj, valueAt s i = some vi → valueAt s j = some vj → i ≠ j →
      vi ≠ vj) ∧
    (∀ l, ∃ xs, ChainVals s l none xs ∧
      List.Pairwise (fun x y : Nat × α => x.2 < y.2) xs ∧
      (∀ j, (∃ x ∈ xs, x.1 = j) ↔ l < levelAt s j)) ∧
    s.current_max_level = max 1 (maxLiveLevel s) := by
  obtain ⟨L, hrep⟩ := reach_repr hreach
  refine ⟨?_, ?_, ?_⟩
  · intro i j vi vj hvi hvj hij hvv
    have hlive_i : s.nodes.getD i none ≠ none := by
      intro hc
      unfold valueAt at hvi
      rw [hc] at hvi
      exact Option.noConfusion hvi
    have hlive_j : s.nodes.getD j none ≠ none := by
      intro hc
      unfold valueAt at hvj
      rw [hc] at hvj
      exact Option.noConfusion hvj
    obtain ⟨e, heL, hei⟩ := hrep.live i hlive_i
    obtain ⟨f, hfL, hfj⟩ := hrep.live j hlive_j
    have hvi2 : vi = e.2.1 := by
      have h2 := valueAt_of_slots hrep heL
      rw [hei] at h2
      rw [h2] at hvi
      exact (Option.some.inj hvi).symm
    have hvj2 : vj = f.2.1 := by
      have h2 := valueAt_of_slots hrep hfL
      rw [hfj] at h2
      rw [h2] at hvj
      exact (Option.some.inj hvj).symm
    have hef : e = f := by
      refine sorted_val_inj L hrep.sorted e heL f hfL ?_
      rw [← hvi2, ← hvj2, hvv]
    rw [← hei, ← hfj, hef] at hij
    exact hij rfl
  · intro l
    refine ⟨chainEnts L l, hrep.chains l, ?_, ?_⟩
    · unfold chainEnts
      rw [List.pairwise_map]
      exact List.Pairwise.filter _ hrep.sorted
    · intro j
      constructor
      · rintro ⟨x, hx, hxj⟩
        obtain ⟨f, hf, hfl, hfe⟩ := mem_chainEnts.1 hx
        have hfx : f.1 = x.1 := by rw [← hfe]
        have hlev : levelAt s j = f.2.2 := by
          rw [← hxj, ← hfx, levelAt_eq_slotSig, hrep.slots f hf]
          rfl
        omega
      · intro hlj
        have hlive : s.nodes.getD j none ≠ none := by
          intro hc
          rw [show levelAt s j = 0 from by unfold levelAt; rw [hc]] at hlj
          omega
        obtain ⟨e, heL, hei⟩ := hrep.live j hlive
        have hlev : levelAt s j = e.2.2 := by
          rw [← hei, levelAt_eq_slotSig, hrep.slots e heL]
          rfl
        exact ⟨(e.1, e.2.1), mem_chainEnts.2 ⟨e, heL, by omega, rfl⟩, hei⟩
  · rw [hrep.curMax, maxLiveLevel_eq hrep]

/-- C6 counterexample to the unamended claim: both the fresh index and
the index obtained by inserting 5 at level 3 and erasing it again are
reachable, have no resident node (highest resident level 0), yet their
`current_max_level` is 1, not 0. -/
theorem C6_counterexample :
    ((skiplist_create Nat).current_max_level = 1 ∧
      maxLiveLevel (skiplist_create Nat) = 0) ∧
    ((skiplist_erase (skiplist_insert (skiplist_create Nat) 5 3).2
        5).2.current_max_level = 1 ∧
      maxLiveLevel (skiplist_erase
        (skiplist_insert (skiplist_create Nat) 5 3).2 5).2 = 0 ∧
      (∀ j, j < (skiplist_erase (skiplist_insert (skiplist_create Nat) 5 3).2
          5).2.nodes.length →
        valueAt (skiplist_erase (skiplist_insert (skiplist_create Nat) 5 3).2
          5).2 j = none)) ∧
    (1 : Nat) ≠ 0 := by
  decide

/-- C6 witness: a state with one resident node of level 2. -/
theorem C6_witness :
    (skiplist_insert (skiplist_create Nat) 5 2).2.current_max_level =
      max 1 (maxLiveLevel (skiplist_insert (skiplist_create Nat) 5 2).2) :=
  (C6_structural_invariants _
    (SLReach.insert 5 2 SLReach.create (by decide) (by decide))).2.2

end RedisC
